import Mathlib

/-!
# A shallow embedding of the `teven` fair-allocation engine

This file embeds the core objects of `src/lib/objects.py` (classes
`DateInterval`, `Person`, `Group`, `LaborPool`) and their operations
(`Group.take`, `LaborPool.set_ddnws`, `LaborPool.take`, `exclude`,
`decrease`, `reset`, `get_muprime`, `get_dayoffs`, `get_vacants`) as pure
Lean functions over an explicit pool state, and proves the spec's claims
about them.

Modelling conventions:
* Python `date` objects are identified with their ordinal, an `Int`
  (`tomorrow(d, k)` is `d + k`, `d1 <= d2` is integer comparison).
* Python object references become indices: a `Person` is a `Nat` index
  into the pool's person table, a `Group` a `Nat` index into the group
  table.  The back-references `Person.group` and `DateInterval.person`
  become stored indices, and `Group.pool` is implicit (there is a single
  pool state).
* Python `float` quantities (`rank`, `fraction`, `muprime`, `dnw`) are
  modelled as exact fractions (`Frac`: an `Int` numerator over a positive
  `Nat` denominator, with the evident exact arithmetic; `Frac.q` maps
  them to `ℚ`).  All float operations the code performs on them (adding
  small integers, the divisions, comparisons, `round`) are modelled
  exactly; `round` is Python's round-half-to-even.
* The person/group tables are total functions `Nat → Person` /
  `Nat → Group`; only indices below `numGroups` (resp. indices reachable
  from group member lists) correspond to real Python objects.
* In-place mutation becomes explicit state passing, and a method that can
  raise returns an `Except Err _` result *together with* the state at the
  moment of the raise (Python exceptions do not roll back mutations).
* `list.sort(key=...)` (Timsort, stable) is modelled by a stable
  insertion sort `sortBy` (a stable sort's output is determined uniquely
  by the comparison, so any stable sort is a faithful model);
  `list.remove` guarded by a membership test is exactly `List.erase`.
-/

namespace Teven

deriving instance DecidableEq for Except

/-- Insert `a` into `l` before the first element `b` with `le a b`:
the insertion step of a stable insertion sort. -/
def orderedInsertB (le : α → α → Bool) (a : α) : List α → List α
  | [] => [a]
  | b :: l => if le a b then a :: b :: l else b :: orderedInsertB le a l

/-- Stable insertion sort.  Python's `list.sort` (Timsort) is stable, and
a stable sort's output is uniquely determined by the (total, decidable)
comparison, so this models `sort(key=...)` faithfully while remaining
structurally recursive. -/
def sortBy (le : α → α → Bool) : List α → List α
  | [] => []
  | a :: l => orderedInsertB le a (sortBy le l)

/-- An exact fraction: an integer numerator over a positive natural
denominator (not necessarily reduced).  This is the model of the float
values the engine computes with; all operations used by the code are
exact on the rationals involved, so exact fractions model them
faithfully while staying kernel-computable. -/
structure Frac where
  num : Int
  den : Nat
  den_pos : 0 < den
deriving DecidableEq, Repr

/-- Embed an integer. -/
def Frac.ofInt (n : Int) : Frac := ⟨n, 1, one_pos⟩

/-- Exact addition. -/
def Frac.add (x y : Frac) : Frac :=
  ⟨x.num * y.den + y.num * x.den, x.den * y.den, Nat.mul_pos x.den_pos y.den_pos⟩

/-- Exact negation. -/
def Frac.neg (x : Frac) : Frac := ⟨-x.num, x.den, x.den_pos⟩

/-- Exact subtraction. -/
def Frac.sub (x y : Frac) : Frac := x.add y.neg

/-- Exact multiplication. -/
def Frac.mul (x y : Frac) : Frac :=
  ⟨x.num * y.num, x.den * y.den, Nat.mul_pos x.den_pos y.den_pos⟩

/-- Comparison `x <= y` (valid because denominators are positive). -/
def Frac.le (x y : Frac) : Bool := decide (x.num * y.den ≤ y.num * x.den)

/-- Comparison `x < y`. -/
def Frac.lt (x y : Frac) : Bool := decide (x.num * y.den < y.num * x.den)

/-- `math.floor` of the fraction (`Int` division in Lean rounds toward
`-∞` for a positive divisor). -/
def Frac.floor (x : Frac) : Int := x.num / (x.den : Int)

/-- The constant `0.5`. -/
def Frac.half : Frac := ⟨1, 2, two_pos⟩

/-- The value of the fraction as a rational number. -/
def Frac.q (x : Frac) : ℚ := (x.num : ℚ) / (x.den : ℚ)

/-- Python's `round` (round half to even) of the fraction. -/
def pyround (x : Frac) : Int :=
  let f := x.floor
  let r := x.sub (Frac.ofInt f)
  if r.lt Frac.half then f
  else if Frac.half.lt r then f + 1
  else if f % 2 = 0 then f else f + 1

/-- Errors the engine can raise: the two `TevenError` subclasses of
`objects.py`, plus the Python runtime errors the code can hit
(`ZeroDivisionError` in `get_muprime`, and the `UnboundLocalError`
raised by `LaborPool.take`'s `return labors` before `labors` is bound). -/
inductive Err where
  | ranOutOfMember
  | ranOutOfGroup
  | zeroDivision
  | unboundLocal
deriving DecidableEq, Repr

/-- `DateInterval` from `objects.py`: a closed date range owned by a
person (dates as ordinals, owner as a person index). -/
structure DateInterval where
  start_date : Int
  end_date : Int
  person : Nat
deriving DecidableEq, Repr

/-- `DateInterval.contains`: `start_date <= query_date <= end_date`. -/
def DateInterval.containsD (iv : DateInterval) (d : Int) : Bool :=
  decide (iv.start_date ≤ d) && decide (d ≤ iv.end_date)

/-- `Person` from `objects.py`.  `fraction` is kept as a ghost field (the
Python constructor receives it but does not store it); no operation reads
it, it only serves to state the `rank = count + fraction` invariant. -/
structure Person where
  name : String
  gid : Nat
  precount : Int
  fraction : Frac
  rank : Frac
  count : Int
  real_count : Int
  dayoffs : List DateInterval
  vacants : List DateInterval
deriving DecidableEq, Repr

/-- `Person.__init__`: `rank = -precount + fraction`, `count = -precount`,
`real_count = 0`. -/
def mkPerson (name : String) (gid : Nat) (precount : Int) (fraction : Frac)
    (dayoffs vacants : List DateInterval) : Person :=
  { name := name, gid := gid, precount := precount, fraction := fraction,
    rank := (Frac.ofInt precount).neg.add fraction, count := -precount, real_count := 0,
    dayoffs := dayoffs, vacants := vacants }

/-- `Group` from `objects.py` (members as person indices). -/
structure Group where
  name : String
  members : List Nat
  available_members : List Nat
  max_available : Int
  now_available : Int
  dnw : Frac
  ddnw : Int
deriving DecidableEq, Repr

/-- `Group.__init__`: `available_members = members.copy()`,
`now_available = max_available`, `dnw = 0`, `ddnw = 0`. -/
def mkGroup (name : String) (members : List Nat) (max_available : Int) : Group :=
  { name := name, members := members, available_members := members,
    max_available := max_available, now_available := max_available,
    dnw := Frac.ofInt 0, ddnw := 0 }

/-- `LaborPool` state plus the tables of all `Person` and `Group` objects.
`laborforces` is the index list `[0, ..., numGroups)`;
`available_laborforces` is a sublist of indices. -/
structure Pool where
  persons : Nat → Person
  groups : Nat → Group
  numGroups : Nat
  available_laborforces : List Nat
  gap_size : Int

/-- Point update of the person table. -/
def updPerson (σ : Pool) (p : Nat) (f : Person → Person) : Pool :=
  { σ with persons := fun q => if q = p then f (σ.persons q) else σ.persons q }

/-- Point update of the group table. -/
def updGroup (σ : Pool) (g : Nat) (f : Group → Group) : Pool :=
  { σ with groups := fun h => if h = g then f (σ.groups h) else σ.groups h }

/-- `any(map(lambda dayoff: dayoff.contains(curdate), member.dayoffs))`. -/
def hasDayoff (σ : Pool) (p : Nat) (d : Int) : Bool :=
  (σ.persons p).dayoffs.any (·.containsD d)

/-- `any(map(lambda vacant: vacant.contains(curdate), member.vacants))`. -/
def hasVacant (σ : Pool) (p : Nat) (d : Int) : Bool :=
  (σ.persons p).vacants.any (·.containsD d)

/-- The comparison underlying `sort(key=lambda member: member.rank)`. -/
def rankLe (σ : Pool) (a b : Nat) : Bool :=
  (σ.persons a).rank.le (σ.persons b).rank

/-- `Group.get_count`: sum of `count` over the group's available members. -/
def groupCount (σ : Pool) (g : Nat) : Int :=
  ((σ.groups g).available_members.map (fun p => (σ.persons p).count)).sum

/-! ## `Group.take` -/

/-- The mutation a virtual pick applies to a person:
`member.count += 1; member.rank += 1` (phase 1 of `Group.take`). -/
def virtMut (pe : Person) : Person :=
  { pe with count := pe.count + 1, rank := pe.rank.add (Frac.ofInt 1) }

/-- The gap-enforcement dayoff interval appended on a real selection:
`DateInterval(tomorrow(curdate, -gap_size), tomorrow(curdate, gap_size),
member)`. -/
def gapInterval (d gap : Int) (p : Nat) : DateInterval := ⟨d - gap, d + gap, p⟩

/-- The mutation a real pick applies to a person: `real_count += 1;
count += 1; rank += 1; dayoffs.append(gap interval)` (phase 2 of
`Group.take`). -/
def realMut (d gap : Int) (p : Nat) (pe : Person) : Person :=
  { pe with real_count := pe.real_count + 1, count := pe.count + 1,
            rank := pe.rank.add (Frac.ofInt 1),
            dayoffs := pe.dayoffs ++ [gapInterval d gap p] }

/-- Phase 1 of `Group.take` (`for member in total_queue: ...`): walk the
total queue, skipping dayoff members, virtually crediting vacant members
(`count += 1; rank += 1`), counting available members, and stopping once
the running total `vc` reaches `ddnw`.  `qu` is the (sorted)
`available_members` list used by the `member not in queue` test. -/
def phase1 (d : Int) (ddnw : Int) (qu : List Nat) :
    List Nat → Int → Pool → Pool
  | [], _, σ => σ
  | p :: rest, vc, σ =>
    if hasDayoff σ p d then phase1 d ddnw qu rest vc σ
    else if hasVacant σ p d then
      let σ' := updPerson σ p virtMut
      if ddnw ≤ vc + 1 then σ' else phase1 d ddnw qu rest (vc + 1) σ'
    else if p ∉ qu then phase1 d ddnw qu rest vc σ
    else if ddnw ≤ vc + 1 then σ else phase1 d ddnw qu rest (vc + 1) σ

/-- Phase 2 of `Group.take` (`for member in queue: ... else: raise`):
really select queue members in order (`real_count += 1; count += 1;
rank += 1`, append the gap dayoff `[d - gap, d + gap]`), stopping at
`ddnw` picks; if the queue is exhausted first, raise `RanOutOfMember`
(keeping all mutations made so far). -/
def phase2 (d gap : Int) (ddnw : Int) :
    List Nat → List Nat → Pool → Except Err (List Nat) × Pool
  | [], _, σ => (.error .ranOutOfMember, σ)
  | p :: rest, acc, σ =>
    let σ' := updPerson σ p (realMut d gap p)
    let acc' := acc ++ [p]
    if ddnw ≤ (acc'.length : Int) then (.ok acc', σ')
    else phase2 d gap ddnw rest acc' σ'

/-- `Group.take(dnw, curdate)` on group `g`: optionally overwrite `ddnw`,
early-return `[]` when `ddnw <= 0`, sort `members` and
`available_members` in place by rank (stable), then run the two phases. -/
def group_take (dnwArg : Option Int) (d : Int) (g : Nat) (σ : Pool) :
    Except Err (List Nat) × Pool :=
  let σ0 := match dnwArg with
    | some v => updGroup σ g (fun gr => { gr with ddnw := v })
    | none => σ
  let n := (σ0.groups g).ddnw
  if n ≤ 0 then (.ok [], σ0)
  else
    let tq := sortBy (rankLe σ0) (σ0.groups g).members
    let σ1 := updGroup σ0 g (fun gr => { gr with members := tq })
    let qu := sortBy (rankLe σ1) (σ1.groups g).available_members
    let σ2 := updGroup σ1 g (fun gr => { gr with available_members := qu })
    let σ3 := phase1 d n qu tq 0 σ2
    phase2 d σ3.gap_size n qu [] σ3

/-! ## `LaborPool.set_ddnws` -/

/-- `LaborPool.get_muprime(nwn)`: `(Σ get_count() + nwn) / Σ
len(available_members)` over the available labor forces; int/int division
raising `ZeroDivisionError` on a zero denominator. -/
def get_muprime (nwn : Int) (σ : Pool) : Except Err Frac :=
  let den : Nat := (σ.available_laborforces.map
    (fun g => (σ.groups g).available_members.length)).sum
  if h : den = 0 then .error .zeroDivision
  else .ok ⟨(σ.available_laborforces.map (fun g => groupCount σ g)).sum + nwn, den,
    Nat.pos_of_ne_zero h⟩

/-- The initial `for group in self.available_laborforces` loop of
`set_ddnws`: set each group's `dnw` and initial `ddnw`, build the
adjustable queue (iteration order), and accumulate `current_nwn`. -/
def initDdnws (mu : Frac) : List Nat → Pool → Pool × List Nat × Int
  | [], σ => (σ, [], 0)
  | g :: rest, σ =>
    let dnw : Frac := (mu.mul (Frac.ofInt ((σ.groups g).available_members.length : Int))).sub
      (Frac.ofInt (groupCount σ g))
    let na := (σ.groups g).now_available
    let dd : Int := if (Frac.ofInt na).lt dnw then na
      else if dnw.lt (Frac.ofInt 0) then 0 else pyround dnw
    let inQueue : Bool := ! ((Frac.ofInt na).lt dnw)
    let σ' := updGroup σ g (fun gr => { gr with dnw := dnw, ddnw := dd })
    let (σ'', q, c) := initDdnws mu rest σ'
    (σ'', (if inQueue then g :: q else q), dd + c)

/-- Sort key of the balancing queue: `group.ddnw - group.dnw`. -/
def residLe (σ : Pool) (a b : Nat) : Bool :=
  ((Frac.ofInt (σ.groups a).ddnw).sub (σ.groups a).dnw).le
    ((Frac.ofInt (σ.groups b).ddnw).sub (σ.groups b).dnw)

/-- One run of the `while current_nwn != nwn` balancing loop of
`set_ddnws`, structurally recursive on a fuel argument: sort the queue by
residual; if under target, bump the head's `ddnw` (dropping it once at
`now_available`); if over, cut the tail's `ddnw` (dropping it at `0`);
raise `RanOutOfGroup` when the queue empties first.  Each iteration
strictly decreases `(nwn - current).natAbs + queue.length`, so any fuel
above that measure makes the fuel-exhaustion branch unreachable (see
`balanceF_fuel_irrel`); `balance` below supplies such a fuel. -/
def balanceF (nwn : Int) : Nat → List Nat → Int → Pool → Except Err Unit × Pool
  | 0, _, _, σ => (.error .ranOutOfGroup, σ)
  | fuel + 1, queue, current, σ =>
    if current = nwn then (.ok (), σ)
    else if queue = [] then (.error .ranOutOfGroup, σ)
    else
      let q := sortBy (residLe σ) queue
      if current < nwn then
        match q with
        | [] => (.error .ranOutOfGroup, σ)
        | g :: rest =>
          if (σ.groups g).now_available ≤ (σ.groups g).ddnw then
            balanceF nwn fuel rest current σ
          else
            balanceF nwn fuel q (current + 1)
              (updGroup σ g (fun gr => { gr with ddnw := gr.ddnw + 1 }))
      else
        match q.getLast? with
        | none => (.error .ranOutOfGroup, σ)
        | some g =>
          if (σ.groups g).ddnw ≤ 0 then
            balanceF nwn fuel q.dropLast current σ
          else
            balanceF nwn fuel q (current - 1)
              (updGroup σ g (fun gr => { gr with ddnw := gr.ddnw - 1 }))

/-- The `while current_nwn != nwn` loop of `set_ddnws`, run with
sufficient fuel. -/
def balance (nwn : Int) (queue : List Nat) (current : Int) (σ : Pool) :
    Except Err Unit × Pool :=
  balanceF nwn ((nwn - current).natAbs + queue.length + 1) queue current σ

/-- `LaborPool.set_ddnws(nwn)`. -/
def set_ddnws (nwn : Int) (σ : Pool) : Except Err Unit × Pool :=
  match get_muprime nwn σ with
  | .error e => (.error e, σ)
  | .ok mu =>
    let (σ', queue, current) := initDdnws mu σ.available_laborforces σ
    balance nwn queue current σ'

/-! ## `exclude`, `decrease`, `reset` -/

/-- The member half of `LaborPool.exclude`: for each given person, remove
them (first occurrence) from their own group's `available_members` if
present — exactly `List.erase`. -/
def excludeMembers (ms : List Nat) (σ : Pool) : Pool :=
  ms.foldl (fun σ p =>
    updGroup σ (σ.persons p).gid
      (fun gr => { gr with available_members := gr.available_members.erase p })) σ

/-- The group half of `LaborPool.exclude`: remove each given group from
`available_laborforces` if present. -/
def excludeGroups (gs : List Nat) (σ : Pool) : Pool :=
  gs.foldl (fun σ g => { σ with available_laborforces := σ.available_laborforces.erase g }) σ

/-- `LaborPool.exclude(members, laborforces)`. -/
def exclude (ms gs : List Nat) (σ : Pool) : Pool :=
  excludeGroups gs (excludeMembers ms σ)

/-- `LaborPool.decrease(members)`: `member.group.now_available -= 1`. -/
def decrease (ms : List Nat) (σ : Pool) : Pool :=
  ms.foldl (fun σ p =>
    updGroup σ (σ.persons p).gid
      (fun gr => { gr with now_available := gr.now_available - 1 })) σ

/-- `LaborPool.reset()`: every group gets `available_members =
members.copy()`, `now_available = max_available`; `available_laborforces`
becomes the full `laborforces` list again. -/
def reset (σ : Pool) : Pool :=
  { σ with
    groups := fun g => { σ.groups g with
      available_members := (σ.groups g).members,
      now_available := (σ.groups g).max_available },
    available_laborforces := List.range σ.numGroups }

/-! ## `LaborPool.take` -/

/-- `LaborPool.get_dayoffs()`: all dayoff intervals of all members of all
groups, in iteration order. -/
def get_dayoffs (σ : Pool) : List DateInterval :=
  ((List.range σ.numGroups).map
    (fun g => ((σ.groups g).members.map (fun p => (σ.persons p).dayoffs)).flatten)).flatten

/-- `LaborPool.get_vacants()`. -/
def get_vacants (σ : Pool) : List DateInterval :=
  ((List.range σ.numGroups).map
    (fun g => ((σ.groups g).members.map (fun p => (σ.persons p).vacants)).flatten)).flatten

/-- The owners of the pool's dayoff intervals that cover `d`
(`map(lambda i: i.person, filter(lambda i: i.contains(curdate), ...))`). -/
def dayoffPersons (σ : Pool) (d : Int) : List Nat :=
  ((get_dayoffs σ).filter (·.containsD d)).map (·.person)

/-- The owners of the pool's vacancy intervals that cover `d`. -/
def vacantPersons (σ : Pool) (d : Int) : List Nat :=
  ((get_vacants σ).filter (·.containsD d)).map (·.person)

/-- The `for group in self.available_laborforces: labors +=
group.take(None, curdate)` loop of `LaborPool.take`, propagating a raise
with the state at the moment of the raise. -/
def takeAll (d : Int) : List Nat → List Nat → Pool → Except Err (List Nat) × Pool
  | [], acc, σ => (.ok acc, σ)
  | g :: rest, acc, σ =>
    match group_take none d g σ with
    | (.ok l, σ') => takeAll d rest (acc ++ l) σ'
    | (.error e, σ') => (.error e, σ')

/-- The body of `LaborPool.take` from the dayoff exclusion on (lines
289–299 of `objects.py`), starting from the state `σ1` in which the
`groups` argument has already been installed: exclude dayoff members,
exclude vacant members, apportion, take from each available labor force
in order, and reset on success; a raise propagates with the state at the
moment of the raise. -/
def pool_take_core (nwn : Int) (d : Int) (σ1 : Pool) :
    Except Err (List Nat) × Pool :=
  let σ2 := exclude (dayoffPersons σ1 d) [] σ1
  let σ3 := exclude (vacantPersons σ2 d) [] σ2
  match set_ddnws nwn σ3 with
  | (.error e, σ4) => (.error e, σ4)
  | (.ok _, σ4) =>
    match takeAll d σ4.available_laborforces [] σ4 with
    | (.ok acc, σ5) => (.ok acc, reset σ5)
    | (.error e, σ5) => (.error e, σ5)

/-- `LaborPool.take(nwn, curdate, groups)`.  When `nwn <= 0` the code
executes `return labors` with `labors` not yet bound: `UnboundLocalError`.
`if groups:` is Python truthiness, so an empty list is not installed. -/
def pool_take (nwn : Int) (d : Int) (gs : Option (List Nat)) (σ : Pool) :
    Except Err (List Nat) × Pool :=
  if nwn ≤ 0 then (.error .unboundLocal, σ)
  else
    pool_take_core nwn d (match gs with
      | some l => if l.isEmpty then σ else { σ with available_laborforces := l }
      | none => σ)

/-! ## Predicates and auxiliary notions used to state the claims -/

/-- Whether, in phase 1's walk on date `d`, member `x` advances the
running total: not on dayoff, and either vacant or present in the
available queue `qu`. -/
def counts1 (σ : Pool) (qu : List Nat) (d : Int) (x : Nat) : Bool :=
  !hasDayoff σ x d && (hasVacant σ x d || decide (x ∈ qu))

/-- Number of members that advance phase 1's running total strictly
before `p` in the queue `tq`. -/
def windowCount (σ : Pool) (qu : List Nat) (d : Int) (tq : List Nat) (p : Nat) : Nat :=
  (tq.takeWhile (fun x => decide (x ≠ p))).countP (counts1 σ qu d)

/-- `p` falls within the top-`ddnw` priority window of group `g` on date
`d` for a `Group.take` call with quota argument `a`: fewer than `ddnw`
members advance phase 1's running total strictly before `p` in the
rank-sorted total queue. -/
def virtualWindow (σ : Pool) (a : Option Int) (d : Int) (g : Nat) (p : Nat) : Prop :=
  (windowCount σ (sortBy (rankLe σ) (σ.groups g).available_members) d
      (sortBy (rankLe σ) (σ.groups g).members) p : Int) <
    a.getD (σ.groups g).ddnw

/-- The accounting lockstep invariant: every person's `rank` equals their
`count` plus the tie-break `fraction` they were constructed with. -/
def rankInv (σ : Pool) : Prop :=
  ∀ p : Nat,
    (σ.persons p).rank = (Frac.ofInt (σ.persons p).count).add (σ.persons p).fraction

/-- Well-formedness of a pool state: members carry correct group
back-references, member and available lists are duplicate-free, available
members are members, absence intervals carry correct owner
back-references, and the available labor force list consists of real
group indices. -/
def WF (σ : Pool) : Prop :=
  (∀ g ∈ List.range σ.numGroups,
    (∀ p ∈ (σ.groups g).members, (σ.persons p).gid = g) ∧
    (σ.groups g).members.Nodup ∧
    (σ.groups g).available_members.Nodup ∧
    (∀ p ∈ (σ.groups g).available_members, p ∈ (σ.groups g).members) ∧
    (∀ p ∈ (σ.groups g).members,
      (∀ iv ∈ (σ.persons p).dayoffs, iv.person = p) ∧
      (∀ iv ∈ (σ.persons p).vacants, iv.person = p))) ∧
  (∀ g ∈ σ.available_laborforces, g ∈ List.range σ.numGroups)

instance (σ : Pool) : Decidable (WF σ) := by
  unfold WF
  infer_instance

/-- The pool-level operations the orchestrator (`teven.py`) can perform
between takes, plus the methods callable on groups; used to state
temporal claims over arbitrary later usage of the pool. -/
inductive Op where
  | take (nwn : Int) (d : Int) (gs : Option (List Nat))
  | exclude (ms : List Nat) (gs : List Nat)
  | decrease (ms : List Nat)
  | reset
  | setDdnws (nwn : Int)
  | groupTake (a : Option Int) (d : Int) (g : Nat)

/-- The state after performing an operation (for a raising operation, the
state at the moment of the raise — Python exceptions roll nothing back). -/
def applyOp (σ : Pool) : Op → Pool
  | .take nwn d gs => (pool_take nwn d gs σ).2
  | .exclude ms gs => exclude ms gs σ
  | .decrease ms => decrease ms σ
  | .reset => reset σ
  | .setDdnws n => (set_ddnws n σ).2
  | .groupTake a d g => (group_take a d g σ).2

/-- The state after a sequence of operations. -/
def applyOps (σ : Pool) (ops : List Op) : Pool := ops.foldl applyOp σ

/-- `p` is a member in good standing: their group reference is in range
and they are listed in that group's member list. -/
def memberOk (σ : Pool) (p : Nat) : Prop :=
  (σ.persons p).gid < σ.numGroups ∧ p ∈ (σ.groups (σ.persons p).gid).members

/-- Every explicit `groups` argument handed to a `take` in the sequence
stays within the pool's group range (`n = numGroups`); the other
operations need no side condition. -/
def opsInRange (n : Nat) : List Op → Prop
  | [] => True
  | .take _ _ (some l) :: rest => (∀ g ∈ l, g < n) ∧ opsInRange n rest
  | .take _ _ none :: rest => opsInRange n rest
  | .exclude _ _ :: rest => opsInRange n rest
  | .decrease _ :: rest => opsInRange n rest
  | .reset :: rest => opsInRange n rest
  | .setDdnws _ :: rest => opsInRange n rest
  | .groupTake _ _ _ :: rest => opsInRange n rest

instance (σ : Pool) (a : Option Int) (d : Int) (g p : Nat) :
    Decidable (virtualWindow σ a d g p) :=
  inferInstanceAs (Decidable (_ < _))

/-- The record person `p` carries after phase 1 of a `Group.take a d`
call on group `g`: a vacant, non-dayoff member inside the priority
window is virtually credited, everyone else is untouched. -/
def phase1Effect (σ : Pool) (a : Option Int) (d : Int) (g : Nat) (p : Nat) : Person :=
  if p ∈ (σ.groups g).members ∧ hasDayoff σ p d = false ∧ hasVacant σ p d = true ∧
      virtualWindow σ a d g p
  then virtMut (σ.persons p) else σ.persons p

/-- `b` is `a` with at most `count` and `rank` changed (the effect of
phase 1 on a person record). -/
def Person.eqCR (a b : Person) : Prop :=
  b.name = a.name ∧ b.gid = a.gid ∧ b.precount = a.precount ∧
  b.fraction = a.fraction ∧ b.real_count = a.real_count ∧
  b.dayoffs = a.dayoffs ∧ b.vacants = a.vacants

/-- `b` is a possible later state of person record `a` under the engine's
operations: the identity fields and vacancies never change, and dayoff
intervals are only ever added. -/
def Person.evolves (a b : Person) : Prop :=
  b.name = a.name ∧ b.gid = a.gid ∧ b.precount = a.precount ∧
  b.fraction = a.fraction ∧ b.vacants = a.vacants ∧
  ∀ iv ∈ a.dayoffs, iv ∈ b.dayoffs

/-! ## Notions for the apportionment claim -/

/-- The fractional demand `group.dnw = muprime*len(group.available_members)
- group.get_count()` computed by the initial loop of `set_ddnws`. -/
def dnwF (mu : Frac) (σ : Pool) (g : Nat) : Frac :=
  (mu.mul (Frac.ofInt ((σ.groups g).available_members.length : Int))).sub
    (Frac.ofInt (groupCount σ g))

/-- Whether the group's demand exceeds its capacity
(`group.dnw > group.now_available`): such a group gets `ddnw =
now_available` and is never queued for balancing. -/
def clamped (mu : Frac) (σ : Pool) (g : Nat) : Bool :=
  (Frac.ofInt (σ.groups g).now_available).lt (dnwF mu σ g)

/-- The `ddnw` the initial loop of `set_ddnws` assigns to a group. -/
def ddInit (mu : Frac) (σ : Pool) (g : Nat) : Int :=
  if clamped mu σ g then (σ.groups g).now_available
  else if (dnwF mu σ g).lt (Frac.ofInt 0) then 0 else pyround (dnwF mu σ g)

/-- Sum of `ddnw` over a list of groups. -/
def sumDdnw (σ : Pool) (l : List Nat) : Int :=
  (l.map (fun g => (σ.groups g).ddnw)).sum

/-- Sum of `now_available` over a list of groups. -/
def sumNow (σ : Pool) (l : List Nat) : Int :=
  (l.map (fun g => (σ.groups g).now_available)).sum

/-- Total capacity of the capacity-clamped groups: the hard floor of the
apportionment (their `ddnw` is pinned at `now_available` and the
balancing loop can never lower it). -/
def clampedSum (mu : Frac) (σ : Pool) (l : List Nat) : Int :=
  (l.map (fun g => if clamped mu σ g then (σ.groups g).now_available else 0)).sum

/-! ## Concrete pool states (used to witness the theorems) -/

/-- The fraction `0.0`. -/
def frac0 : Frac := ⟨0, 1, one_pos⟩

/-- The fraction `0.5` (`index 1 / group size 2`). -/
def fracHalf : Frac := ⟨1, 2, two_pos⟩

/-- A person with no absences and no carry-over. -/
def exPerson (gid : Nat) (fr : Frac) : Person := mkPerson "" gid 0 fr [] []

/-- One group `A` of two members `0`, `1` with capacity 2, everyone
available, no absences. -/
def exPool2 : Pool :=
  { persons := fun p => if p = 0 then exPerson 0 frac0 else exPerson 0 fracHalf,
    groups := fun _ => mkGroup "A" [0, 1] 2,
    numGroups := 1, available_laborforces := [0], gap_size := 0 }

/-- Like `exPool2` but only member `0` still available. -/
def exPool1av : Pool :=
  { exPool2 with
    groups := fun _ => { mkGroup "A" [0, 1] 2 with available_members := [0] } }

/-- Like `exPool2` but member `0` has a vacancy covering dates 5–15 and
has been removed from availability (as the pool-level take does). -/
def exPoolVac : Pool :=
  { exPool2 with
    persons := fun p =>
      if p = 0 then mkPerson "" 0 0 frac0 [] [⟨5, 15, 0⟩] else exPerson 0 fracHalf,
    groups := fun _ => { mkGroup "A" [0, 1] 2 with available_members := [1] } }

/-- Like `exPool2` but member `0` has a dayoff covering dates 5–15. -/
def exPoolDay : Pool :=
  { exPool2 with
    persons := fun p =>
      if p = 0 then mkPerson "" 0 0 frac0 [⟨5, 15, 0⟩] [] else exPerson 0 fracHalf }

/-- Like `exPool2` but both members have dayoffs covering dates 5–15. -/
def exPoolAllDay : Pool :=
  { exPool2 with
    persons := fun p =>
      if p = 0 then mkPerson "" 0 0 frac0 [⟨5, 15, 0⟩] []
      else mkPerson "" 0 0 fracHalf [⟨5, 15, 1⟩] [] }

/-- A pool whose person table is constant (used to witness person-wise
invariants that quantify over the whole table). -/
def exPoolConst : Pool :=
  { persons := fun _ => exPerson 0 frac0,
    groups := fun _ => mkGroup "A" [0, 1] 2,
    numGroups := 1, available_laborforces := [0], gap_size := 0 }

/-- One group of one member with capacity 1 (used for the apportionment
counterexample). -/
def exPool1 : Pool :=
  { persons := fun _ => exPerson 0 frac0,
    groups := fun _ => mkGroup "A" [0] 1,
    numGroups := 1, available_laborforces := [0], gap_size := 0 }

/-! ## Semantic lemmas for `Frac` -/

theorem Frac.q_ofInt (n : Int) : (Frac.ofInt n).q = (n : ℚ) := by
  simp [Frac.ofInt, Frac.q]

theorem Frac.den_q_pos (x : Frac) : (0 : ℚ) < (x.den : ℚ) := by
  exact_mod_cast x.den_pos

theorem Frac.le_iff (x y : Frac) : x.le y = true ↔ x.q ≤ y.q := by
  rw [Frac.le, decide_eq_true_iff, Frac.q, Frac.q,
    div_le_div_iff₀ x.den_q_pos y.den_q_pos]
  exact_mod_cast Iff.rfl

theorem Frac.lt_iff (x y : Frac) : x.lt y = true ↔ x.q < y.q := by
  rw [Frac.lt, decide_eq_true_iff, Frac.q, Frac.q,
    div_lt_div_iff₀ x.den_q_pos y.den_q_pos]
  exact_mod_cast Iff.rfl

theorem Frac.q_add (x y : Frac) : (x.add y).q = x.q + y.q := by
  rw [Frac.add, Frac.q, Frac.q, Frac.q]
  have hx := x.den_q_pos
  have hy := y.den_q_pos
  field_simp
  try push_cast
  try ring

theorem Frac.q_neg (x : Frac) : x.neg.q = -x.q := by
  rw [Frac.neg, Frac.q, Frac.q]
  push_cast
  ring

theorem Frac.q_sub (x y : Frac) : (x.sub y).q = x.q - y.q := by
  rw [Frac.sub, Frac.q_add, Frac.q_neg]
  ring

theorem Frac.q_mul (x y : Frac) : (x.mul y).q = x.q * y.q := by
  rw [Frac.mul, Frac.q, Frac.q, Frac.q]
  push_cast
  field_simp

theorem Frac.q_half : Frac.half.q = 1/2 := by
  rw [Frac.half, Frac.q]
  norm_num

theorem Frac.floor_eq (x : Frac) : x.floor = ⌊x.q⌋ := by
  rw [Frac.floor, Frac.q, Rat.floor_intCast_div_natCast]

/-- `pyround` is at least the floor. -/
theorem pyround_ge_floor (x : Frac) : ⌊x.q⌋ ≤ pyround x := by
  rw [pyround]
  simp only [Frac.floor_eq]
  split
  · exact le_refl _
  · split
    · omega
    · split
      · exact le_refl _
      · omega

/-- `pyround` is at most the floor plus one. -/
theorem pyround_le_floor_succ (x : Frac) : pyround x ≤ ⌊x.q⌋ + 1 := by
  rw [pyround]
  simp only [Frac.floor_eq]
  split
  · omega
  · split
    · omega
    · split
      · omega
      · omega

/-- `pyround` of an integer value is that integer. -/
theorem pyround_intlike (x : Frac) (n : Int) (h : x.q = (n : ℚ)) : pyround x = n := by
  have hf : ⌊x.q⌋ = n := by rw [h, Int.floor_intCast]
  have hr : (x.sub (Frac.ofInt n)).q = 0 := by
    rw [Frac.q_sub, Frac.q_ofInt, h]
    ring
  have hlt : (x.sub (Frac.ofInt n)).lt Frac.half = true := by
    rw [Frac.lt_iff, hr, Frac.q_half]
    norm_num
  rw [pyround]
  simp only [Frac.floor_eq, hf, hlt, if_true]

/-- `pyround` is bounded by any integer bound on the value. -/
theorem pyround_le_of_le (x : Frac) (n : Int) (h : x.q ≤ (n : ℚ)) : pyround x ≤ n := by
  rcases eq_or_lt_of_le h with heq | hlt
  · rw [pyround_intlike x n heq]
  · have : ⌊x.q⌋ < n := by
      have h1 : ⌊x.q⌋ ≤ x.q := Int.floor_le _
      have := Int.lt_floor_add_one x.q
      by_contra hc
      push_neg at hc
      have : (n : ℚ) ≤ (⌊x.q⌋ : ℚ) := by exact_mod_cast hc
      linarith
    have := pyround_le_floor_succ x
    omega

/-- `pyround` of a nonnegative value is nonnegative. -/
theorem pyround_nonneg (x : Frac) (h : (0 : ℚ) ≤ x.q) : 0 ≤ pyround x := by
  have h1 : (0 : Int) ≤ ⌊x.q⌋ := Int.floor_nonneg.mpr h
  have := pyround_ge_floor x
  omega

/-! ## Basic lemmas about the state updaters -/

@[simp] theorem updPerson_persons_same (σ : Pool) (p : Nat) (f : Person → Person) :
    (updPerson σ p f).persons p = f (σ.persons p) := by
  simp [updPerson]

theorem updPerson_persons_other (σ : Pool) (p q : Nat) (f : Person → Person)
    (h : q ≠ p) : (updPerson σ p f).persons q = σ.persons q := by
  simp [updPerson, h]

@[simp] theorem updPerson_groups (σ : Pool) (p : Nat) (f : Person → Person) :
    (updPerson σ p f).groups = σ.groups := rfl

@[simp] theorem updPerson_numGroups (σ : Pool) (p : Nat) (f : Person → Person) :
    (updPerson σ p f).numGroups = σ.numGroups := rfl

@[simp] theorem updPerson_avail (σ : Pool) (p : Nat) (f : Person → Person) :
    (updPerson σ p f).available_laborforces = σ.available_laborforces := rfl

@[simp] theorem updPerson_gap (σ : Pool) (p : Nat) (f : Person → Person) :
    (updPerson σ p f).gap_size = σ.gap_size := rfl

@[simp] theorem updGroup_groups_same (σ : Pool) (g : Nat) (f : Group → Group) :
    (updGroup σ g f).groups g = f (σ.groups g) := by
  simp [updGroup]

theorem updGroup_groups_other (σ : Pool) (g h : Nat) (f : Group → Group)
    (hne : h ≠ g) : (updGroup σ g f).groups h = σ.groups h := by
  simp [updGroup, hne]

@[simp] theorem updGroup_persons (σ : Pool) (g : Nat) (f : Group → Group) :
    (updGroup σ g f).persons = σ.persons := rfl

@[simp] theorem updGroup_numGroups (σ : Pool) (g : Nat) (f : Group → Group) :
    (updGroup σ g f).numGroups = σ.numGroups := rfl

@[simp] theorem updGroup_avail (σ : Pool) (g : Nat) (f : Group → Group) :
    (updGroup σ g f).available_laborforces = σ.available_laborforces := rfl

@[simp] theorem updGroup_gap (σ : Pool) (g : Nat) (f : Group → Group) :
    (updGroup σ g f).gap_size = σ.gap_size := rfl

/-! ## Lemmas about the stable sort -/

theorem length_orderedInsertB (le : α → α → Bool) (a : α) (l : List α) :
    (orderedInsertB le a l).length = l.length + 1 := by
  induction l with
  | nil => rfl
  | cons b l ih =>
    rw [orderedInsertB]
    by_cases h : le a b
    · simp [h]
    · simp [h, ih]

theorem length_sortBy (le : α → α → Bool) (l : List α) :
    (sortBy le l).length = l.length := by
  induction l with
  | nil => rfl
  | cons a l ih => rw [sortBy, length_orderedInsertB, ih, List.length_cons]

theorem perm_orderedInsertB (le : α → α → Bool) (a : α) (l : List α) :
    (orderedInsertB le a l).Perm (a :: l) := by
  induction l with
  | nil => exact List.Perm.refl _
  | cons b l ih =>
    rw [orderedInsertB]
    by_cases h : le a b
    · simp [h]
    · simp only [if_neg h]
      exact ((ih.cons b).trans (List.Perm.swap a b l))

theorem perm_sortBy (le : α → α → Bool) (l : List α) : (sortBy le l).Perm l := by
  induction l with
  | nil => exact List.Perm.refl _
  | cons a l ih => exact (perm_orderedInsertB le a (sortBy le l)).trans (ih.cons a)

theorem mem_sortBy {le : α → α → Bool} {a : α} {l : List α} :
    a ∈ sortBy le l ↔ a ∈ l :=
  (perm_sortBy le l).mem_iff

theorem nodup_sortBy {le : α → α → Bool} {l : List α} (h : l.Nodup) :
    (sortBy le l).Nodup :=
  (perm_sortBy le l).nodup_iff.mpr h

/-! ## Transparency of group updates for person-level notions -/

theorem rankLe_updGroup (σ : Pool) (g : Nat) (f : Group → Group) :
    rankLe (updGroup σ g f) = rankLe σ := rfl

theorem hasDayoff_updGroup (σ : Pool) (g : Nat) (f : Group → Group) (p : Nat) (d : Int) :
    hasDayoff (updGroup σ g f) p d = hasDayoff σ p d := rfl

theorem hasVacant_updGroup (σ : Pool) (g : Nat) (f : Group → Group) (p : Nat) (d : Int) :
    hasVacant (updGroup σ g f) p d = hasVacant σ p d := rfl

theorem windowCount_updGroup (σ : Pool) (g : Nat) (f : Group → Group)
    (qu : List Nat) (d : Int) (tq : List Nat) (p : Nat) :
    windowCount (updGroup σ g f) qu d tq p = windowCount σ qu d tq p := rfl

/-! ## Lemmas about `Person.eqCR` and `Person.evolves` -/

theorem eqCR_refl (a : Person) : a.eqCR a := by
  simp [Person.eqCR]

theorem eqCR_trans {a b c : Person} (h1 : a.eqCR b) (h2 : b.eqCR c) :
    a.eqCR c := by
  obtain ⟨e1, e2, e3, e4, e5, e6, e7⟩ := h1
  obtain ⟨f1, f2, f3, f4, f5, f6, f7⟩ := h2
  exact ⟨f1.trans e1, f2.trans e2, f3.trans e3, f4.trans e4, f5.trans e5,
    f6.trans e6, f7.trans e7⟩

theorem eqCR_virtMut (pe : Person) : pe.eqCR (virtMut pe) := by
  simp [Person.eqCR, virtMut]

theorem evolves_refl (a : Person) : a.evolves a := by
  simp [Person.evolves]

theorem evolves_trans {a b c : Person} (h1 : a.evolves b) (h2 : b.evolves c) :
    a.evolves c := by
  obtain ⟨e1, e2, e3, e4, e5, e6⟩ := h1
  obtain ⟨f1, f2, f3, f4, f5, f6⟩ := h2
  exact ⟨f1.trans e1, f2.trans e2, f3.trans e3, f4.trans e4, f5.trans e5,
    fun iv hiv => f6 iv (e6 iv hiv)⟩

theorem Person.eqCR.evolves {a b : Person} (h : a.eqCR b) : a.evolves b := by
  obtain ⟨e1, e2, e3, e4, e5, e6, e7⟩ := h
  exact ⟨e1, e2, e3, e4, e7, fun iv hiv => e6 ▸ hiv⟩

theorem evolves_virtMut (pe : Person) : pe.evolves (virtMut pe) :=
  (eqCR_virtMut pe).evolves

theorem evolves_realMut (d gap : Int) (p : Nat) (pe : Person) :
    pe.evolves (realMut d gap p pe) := by
  refine ⟨Eq.refl _, Eq.refl _, Eq.refl _, Eq.refl _, Eq.refl _, fun iv hiv => ?_⟩
  simp [realMut]
  exact Or.inl hiv

/-! ## Stability of the absence predicates under person updates -/

theorem hasDayoff_updPerson (σ : Pool) (x : Nat) (f : Person → Person) (d : Int) (p : Nat)
    (hf : ∀ pe, (f pe).dayoffs = pe.dayoffs) :
    hasDayoff (updPerson σ x f) p d = hasDayoff σ p d := by
  by_cases h : p = x
  · subst h; simp [hasDayoff, hf]
  · simp [hasDayoff, updPerson_persons_other _ _ _ _ h]

theorem hasVacant_updPerson (σ : Pool) (x : Nat) (f : Person → Person) (d : Int) (p : Nat)
    (hf : ∀ pe, (f pe).vacants = pe.vacants) :
    hasVacant (updPerson σ x f) p d = hasVacant σ p d := by
  by_cases h : p = x
  · subst h; simp [hasVacant, hf]
  · simp [hasVacant, updPerson_persons_other _ _ _ _ h]

theorem hasDayoff_updPerson_virtMut (σ : Pool) (x : Nat) (d : Int) (p : Nat) :
    hasDayoff (updPerson σ x virtMut) p d = hasDayoff σ p d :=
  hasDayoff_updPerson σ x virtMut d p (fun pe => by simp [virtMut])

theorem hasVacant_updPerson_virtMut (σ : Pool) (x : Nat) (d : Int) (p : Nat) :
    hasVacant (updPerson σ x virtMut) p d = hasVacant σ p d :=
  hasVacant_updPerson σ x virtMut d p (fun pe => by simp [virtMut])

theorem counts1_updPerson_virtMut (σ : Pool) (x : Nat) (qu : List Nat) (d : Int) (y : Nat) :
    counts1 (updPerson σ x virtMut) qu d y = counts1 σ qu d y := by
  simp [counts1, hasDayoff_updPerson_virtMut, hasVacant_updPerson_virtMut]

theorem windowCount_updPerson_virtMut (σ : Pool) (x : Nat) (qu : List Nat) (d : Int)
    (tq : List Nat) (p : Nat) :
    windowCount (updPerson σ x virtMut) qu d tq p = windowCount σ qu d tq p := by
  unfold windowCount
  exact List.countP_congr (fun a _ => by rw [counts1_updPerson_virtMut])

/-! ## Phase 1 lemmas -/

/-- Phase 1 changes at most `count` and `rank` of any person. -/
theorem phase1_eqCR (d n : Int) (qu : List Nat) :
    ∀ tq (vc : Int) (σ : Pool) (p : Nat),
      (σ.persons p).eqCR ((phase1 d n qu tq vc σ).persons p) := by
  intro tq
  induction tq with
  | nil => intro vc σ p; rw [phase1]; exact eqCR_refl _
  | cons x rest ih =>
    intro vc σ p
    rw [phase1]
    by_cases h1 : hasDayoff σ x d
    · simp only [h1, if_true]; exact ih vc σ p
    · simp only [h1, Bool.false_eq_true, if_false]
      by_cases h2 : hasVacant σ x d
      · simp only [h2, if_true]
        have hstep : (σ.persons p).eqCR ((updPerson σ x virtMut).persons p) := by
          by_cases hpx : p = x
          · subst hpx; rw [updPerson_persons_same]; exact eqCR_virtMut _
          · rw [updPerson_persons_other _ _ _ _ hpx]; exact eqCR_refl _
        by_cases h3 : n ≤ vc + 1
        · simp only [h3, if_true]; exact hstep
        · simp only [h3, if_false]; exact eqCR_trans hstep (ih _ _ p)
      · simp only [h2, Bool.false_eq_true, if_false]
        by_cases h4 : x ∉ qu
        · simp only [h4, if_true]; exact ih vc σ p
        · simp only [h4, if_false]
          by_cases h3 : n ≤ vc + 1
          · simp only [h3, if_true]; exact eqCR_refl _
          · simp only [h3, if_false]; exact ih _ _ p

/-- Phase 1 leaves a person outside the walked queue unchanged. -/
theorem phase1_notMem (d n : Int) (qu : List Nat) :
    ∀ tq (vc : Int) (σ : Pool) (p : Nat), p ∉ tq →
      (phase1 d n qu tq vc σ).persons p = σ.persons p := by
  intro tq
  induction tq with
  | nil => intro vc σ p _; rw [phase1]
  | cons x rest ih =>
    intro vc σ p hp
    have hpx : p ≠ x := fun h => hp (h ▸ List.mem_cons_self x rest)
    have hpr : p ∉ rest := fun h => hp (List.mem_cons_of_mem x h)
    rw [phase1]
    by_cases h1 : hasDayoff σ x d
    · simp only [h1, if_true]; exact ih vc σ p hpr
    · simp only [h1, Bool.false_eq_true, if_false]
      by_cases h2 : hasVacant σ x d
      · simp only [h2, if_true]
        by_cases h3 : n ≤ vc + 1
        · simp only [h3, if_true]; exact updPerson_persons_other _ _ _ _ hpx
        · simp only [h3, if_false]
          rw [ih _ _ p hpr]; exact updPerson_persons_other _ _ _ _ hpx
      · simp only [h2, Bool.false_eq_true, if_false]
        by_cases h4 : x ∉ qu
        · simp only [h4, if_true]; exact ih vc σ p hpr
        · simp only [h4, if_false]
          by_cases h3 : n ≤ vc + 1
          · simp only [h3, if_true]
          · simp only [h3, if_false]; exact ih _ _ p hpr

/-- Phase 1 leaves a person on dayoff, or not vacant, unchanged. -/
theorem phase1_untouched (d n : Int) (qu : List Nat) :
    ∀ tq (vc : Int) (σ : Pool) (p : Nat),
      (hasDayoff σ p d = true ∨ hasVacant σ p d = false) →
      (phase1 d n qu tq vc σ).persons p = σ.persons p := by
  intro tq
  induction tq with
  | nil => intro vc σ p _; rw [phase1]
  | cons x rest ih =>
    intro vc σ p hp
    rw [phase1]
    by_cases h1 : hasDayoff σ x d
    · simp only [h1, if_true]; exact ih vc σ p hp
    · simp only [h1, Bool.false_eq_true, if_false]
      by_cases h2 : hasVacant σ x d
      · simp only [h2, if_true]
        have hpx : p ≠ x := by
          rintro rfl
          rcases hp with hp | hp
          · rw [hp] at h1; exact h1 rfl
          · rw [hp] at h2; simp at h2
        have hp' : hasDayoff (updPerson σ x virtMut) p d = true ∨
            hasVacant (updPerson σ x virtMut) p d = false := by
          rw [hasDayoff_updPerson_virtMut, hasVacant_updPerson_virtMut]; exact hp
        by_cases h3 : n ≤ vc + 1
        · simp only [h3, if_true]; exact updPerson_persons_other _ _ _ _ hpx
        · simp only [h3, if_false]
          rw [ih _ _ p hp']; exact updPerson_persons_other _ _ _ _ hpx
      · simp only [h2, Bool.false_eq_true, if_false]
        by_cases h4 : x ∉ qu
        · simp only [h4, if_true]; exact ih vc σ p hp
        · simp only [h4, if_false]
          by_cases h3 : n ≤ vc + 1
          · simp only [h3, if_true]
          · simp only [h3, if_false]; exact ih _ _ p hp

/-- The exact effect of phase 1 on a vacant, non-dayoff member `p` of the
walked queue: `p` is virtually credited exactly when no earlier member
made the running total reach `ddnw`, i.e. when no member advances the
total before `p`, or the count of advancing members before `p` keeps the
total below `ddnw`. -/
theorem phase1_delta (d n : Int) (qu : List Nat) (p : Nat) :
    ∀ tq (vc : Int) (σ : Pool), tq.Nodup → p ∈ tq →
      hasDayoff σ p d = false → hasVacant σ p d = true →
      (phase1 d n qu tq vc σ).persons p =
        if windowCount σ qu d tq p = 0 ∨ vc + (windowCount σ qu d tq p : Int) < n
        then virtMut (σ.persons p) else σ.persons p := by
  intro tq
  induction tq with
  | nil => intro vc σ _ hp; exact absurd hp (List.not_mem_nil p)
  | cons x rest ih =>
    intro vc σ hnd hp hdo hva
    by_cases hpx : x = p
    · subst hpx
      have hwc : windowCount σ qu d (x :: rest) x = 0 := by
        simp [windowCount, List.takeWhile_cons]
      rw [phase1]
      simp only [hdo, Bool.false_eq_true, if_false, hva, if_true]
      have hnotr : x ∉ rest := (List.nodup_cons.mp hnd).1
      by_cases h3 : n ≤ vc + 1
      · simp only [h3, if_true, hwc]
        simp [updPerson_persons_same]
      · simp only [h3, if_false, hwc]
        simp only [true_or, if_true]
        rw [phase1_notMem d n qu rest _ _ x hnotr, updPerson_persons_same]
    · have hpr : p ∈ rest := by
        rcases List.mem_cons.mp hp with h | h
        · exact absurd h.symm hpx
        · exact h
      have hnd' : rest.Nodup := (List.nodup_cons.mp hnd).2
      have htw : windowCount σ qu d (x :: rest) p =
          windowCount σ qu d rest p + (if counts1 σ qu d x then 1 else 0) := by
        have hx : decide (x ≠ p) = true := by simp [hpx]
        unfold windowCount
        rw [List.takeWhile_cons, if_pos hx, List.countP_cons]
      rw [phase1]
      by_cases h1 : hasDayoff σ x d
      · have hc : counts1 σ qu d x = false := by simp [counts1, h1]
        have htw0 : windowCount σ qu d (x :: rest) p = windowCount σ qu d rest p := by
          rw [htw, hc]; simp
        simp only [h1, if_true]
        rw [htw0]
        exact ih vc σ hnd' hpr hdo hva
      · simp only [h1, Bool.false_eq_true, if_false]
        by_cases h2 : hasVacant σ x d
        · have hc : counts1 σ qu d x = true := by simp [counts1, h1, h2]
          have htw1 : windowCount σ qu d (x :: rest) p =
              windowCount σ qu d rest p + 1 := by rw [htw, hc]; simp
          simp only [h2, if_true]
          have hppx : p ≠ x := fun h => hpx h.symm
          have hpers : (updPerson σ x virtMut).persons p = σ.persons p :=
            updPerson_persons_other _ _ _ _ hppx
          by_cases h3 : n ≤ vc + 1
          · simp only [h3, if_true]
            have hneg : ¬ (windowCount σ qu d rest p + 1 = 0 ∨
                vc + ((windowCount σ qu d rest p + 1 : Nat) : Int) < n) := by
              push_neg
              refine ⟨by omega, by push_cast; omega⟩
            rw [htw1, if_neg hneg]
            exact hpers
          · simp only [h3, if_false]
            rw [ih (vc + 1) _ hnd' hpr
              (by rw [hasDayoff_updPerson_virtMut]; exact hdo)
              (by rw [hasVacant_updPerson_virtMut]; exact hva),
              windowCount_updPerson_virtMut, hpers, htw1]
            by_cases hA : windowCount σ qu d rest p = 0 ∨
                vc + 1 + (windowCount σ qu d rest p : Int) < n
            · rw [if_pos hA, if_pos (by push_cast; omega)]
            · rw [if_neg hA, if_neg (by push_neg at hA ⊢; push_cast; omega)]
        · simp only [h2, Bool.false_eq_true, if_false]
          by_cases h4 : x ∉ qu
          · have hc : counts1 σ qu d x = false := by
              simp only [counts1, h1, h2]
              simp [h4]
            have htw0 : windowCount σ qu d (x :: rest) p = windowCount σ qu d rest p := by
              rw [htw, hc]; simp
            rw [if_pos h4, htw0]
            exact ih vc σ hnd' hpr hdo hva
          · have hxqu : x ∈ qu := not_not.mp h4
            have hc : counts1 σ qu d x = true := by
              simp only [counts1, h1, h2]
              simp [hxqu]
            have htw1 : windowCount σ qu d (x :: rest) p =
                windowCount σ qu d rest p + 1 := by rw [htw, hc]; simp
            rw [if_neg h4]
            by_cases h3 : n ≤ vc + 1
            · simp only [h3, if_true]
              have hneg : ¬ (windowCount σ qu d rest p + 1 = 0 ∨
                  vc + ((windowCount σ qu d rest p + 1 : Nat) : Int) < n) := by
                push_neg
                refine ⟨by omega, by push_cast; omega⟩
              rw [htw1, if_neg hneg]
            · simp only [h3, if_false]
              rw [ih (vc + 1) σ hnd' hpr hdo hva, htw1]
              by_cases hA : windowCount σ qu d rest p = 0 ∨
                  vc + 1 + (windowCount σ qu d rest p : Int) < n
              · rw [if_pos hA, if_pos (by push_cast; omega)]
              · rw [if_neg hA, if_neg (by push_neg at hA ⊢; push_cast; omega)]

/-- Phase 1 does not touch the group table, the available labor force
list, the group count or the gap size. -/
theorem phase1_state (d n : Int) (qu : List Nat) :
    ∀ tq (vc : Int) (σ : Pool),
      (phase1 d n qu tq vc σ).groups = σ.groups ∧
      (phase1 d n qu tq vc σ).numGroups = σ.numGroups ∧
      (phase1 d n qu tq vc σ).available_laborforces = σ.available_laborforces ∧
      (phase1 d n qu tq vc σ).gap_size = σ.gap_size := by
  intro tq
  induction tq with
  | nil => intro vc σ; rw [phase1]; simp
  | cons x rest ih =>
    intro vc σ
    rw [phase1]
    by_cases h1 : hasDayoff σ x d
    · simp only [h1, if_true]; exact ih vc σ
    · simp only [h1, Bool.false_eq_true, if_false]
      by_cases h2 : hasVacant σ x d
      · simp only [h2, if_true]
        by_cases h3 : n ≤ vc + 1
        · simp only [h3, if_true]; simp [updPerson]
        · simp only [h3, if_false]; exact ih _ _
      · simp only [h2, Bool.false_eq_true, if_false]
        by_cases h4 : x ∉ qu
        · rw [if_pos h4]; exact ih vc σ
        · rw [if_neg h4]
          by_cases h3 : n ≤ vc + 1
          · simp only [h3, if_true]; simp
          · simp only [h3, if_false]; exact ih _ _

/-! ## Phase 2 lemmas -/

/-- Every person evolves (identity fields and vacancies unchanged,
dayoffs only appended) across phase 2, whatever its outcome. -/
theorem phase2_evolves (d gap n : Int) :
    ∀ qu acc (σ : Pool) (p : Nat),
      (σ.persons p).evolves ((phase2 d gap n qu acc σ).2.persons p) := by
  intro qu
  induction qu with
  | nil => intro acc σ p; rw [phase2]; exact evolves_refl _
  | cons x rest ih =>
    intro acc σ p
    rw [phase2]
    have hstep : (σ.persons p).evolves ((updPerson σ x (realMut d gap x)).persons p) := by
      by_cases hpx : p = x
      · subst hpx; rw [updPerson_persons_same]; exact evolves_realMut d gap p _
      · rw [updPerson_persons_other _ _ _ _ hpx]; exact evolves_refl _
    by_cases h1 : n ≤ ((acc ++ [x]).length : Int)
    · simp only [h1, if_true]; exact hstep
    · simp only [h1, if_false]; exact evolves_trans hstep (ih _ _ p)

/-- Phase 2 leaves a person outside the queue unchanged. -/
theorem phase2_notMem (d gap n : Int) :
    ∀ qu acc (σ : Pool) (p : Nat), p ∉ qu →
      (phase2 d gap n qu acc σ).2.persons p = σ.persons p := by
  intro qu
  induction qu with
  | nil => intro acc σ p _; rw [phase2]
  | cons x rest ih =>
    intro acc σ p hp
    have hpx : p ≠ x := fun h => hp (h ▸ List.mem_cons_self x rest)
    have hpr : p ∉ rest := fun h => hp (List.mem_cons_of_mem x h)
    rw [phase2]
    by_cases h1 : n ≤ ((acc ++ [x]).length : Int)
    · simp only [h1, if_true]; exact updPerson_persons_other _ _ _ _ hpx
    · simp only [h1, if_false]
      rw [ih _ _ p hpr]
      exact updPerson_persons_other _ _ _ _ hpx

/-- Members of an `ok` phase-2 result come from the accumulator or the
queue. -/
theorem phase2_ok_mem (d gap n : Int) :
    ∀ qu acc (σ : Pool) (l : List Nat) (x : Nat),
      (phase2 d gap n qu acc σ).1 = .ok l → x ∈ l → x ∈ acc ∨ x ∈ qu := by
  intro qu
  induction qu with
  | nil =>
    intro acc σ l x h
    rw [phase2] at h
    exact absurd h (by simp)
  | cons y rest ih =>
    intro acc σ l x h hx
    rw [phase2] at h
    by_cases h1 : n ≤ ((acc ++ [y]).length : Int)
    · simp only [h1, if_true] at h
      cases h
      rcases List.mem_append.mp hx with h2 | h2
      · exact Or.inl h2
      · have hxy : x = y := List.mem_singleton.mp h2
        subst hxy
        exact Or.inr (List.mem_cons_self x rest)
    · simp only [h1, if_false] at h
      rcases ih _ _ _ x h hx with h2 | h2
      · rcases List.mem_append.mp h2 with h3 | h3
        · exact Or.inl h3
        · exact Or.inr (by simp [List.mem_singleton.mp h3])
      · exact Or.inr (List.mem_cons_of_mem y h2)

/-- A phase-2 error is always `RanOutOfMember`. -/
theorem phase2_error_val (d gap n : Int) :
    ∀ qu acc (σ : Pool) (e : Err),
      (phase2 d gap n qu acc σ).1 = .error e → e = .ranOutOfMember := by
  intro qu
  induction qu with
  | nil =>
    intro acc σ e h
    rw [phase2] at h
    cases h; rfl
  | cons y rest ih =>
    intro acc σ e h
    rw [phase2] at h
    by_cases h1 : n ≤ ((acc ++ [y]).length : Int)
    · simp only [h1, if_true] at h
      cases h
    · simp only [h1, if_false] at h
      exact ih _ _ _ h

/-- Phase 2 raises exactly when the queue is shorter than the remaining
quota. -/
theorem phase2_error_iff (d gap n : Int) :
    ∀ qu acc (σ : Pool), (acc.length : Int) < n →
      ((phase2 d gap n qu acc σ).1 = .error .ranOutOfMember ↔
        (qu.length : Int) + acc.length < n) := by
  intro qu
  induction qu with
  | nil =>
    intro acc σ hacc
    rw [phase2]
    simpa using hacc
  | cons y rest ih =>
    intro acc σ hacc
    rw [phase2]
    have hlen : (((acc ++ [y]).length : Nat) : Int) = (acc.length : Int) + 1 := by
      simp
    by_cases h1 : n ≤ ((acc ++ [y]).length : Int)
    · rw [if_pos h1]
      rw [hlen] at h1
      constructor
      · intro h; cases h
      · intro h
        exfalso
        simp only [List.length_cons] at h
        push_cast at h
        omega
    · rw [if_neg h1]
      rw [hlen] at h1
      rw [ih (acc ++ [y]) _ (by rw [hlen]; omega), hlen]
      simp only [List.length_cons]
      push_cast
      omega

/-- On a phase-2 error the whole queue was really selected: every queue
member's record was mutated by exactly one real pick. -/
theorem phase2_error_all (d gap n : Int) :
    ∀ qu acc (σ : Pool) (e : Err), qu.Nodup →
      (phase2 d gap n qu acc σ).1 = .error e →
      ∀ p ∈ qu, (phase2 d gap n qu acc σ).2.persons p = realMut d gap p (σ.persons p) := by
  intro qu
  induction qu with
  | nil => intro acc σ e _ _ p hp; exact absurd hp (List.not_mem_nil p)
  | cons y rest ih =>
    intro acc σ e hnd herr p hp
    have hnd' : rest.Nodup := (List.nodup_cons.mp hnd).2
    have hynr : y ∉ rest := (List.nodup_cons.mp hnd).1
    rw [phase2] at herr ⊢
    by_cases h1 : n ≤ ((acc ++ [y]).length : Int)
    · simp only [h1, if_true] at herr
      cases herr
    · simp only [h1, if_false] at herr ⊢
      rcases List.mem_cons.mp hp with hpy | hpr


      · subst hpy
        rw [phase2_notMem d gap n rest _ _ p hynr, updPerson_persons_same]
      · have hpy : p ≠ y := fun h => hynr (h ▸ hpr)
        rw [ih _ _ _ hnd' herr p hpr, updPerson_persons_other _ _ _ _ hpy]

/-- A really selected person leaves phase 2 with the gap dayoff interval
recorded. -/
theorem phase2_sel_gap (d gap n : Int) :
    ∀ qu acc (σ : Pool) (l : List Nat) (p : Nat),
      (phase2 d gap n qu acc σ).1 = .ok l → p ∈ l → p ∉ acc →
      gapInterval d gap p ∈ ((phase2 d gap n qu acc σ).2.persons p).dayoffs := by
  intro qu
  induction qu with
  | nil =>
    intro acc σ l p h
    rw [phase2] at h
    exact absurd h (by simp)
  | cons y rest ih =>
    intro acc σ l p h hpl hpacc
    rw [phase2] at h ⊢
    by_cases h1 : n ≤ ((acc ++ [y]).length : Int)
    · simp only [h1, if_true] at h ⊢
      cases h
      have hpy : p = y := by
        rcases List.mem_append.mp hpl with h2 | h2
        · exact absurd h2 hpacc
        · exact List.mem_singleton.mp h2
      subst hpy
      rw [updPerson_persons_same]
      simp [realMut, gapInterval]
    · simp only [h1, if_false] at h ⊢
      by_cases hpy : p = y
      · subst hpy
        have hiv : gapInterval d gap p ∈
            ((updPerson σ p (realMut d gap p)).persons p).dayoffs := by
          rw [updPerson_persons_same]
          simp [realMut, gapInterval]
        obtain ⟨-, -, -, -, -, hmono⟩ := phase2_evolves d gap n rest (acc ++ [p])
          (updPerson σ p (realMut d gap p)) p
        exact hmono _ hiv
      · exact ih _ _ _ p h hpl (by
          intro hmem
          rcases List.mem_append.mp hmem with h2 | h2
          · exact hpacc h2
          · exact hpy (List.mem_singleton.mp h2))

/-- Phase 2 does not touch the group table, the available labor force
list, the group count or the gap size. -/
theorem phase2_state (d gap n : Int) :
    ∀ qu acc (σ : Pool),
      (phase2 d gap n qu acc σ).2.groups = σ.groups ∧
      (phase2 d gap n qu acc σ).2.numGroups = σ.numGroups ∧
      (phase2 d gap n qu acc σ).2.available_laborforces = σ.available_laborforces ∧
      (phase2 d gap n qu acc σ).2.gap_size = σ.gap_size := by
  intro qu
  induction qu with
  | nil => intro acc σ; rw [phase2]; simp
  | cons y rest ih =>
    intro acc σ
    rw [phase2]
    by_cases h1 : n ≤ ((acc ++ [y]).length : Int)
    · simp only [h1, if_true]; simp [updPerson]
    · simp only [h1, if_false]; exact ih _ _

/-! ## Person-table congruence -/

theorem hasDayoff_congr {σ σ' : Pool} (h : σ.persons = σ'.persons) (p : Nat) (d : Int) :
    hasDayoff σ p d = hasDayoff σ' p d := by
  rw [hasDayoff, hasDayoff, h]

theorem hasVacant_congr {σ σ' : Pool} (h : σ.persons = σ'.persons) (p : Nat) (d : Int) :
    hasVacant σ p d = hasVacant σ' p d := by
  rw [hasVacant, hasVacant, h]

theorem counts1_congr {σ σ' : Pool} (h : σ.persons = σ'.persons)
    (qu : List Nat) (d : Int) (x : Nat) :
    counts1 σ qu d x = counts1 σ' qu d x := by
  rw [counts1, counts1, hasDayoff_congr h, hasVacant_congr h]

theorem windowCount_congr {σ σ' : Pool} (h : σ.persons = σ'.persons)
    (qu : List Nat) (d : Int) (tq : List Nat) (p : Nat) :
    windowCount σ qu d tq p = windowCount σ' qu d tq p := by
  rw [windowCount, windowCount]
  exact List.countP_congr (fun a _ => by rw [counts1_congr h])

/-- The full effect of phase 1 (as run by `Group.take` with quota
argument `a` and positive effective quota) on every person record, in
terms of the original state. -/
theorem phase1_char (σ : Pool) (a : Option Int) (d : Int) (g : Nat) (σ2 : Pool)
    (hpers : σ2.persons = σ.persons)
    (hn : 0 < a.getD (σ.groups g).ddnw)
    (hnd : (σ.groups g).members.Nodup) (p : Nat) :
    (phase1 d (a.getD (σ.groups g).ddnw)
        (sortBy (rankLe σ) (σ.groups g).available_members)
        (sortBy (rankLe σ) (σ.groups g).members) 0 σ2).persons p =
      phase1Effect σ a d g p := by
  by_cases hmem : p ∈ (σ.groups g).members
  · by_cases hdo : hasDayoff σ p d
    · rw [phase1_untouched _ _ _ _ _ _ p
        (Or.inl ((hasDayoff_congr hpers p d).trans hdo))]
      rw [phase1Effect, if_neg (by simp [hdo]), hpers]
    · by_cases hva : hasVacant σ p d
      · have hdo2 : hasDayoff σ2 p d = false := by
          rw [hasDayoff_congr hpers p d]
          exact Bool.not_eq_true _ ▸ (by simpa using hdo)
        have hva2 : hasVacant σ2 p d = true := by
          rw [hasVacant_congr hpers p d]; exact hva
        rw [phase1_delta _ _ _ p _ _ _ (nodup_sortBy hnd)
          (mem_sortBy.mpr hmem) hdo2 hva2]
        rw [windowCount_congr hpers]
        rw [phase1Effect]
        have hwceq : (virtualWindow σ a d g p) ↔
            (windowCount σ (sortBy (rankLe σ) (σ.groups g).available_members) d
              (sortBy (rankLe σ) (σ.groups g).members) p = 0 ∨
             0 + (windowCount σ (sortBy (rankLe σ) (σ.groups g).available_members) d
              (sortBy (rankLe σ) (σ.groups g).members) p : Int) <
               a.getD (σ.groups g).ddnw) := by
          rw [virtualWindow]
          omega
        by_cases hw : virtualWindow σ a d g p
        · rw [if_pos (hwceq.mp hw), if_pos ⟨hmem, by simpa using hdo, hva, hw⟩, hpers]
        · rw [if_neg (fun hc => hw (hwceq.mpr hc)),
            if_neg (fun hc => hw hc.2.2.2), hpers]
      · rw [phase1_untouched _ _ _ _ _ _ p
          (Or.inr (by rw [hasVacant_congr hpers p d]; simpa using hva))]
        rw [phase1Effect, if_neg (by simp [hva]), hpers]
  · rw [phase1_notMem _ _ _ _ _ _ p (fun hc => hmem (mem_sortBy.mp hc))]
    rw [phase1Effect, if_neg (by simp [hmem]), hpers]

/-! ## Unfolding `Group.take` -/

/-- `Group.take(None, date)` with a non-positive stored quota is an
immediate empty return. -/
theorem group_take_none_zero (d : Int) (g : Nat) (σ : Pool)
    (h : (σ.groups g).ddnw ≤ 0) : group_take none d g σ = (.ok [], σ) := by
  rw [group_take]
  simp only [if_pos h]

/-- `Group.take(q, date)` with a non-positive quota stores the quota and
returns empty. -/
theorem group_take_some_zero (v d : Int) (g : Nat) (σ : Pool) (h : v ≤ 0) :
    group_take (some v) d g σ =
      (.ok [], updGroup σ g (fun gr => { gr with ddnw := v })) := by
  rw [group_take]
  simp only [updGroup_groups_same]
  simp only [if_pos h]

/-- `Group.take(None, date)` with positive stored quota runs the two
phases on the rank-sorted queues. -/
theorem group_take_none_unfold (d : Int) (g : Nat) (σ : Pool)
    (h : 0 < (σ.groups g).ddnw) :
    group_take none d g σ =
      phase2 d σ.gap_size (σ.groups g).ddnw
        (sortBy (rankLe σ) (σ.groups g).available_members) []
        (phase1 d (σ.groups g).ddnw
          (sortBy (rankLe σ) (σ.groups g).available_members)
          (sortBy (rankLe σ) (σ.groups g).members) 0
          (updGroup
            (updGroup σ g (fun gr =>
              { gr with members := sortBy (rankLe σ) (σ.groups g).members }))
            g (fun gr =>
              { gr with available_members :=
                  sortBy (rankLe σ) (σ.groups g).available_members }))) := by
  rw [group_take]
  rw [if_neg (by omega)]
  simp only [updGroup_groups_same, rankLe_updGroup]
  have hgap : ∀ σ', (phase1 d (σ.groups g).ddnw
      (sortBy (rankLe σ) (σ.groups g).available_members)
      (sortBy (rankLe σ) (σ.groups g).members) 0 σ').gap_size = σ'.gap_size :=
    fun σ' => (phase1_state _ _ _ _ _ _).2.2.2
  rw [hgap]
  rfl

/-- `Group.take(q, date)` with positive quota `q` stores the quota and
runs the two phases on the rank-sorted queues. -/
theorem group_take_some_unfold (v d : Int) (g : Nat) (σ : Pool) (h : 0 < v) :
    group_take (some v) d g σ =
      phase2 d σ.gap_size v
        (sortBy (rankLe σ) (σ.groups g).available_members) []
        (phase1 d v
          (sortBy (rankLe σ) (σ.groups g).available_members)
          (sortBy (rankLe σ) (σ.groups g).members) 0
          (updGroup
            (updGroup (updGroup σ g (fun gr => { gr with ddnw := v })) g (fun gr =>
              { gr with members := sortBy (rankLe σ) (σ.groups g).members }))
            g (fun gr =>
              { gr with available_members :=
                  sortBy (rankLe σ) (σ.groups g).available_members }))) := by
  rw [group_take]
  simp only [updGroup_groups_same, rankLe_updGroup]
  rw [if_neg (by omega)]
  have hgap : ∀ σ', (phase1 d v
      (sortBy (rankLe σ) (σ.groups g).available_members)
      (sortBy (rankLe σ) (σ.groups g).members) 0 σ').gap_size = σ'.gap_size :=
    fun σ' => (phase1_state _ _ _ _ _ _).2.2.2
  rw [hgap]
  rfl

/-! ## Fuel irrelevance for the balancing loop -/

/-- Any two fuels above the loop measure give the same result. -/
theorem balanceF_fuel_irrel (nwn : Int) :
    ∀ f1 f2 queue (current : Int) (σ : Pool),
      (nwn - current).natAbs + queue.length < f1 →
      (nwn - current).natAbs + queue.length < f2 →
      balanceF nwn f1 queue current σ = balanceF nwn f2 queue current σ := by
  intro f1
  induction f1 with
  | zero => intro f2 queue current σ h1 h2; omega
  | succ a ih =>
    intro f2 queue current σ h1 h2
    match f2, h2 with
    | b + 1, h2 =>
      show balanceF nwn (a+1) queue current σ = balanceF nwn (b+1) queue current σ
      rw [balanceF, balanceF]
      by_cases hc : current = nwn
      · simp [hc]
      · simp only [if_neg hc]
        by_cases hq : queue = []
        · simp [hq]
        · simp only [if_neg hq]
          have hlen : (sortBy (residLe σ) queue).length = queue.length :=
            length_sortBy _ _
          have hqpos : 0 < queue.length := List.length_pos.mpr hq
          by_cases hlt : current < nwn
          · simp only [if_pos hlt]
            match hm : sortBy (residLe σ) queue with
            | [] => simp [hm] at hlen; omega
            | g :: rest =>
              have hlen' : rest.length + 1 = queue.length := by
                rw [← hlen, hm]; simp
              by_cases hcap : (σ.groups g).now_available ≤ (σ.groups g).ddnw
              · simp only [if_pos hcap]
                exact ih b rest current σ (by omega) (by omega)
              · simp only [if_neg hcap]
                have hd : (nwn - (current + 1)).natAbs < (nwn - current).natAbs := by omega
                exact ih b (g :: rest) (current + 1) _
                  (by simp only [List.length_cons]; omega)
                  (by simp only [List.length_cons]; omega)
          · simp only [if_neg hlt]
            match hm : (sortBy (residLe σ) queue).getLast? with
            | none => rfl
            | some g =>
              by_cases hz : (σ.groups g).ddnw ≤ 0
              · simp only [if_pos hz]
                have hdl : (sortBy (residLe σ) queue).dropLast.length =
                    (sortBy (residLe σ) queue).length - 1 := List.length_dropLast _
                exact ih b _ current σ (by omega) (by omega)
              · simp only [if_neg hz]
                have hd : (nwn - (current - 1)).natAbs < (nwn - current).natAbs := by omega
                exact ih b _ (current - 1) _ (by omega) (by omega)

/-! ## Record-level fraction lemmas for the lockstep invariant -/

theorem Frac.eq_of_parts {x y : Frac} (h1 : x.num = y.num) (h2 : x.den = y.den) :
    x = y := by
  cases x; cases y; simp_all

/-- Adding one to `count + fraction` is the record the engine's
`rank += 1` produces. -/
theorem Frac.add_shift (c : Int) (f : Frac) :
    ((Frac.ofInt c).add f).add (Frac.ofInt 1) = (Frac.ofInt (c + 1)).add f := by
  refine Frac.eq_of_parts ?_ ?_
  · show ((c * f.den + f.num * 1) * 1 + 1 * ((1 * f.den))) = (c + 1) * f.den + f.num * 1
    ring
  · show (1 * f.den) * 1 = 1 * f.den
    omega

/-! ## Preservation of the lockstep invariant -/

theorem rankInv_congr {σ σ' : Pool} (h : σ.persons = σ'.persons) :
    rankInv σ ↔ rankInv σ' := by
  rw [rankInv, rankInv, h]

theorem rankInv_updPerson_virtMut {σ : Pool} (x : Nat) (h : rankInv σ) :
    rankInv (updPerson σ x virtMut) := by
  intro p
  by_cases hpx : p = x
  · subst hpx
    rw [updPerson_persons_same]
    show (virtMut (σ.persons p)).rank =
      (Frac.ofInt (virtMut (σ.persons p)).count).add (virtMut (σ.persons p)).fraction
    rw [virtMut]
    show (σ.persons p).rank.add (Frac.ofInt 1) =
      (Frac.ofInt ((σ.persons p).count + 1)).add (σ.persons p).fraction
    rw [h p, Frac.add_shift]
  · rw [updPerson_persons_other _ _ _ _ hpx]
    exact h p

theorem rankInv_updPerson_realMut {σ : Pool} (x : Nat) (d gap : Int) (h : rankInv σ) :
    rankInv (updPerson σ x (realMut d gap x)) := by
  intro p
  by_cases hpx : p = x
  · subst hpx
    rw [updPerson_persons_same]
    show (realMut d gap p (σ.persons p)).rank =
      (Frac.ofInt (realMut d gap p (σ.persons p)).count).add
        (realMut d gap p (σ.persons p)).fraction
    rw [realMut]
    show (σ.persons p).rank.add (Frac.ofInt 1) =
      (Frac.ofInt ((σ.persons p).count + 1)).add (σ.persons p).fraction
    rw [h p, Frac.add_shift]
  · rw [updPerson_persons_other _ _ _ _ hpx]
    exact h p

theorem phase1_rankInv (d n : Int) (qu : List Nat) :
    ∀ tq (vc : Int) (σ : Pool), rankInv σ → rankInv (phase1 d n qu tq vc σ) := by
  intro tq
  induction tq with
  | nil => intro vc σ h; rw [phase1]; exact h
  | cons x rest ih =>
    intro vc σ h
    rw [phase1]
    by_cases h1 : hasDayoff σ x d
    · simp only [h1, if_true]; exact ih vc σ h
    · simp only [h1, Bool.false_eq_true, if_false]
      by_cases h2 : hasVacant σ x d
      · simp only [h2, if_true]
        by_cases h3 : n ≤ vc + 1
        · simp only [h3, if_true]; exact rankInv_updPerson_virtMut x h
        · simp only [h3, if_false]; exact ih _ _ (rankInv_updPerson_virtMut x h)
      · simp only [h2, Bool.false_eq_true, if_false]
        by_cases h4 : x ∉ qu
        · rw [if_pos h4]; exact ih vc σ h
        · rw [if_neg h4]
          by_cases h3 : n ≤ vc + 1
          · simp only [h3, if_true]; exact h
          · simp only [h3, if_false]; exact ih _ _ h

theorem phase2_rankInv (d gap n : Int) :
    ∀ qu acc (σ : Pool), rankInv σ → rankInv (phase2 d gap n qu acc σ).2 := by
  intro qu
  induction qu with
  | nil => intro acc σ h; rw [phase2]; exact h
  | cons y rest ih =>
    intro acc σ h
    rw [phase2]
    by_cases h1 : n ≤ ((acc ++ [y]).length : Int)
    · simp only [h1, if_true]; exact rankInv_updPerson_realMut y d gap h
    · simp only [h1, if_false]; exact ih _ _ (rankInv_updPerson_realMut y d gap h)

theorem group_take_rankInv (a : Option Int) (d : Int) (g : Nat) (σ : Pool)
    (h : rankInv σ) : rankInv (group_take a d g σ).2 := by
  cases a with
  | none =>
    by_cases hn : 0 < (σ.groups g).ddnw
    · rw [group_take_none_unfold d g σ hn]
      exact phase2_rankInv _ _ _ _ _ _ (phase1_rankInv _ _ _ _ _ _ ((rankInv_congr rfl).mp h))
    · rw [group_take_none_zero d g σ (by omega)]
      exact h
  | some v =>
    by_cases hn : 0 < v
    · rw [group_take_some_unfold v d g σ hn]
      exact phase2_rankInv _ _ _ _ _ _ (phase1_rankInv _ _ _ _ _ _ ((rankInv_congr rfl).mp h))
    · rw [group_take_some_zero v d g σ (by omega)]
      exact (rankInv_congr rfl).mp h

/-! ## Person-table frame lemmas for the pool-level operations -/

theorem initDdnws_persons (mu : Frac) :
    ∀ l (σ : Pool), (initDdnws mu l σ).1.persons = σ.persons := by
  intro l
  induction l with
  | nil => intro σ; rw [initDdnws]
  | cons g rest ih =>
    intro σ
    rw [initDdnws]
    simp only []
    rw [ih]
    rfl

theorem balanceF_persons (nwn : Int) :
    ∀ fuel queue (current : Int) (σ : Pool),
      (balanceF nwn fuel queue current σ).2.persons = σ.persons := by
  intro fuel
  induction fuel with
  | zero => intro queue current σ; rw [balanceF]
  | succ f ih =>
    intro queue current σ
    rw [balanceF]
    by_cases hc : current = nwn
    · simp [hc]
    · simp only [if_neg hc]
      by_cases hq : queue = []
      · simp [hq]
      · simp only [if_neg hq]
        by_cases hlt : current < nwn
        · simp only [if_pos hlt]
          match sortBy (residLe σ) queue with
          | [] => rfl
          | g :: rest =>
            by_cases hcap : (σ.groups g).now_available ≤ (σ.groups g).ddnw
            · simp only [if_pos hcap]; exact ih _ _ _
            · simp only [if_neg hcap]; rw [ih]; rfl
        · simp only [if_neg hlt]
          match (sortBy (residLe σ) queue).getLast? with
          | none => rfl
          | some g =>
            by_cases hz : (σ.groups g).ddnw ≤ 0
            · simp only [if_pos hz]; exact ih _ _ _
            · simp only [if_neg hz]; rw [ih]; rfl

theorem set_ddnws_persons (n : Int) (σ : Pool) :
    (set_ddnws n σ).2.persons = σ.persons := by
  rw [set_ddnws]
  cases hmu : get_muprime n σ with
  | error e => rfl
  | ok mu =>
    simp only []
    rw [balance, balanceF_persons, initDdnws_persons]

theorem excludeMembers_cons (m : Nat) (rest : List Nat) (σ : Pool) :
    excludeMembers (m :: rest) σ =
      excludeMembers rest (updGroup σ (σ.persons m).gid
        (fun gr => { gr with available_members := gr.available_members.erase m })) := rfl

theorem excludeMembers_persons (ms : List Nat) (σ : Pool) :
    (excludeMembers ms σ).persons = σ.persons := by
  induction ms generalizing σ with
  | nil => rfl
  | cons m rest ih => rw [excludeMembers_cons, ih]; rfl

theorem excludeGroups_cons (g : Nat) (rest : List Nat) (σ : Pool) :
    excludeGroups (g :: rest) σ =
      excludeGroups rest { σ with
        available_laborforces := σ.available_laborforces.erase g } := rfl

theorem excludeGroups_persons (gs : List Nat) (σ : Pool) :
    (excludeGroups gs σ).persons = σ.persons := by
  induction gs generalizing σ with
  | nil => rfl
  | cons g rest ih => rw [excludeGroups_cons, ih]

theorem exclude_persons (ms gs : List Nat) (σ : Pool) :
    (exclude ms gs σ).persons = σ.persons := by
  rw [exclude, excludeGroups_persons, excludeMembers_persons]

theorem decrease_cons (m : Nat) (rest : List Nat) (σ : Pool) :
    decrease (m :: rest) σ =
      decrease rest (updGroup σ (σ.persons m).gid
        (fun gr => { gr with now_available := gr.now_available - 1 })) := rfl

theorem decrease_persons (ms : List Nat) (σ : Pool) :
    (decrease ms σ).persons = σ.persons := by
  induction ms generalizing σ with
  | nil => rfl
  | cons m rest ih => rw [decrease_cons, ih]; rfl

theorem reset_persons (σ : Pool) : (reset σ).persons = σ.persons := rfl

theorem takeAll_cons (d : Int) (g : Nat) (rest acc : List Nat) (σ : Pool) :
    takeAll d (g :: rest) acc σ =
      match group_take none d g σ with
      | (.ok l, σ') => takeAll d rest (acc ++ l) σ'
      | (.error e, σ') => (.error e, σ') := rfl

theorem takeAll_rankInv (d : Int) :
    ∀ gl acc (σ : Pool), rankInv σ → rankInv (takeAll d gl acc σ).2 := by
  intro gl
  induction gl with
  | nil => intro acc σ h; rw [takeAll]; exact h
  | cons g rest ih =>
    intro acc σ h
    rw [takeAll_cons]
    have h' : rankInv (group_take none d g σ).2 := group_take_rankInv none d g σ h
    rcases hg : group_take none d g σ with ⟨res, σ'⟩
    rw [hg] at h'
    cases res with
    | ok l => exact ih _ _ h'
    | error e => exact h'

/-! ## Unfolding `LaborPool.take` -/

theorem pool_take_nonpos (nwn d : Int) (gs : Option (List Nat)) (σ : Pool)
    (h : nwn ≤ 0) : pool_take nwn d gs σ = (.error .unboundLocal, σ) := by
  unfold pool_take
  rw [if_pos h]

theorem pool_take_pos_none (nwn d : Int) (σ : Pool) (h : ¬ nwn ≤ 0) :
    pool_take nwn d none σ = pool_take_core nwn d σ := by
  unfold pool_take
  rw [if_neg h]

theorem pool_take_pos_some_empty (nwn d : Int) (l : List Nat) (σ : Pool)
    (h : ¬ nwn ≤ 0) (hl : l.isEmpty = true) :
    pool_take nwn d (some l) σ = pool_take_core nwn d σ := by
  unfold pool_take
  rw [if_neg h]
  show pool_take_core nwn d
    (if l.isEmpty = true then σ else { σ with available_laborforces := l }) = _
  rw [if_pos hl]

theorem pool_take_pos_some (nwn d : Int) (l : List Nat) (σ : Pool)
    (h : ¬ nwn ≤ 0) (hl : ¬ l.isEmpty = true) :
    pool_take nwn d (some l) σ =
      pool_take_core nwn d { σ with available_laborforces := l } := by
  unfold pool_take
  rw [if_neg h]
  show pool_take_core nwn d
    (if l.isEmpty = true then σ else { σ with available_laborforces := l }) = _
  rw [if_neg hl]

theorem pool_take_core_rankInv (nwn d : Int) (σ1 : Pool) (h : rankInv σ1) :
    rankInv (pool_take_core nwn d σ1).2 := by
  unfold pool_take_core
  dsimp only
  have h3 : rankInv (exclude (vacantPersons (exclude (dayoffPersons σ1 d) [] σ1) d) []
      (exclude (dayoffPersons σ1 d) [] σ1)) :=
    (rankInv_congr (exclude_persons _ _ _).symm).mp
      ((rankInv_congr (exclude_persons _ _ _).symm).mp h)
  have h4' := set_ddnws_persons nwn (exclude (vacantPersons
    (exclude (dayoffPersons σ1 d) [] σ1) d) [] (exclude (dayoffPersons σ1 d) [] σ1))
  rcases hsd : set_ddnws nwn (exclude (vacantPersons
      (exclude (dayoffPersons σ1 d) [] σ1) d) []
      (exclude (dayoffPersons σ1 d) [] σ1)) with ⟨res, σ4⟩
  rw [hsd] at h4'
  have h4 : rankInv σ4 := (rankInv_congr h4'.symm).mp h3
  cases res with
  | error e => dsimp only; exact h4
  | ok u =>
    dsimp only
    have h5' := takeAll_rankInv d σ4.available_laborforces [] σ4 h4
    rcases hta : takeAll d σ4.available_laborforces [] σ4 with ⟨res2, σ5⟩
    rw [hta] at h5'
    cases res2 with
    | ok acc => dsimp only; exact (rankInv_congr (reset_persons σ5).symm).mp h5'
    | error e => dsimp only; exact h5'

theorem pool_take_rankInv (nwn d : Int) (gs : Option (List Nat)) (σ : Pool)
    (h : rankInv σ) : rankInv (pool_take nwn d gs σ).2 := by
  by_cases hn : nwn ≤ 0
  · rw [pool_take_nonpos nwn d gs σ hn]; exact h
  · cases gs with
    | none => rw [pool_take_pos_none nwn d σ hn]; exact pool_take_core_rankInv _ _ _ h
    | some l =>
      by_cases hl : l.isEmpty = true
      · rw [pool_take_pos_some_empty nwn d l σ hn hl]
        exact pool_take_core_rankInv _ _ _ h
      · rw [pool_take_pos_some nwn d l σ hn hl]
        exact pool_take_core_rankInv _ _ _ ((rankInv_congr rfl).mp h)

/-- A successful `pool_take_core` ends in a `reset`. -/
theorem pool_take_core_ok_reset (nwn d : Int) (σ1 : Pool) (l : List Nat) (σ' : Pool)
    (h : pool_take_core nwn d σ1 = (.ok l, σ')) : ∃ σ5, σ' = reset σ5 := by
  unfold pool_take_core at h
  dsimp only at h
  rcases hsd : set_ddnws nwn (exclude (vacantPersons
      (exclude (dayoffPersons σ1 d) [] σ1) d) []
      (exclude (dayoffPersons σ1 d) [] σ1)) with ⟨res, σ4⟩
  rw [hsd] at h
  cases res with
  | error e => exact absurd (congrArg Prod.fst h) (by simp)
  | ok u =>
    dsimp only at h
    rcases hta : takeAll d σ4.available_laborforces [] σ4 with ⟨res2, σ5⟩
    rw [hta] at h
    cases res2 with
    | ok acc =>
      dsimp only at h
      exact ⟨σ5, (congrArg Prod.snd h).symm⟩
    | error e => exact absurd (congrArg Prod.fst h) (by simp)

/-- The state a `reset` produces has full availability. -/
theorem reset_full (σ5 : Pool) :
    (∀ g : Nat, ((reset σ5).groups g).available_members = ((reset σ5).groups g).members ∧
      ((reset σ5).groups g).now_available = ((reset σ5).groups g).max_available) ∧
    (reset σ5).available_laborforces = List.range (reset σ5).numGroups := by
  refine ⟨fun g => ⟨rfl, rfl⟩, rfl⟩

/-! ## What member exclusion does to availability -/

theorem exclude_ms_only (ms : List Nat) (σ : Pool) :
    exclude ms [] σ = excludeMembers ms σ := rfl

theorem excludeMembers_avail (ms : List Nat) (σ : Pool) :
    (excludeMembers ms σ).available_laborforces = σ.available_laborforces := by
  induction ms generalizing σ with
  | nil => rfl
  | cons m rest ih => rw [excludeMembers_cons, ih]; rfl

theorem excludeMembers_numGroups (ms : List Nat) (σ : Pool) :
    (excludeMembers ms σ).numGroups = σ.numGroups := by
  induction ms generalizing σ with
  | nil => rfl
  | cons m rest ih => rw [excludeMembers_cons, ih]; rfl

theorem excludeMembers_gap (ms : List Nat) (σ : Pool) :
    (excludeMembers ms σ).gap_size = σ.gap_size := by
  induction ms generalizing σ with
  | nil => rfl
  | cons m rest ih => rw [excludeMembers_cons, ih]; rfl

theorem excludeMembers_members (ms : List Nat) (σ : Pool) (g : Nat) :
    ((excludeMembers ms σ).groups g).members = (σ.groups g).members := by
  induction ms generalizing σ with
  | nil => rfl
  | cons m rest ih =>
    rw [excludeMembers_cons, ih]
    by_cases hg : g = (σ.persons m).gid
    · subst hg; rw [updGroup_groups_same]
    · rw [updGroup_groups_other _ _ _ _ hg]

theorem excludeMembers_now (ms : List Nat) (σ : Pool) (g : Nat) :
    ((excludeMembers ms σ).groups g).now_available = (σ.groups g).now_available := by
  induction ms generalizing σ with
  | nil => rfl
  | cons m rest ih =>
    rw [excludeMembers_cons, ih]
    by_cases hg : g = (σ.persons m).gid
    · subst hg; rw [updGroup_groups_same]
    · rw [updGroup_groups_other _ _ _ _ hg]

/-- Exclusion only removes members from availability. -/
theorem excludeMembers_mem (ms : List Nat) (σ : Pool) (g a : Nat)
    (h : a ∈ ((excludeMembers ms σ).groups g).available_members) :
    a ∈ (σ.groups g).available_members := by
  induction ms generalizing σ with
  | nil => exact h
  | cons m rest ih =>
    rw [excludeMembers_cons] at h
    have h2 := ih _ h
    by_cases hg : g = (σ.persons m).gid
    · subst hg
      rw [updGroup_groups_same] at h2
      exact List.mem_of_mem_erase h2
    · rw [updGroup_groups_other _ _ _ _ hg] at h2
      exact h2

theorem excludeMembers_nodup (ms : List Nat) (σ : Pool) (g : Nat)
    (h : ((σ.groups g).available_members).Nodup) :
    (((excludeMembers ms σ).groups g).available_members).Nodup := by
  induction ms generalizing σ with
  | nil => exact h
  | cons m rest ih =>
    rw [excludeMembers_cons]
    apply ih
    by_cases hg : g = (σ.persons m).gid
    · subst hg
      rw [updGroup_groups_same]
      exact h.erase m
    · rw [updGroup_groups_other _ _ _ _ hg]
      exact h

/-- A listed person is removed from their own group's availability
(assuming that availability list had no duplicates). -/
theorem excludeMembers_not_mem (ms : List Nat) (σ : Pool) (a : Nat)
    (hnd : ((σ.groups (σ.persons a).gid).available_members).Nodup)
    (ha : a ∈ ms) :
    a ∉ ((excludeMembers ms σ).groups (σ.persons a).gid).available_members := by
  induction ms generalizing σ with
  | nil => exact absurd ha (List.not_mem_nil a)
  | cons m rest ih =>
    rw [excludeMembers_cons]
    rcases List.mem_cons.mp ha with ham | har
    · subst ham
      intro hmem
      have h2 := excludeMembers_mem rest _ ((σ.persons a).gid) a hmem
      rw [updGroup_groups_same] at h2
      exact hnd.not_mem_erase h2
    · refine ih (updGroup σ (σ.persons m).gid
        (fun gr => { gr with available_members := gr.available_members.erase m })) ?_ har
      show ((updGroup σ (σ.persons m).gid
        (fun gr => { gr with available_members := gr.available_members.erase m })).groups
          (σ.persons a).gid).available_members.Nodup
      by_cases hg : (σ.persons a).gid = (σ.persons m).gid
      · rw [hg] at hnd ⊢
        rw [updGroup_groups_same]
        exact hnd.erase m
      · rw [updGroup_groups_other _ _ _ _ hg]
        exact hnd

/-- A member with a dayoff interval covering the date is among the
owners of the pool's covering dayoff intervals. -/
theorem mem_dayoffPersons (σ : Pool) (d : Int) (g p : Nat)
    (hg : g < σ.numGroups) (hp : p ∈ (σ.groups g).members)
    (hiv : ∀ iv ∈ (σ.persons p).dayoffs, iv.person = p)
    (hdo : hasDayoff σ p d = true) :
    p ∈ dayoffPersons σ d := by
  rw [hasDayoff, List.any_eq_true] at hdo
  obtain ⟨iv, hivmem, hivc⟩ := hdo
  rw [dayoffPersons, List.mem_map]
  refine ⟨iv, ?_, hiv iv hivmem⟩
  rw [List.mem_filter]
  refine ⟨?_, hivc⟩
  rw [get_dayoffs, List.mem_flatten]
  refine ⟨((σ.groups g).members.map (fun q => (σ.persons q).dayoffs)).flatten, ?_, ?_⟩
  · exact List.mem_map.mpr ⟨g, List.mem_range.mpr hg, rfl⟩
  · rw [List.mem_flatten]
    exact ⟨(σ.persons p).dayoffs, List.mem_map.mpr ⟨p, hp, rfl⟩, hivmem⟩

/-- `set_ddnws` with no available member raises `ZeroDivisionError`. -/
theorem set_ddnws_zero_den (n : Int) (σ : Pool)
    (h : (σ.available_laborforces.map
      (fun g => (σ.groups g).available_members.length)).sum = 0) :
    set_ddnws n σ = (.error .zeroDivision, σ) := by
  unfold set_ddnws get_muprime
  rw [dif_pos h]

/-! ## Frame lemmas for a dayoff member through a whole take -/

theorem hasDayoff_persons_eq {σ σ' : Pool} {p : Nat}
    (h : σ'.persons p = σ.persons p) (d : Int) :
    hasDayoff σ' p d = hasDayoff σ p d := by
  rw [hasDayoff, hasDayoff, h]

/-- `Group.take` never adds anyone to any availability list. -/
theorem group_take_avail_no_new (a : Option Int) (d : Int) (g : Nat) (σ : Pool)
    (g' x : Nat) (h : x ∉ (σ.groups g').available_members) :
    x ∉ ((group_take a d g σ).2.groups g').available_members := by
  have main : ∀ n : Int, 0 < n → ∀ σ2 : Pool,
      (∀ h', (σ2.groups h').available_members =
        (if h' = g then sortBy (rankLe σ) (σ.groups g).available_members
         else (σ.groups h').available_members)) →
      x ∉ ((phase2 d σ.gap_size n (sortBy (rankLe σ) (σ.groups g).available_members) []
        (phase1 d n (sortBy (rankLe σ) (σ.groups g).available_members)
          (sortBy (rankLe σ) (σ.groups g).members) 0 σ2)).2.groups g').available_members := by
    intro n hn σ2 hshape
    have h1 := (phase2_state d σ.gap_size n
      (sortBy (rankLe σ) (σ.groups g).available_members) []
      (phase1 d n (sortBy (rankLe σ) (σ.groups g).available_members)
        (sortBy (rankLe σ) (σ.groups g).members) 0 σ2)).1
    have h2 := (phase1_state d n (sortBy (rankLe σ) (σ.groups g).available_members)
      (sortBy (rankLe σ) (σ.groups g).members) 0 σ2).1
    rw [h1, h2, hshape g']
    by_cases hg : g' = g
    · rw [if_pos hg]
      intro hc
      exact h (hg ▸ mem_sortBy.mp hc)
    · rw [if_neg hg]
      exact h
  cases a with
  | none =>
    by_cases hn : 0 < (σ.groups g).ddnw
    · rw [group_take_none_unfold d g σ hn]
      refine main _ hn _ (fun h' => ?_)
      by_cases hg : h' = g
      · subst hg; rw [if_pos rfl, updGroup_groups_same]
      · rw [if_neg hg, updGroup_groups_other _ _ _ _ hg, updGroup_groups_other _ _ _ _ hg]
    · rw [group_take_none_zero d g σ (by omega)]
      exact h
  | some v =>
    by_cases hn : 0 < v
    · rw [group_take_some_unfold v d g σ hn]
      refine main _ hn _ (fun h' => ?_)
      by_cases hg : h' = g
      · subst hg; rw [if_pos rfl, updGroup_groups_same]
      · rw [if_neg hg, updGroup_groups_other _ _ _ _ hg, updGroup_groups_other _ _ _ _ hg,
          updGroup_groups_other _ _ _ _ hg]
    · rw [group_take_some_zero v d g σ (by omega)]
      by_cases hg : g' = g
      · subst hg; rw [updGroup_groups_same]; exact h
      · rw [updGroup_groups_other _ _ _ _ hg]; exact h

/-- A person on dayoff for the date, and not available in the taken
group, is untouched by `Group.take` and never in its output. -/
theorem group_take_dayoff_frame (a : Option Int) (d : Int) (g : Nat) (σ : Pool)
    (p : Nat) (hdo : hasDayoff σ p d = true)
    (hnav : p ∉ (σ.groups g).available_members) :
    (group_take a d g σ).2.persons p = σ.persons p ∧
    (∀ l, (group_take a d g σ).1 = .ok l → p ∉ l) := by
  have hpqu : p ∉ sortBy (rankLe σ) (σ.groups g).available_members :=
    fun hc => hnav (mem_sortBy.mp hc)
  have main : ∀ n : Int, 0 < n → ∀ σ2 : Pool, σ2.persons = σ.persons →
      ((phase2 d σ.gap_size n (sortBy (rankLe σ) (σ.groups g).available_members) []
        (phase1 d n (sortBy (rankLe σ) (σ.groups g).available_members)
          (sortBy (rankLe σ) (σ.groups g).members) 0 σ2)).2.persons p = σ.persons p) ∧
      (∀ l, (phase2 d σ.gap_size n (sortBy (rankLe σ) (σ.groups g).available_members) []
        (phase1 d n (sortBy (rankLe σ) (σ.groups g).available_members)
          (sortBy (rankLe σ) (σ.groups g).members) 0 σ2)).1 = .ok l → p ∉ l) := by
    intro n hn σ2 hpers
    have hp1 : (phase1 d n (sortBy (rankLe σ) (σ.groups g).available_members)
        (sortBy (rankLe σ) (σ.groups g).members) 0 σ2).persons p = σ.persons p := by
      rw [phase1_untouched _ _ _ _ _ _ p
        (Or.inl (by rw [hasDayoff_congr hpers p d]; exact hdo))]
      rw [hpers]
    constructor
    · rw [phase2_notMem _ _ _ _ _ _ p hpqu, hp1]
    · intro l hok hpl
      rcases phase2_ok_mem _ _ _ _ _ _ l p hok hpl with hmem' | hmem'
      · exact absurd hmem' (List.not_mem_nil p)
      · exact hpqu hmem'
  cases a with
  | none =>
    by_cases hn : 0 < (σ.groups g).ddnw
    · rw [group_take_none_unfold d g σ hn]
      exact main _ hn _ rfl
    · rw [group_take_none_zero d g σ (by omega)]
      exact ⟨rfl, fun l hok hpl => by cases hok; exact absurd hpl (List.not_mem_nil p)⟩
  | some v =>
    by_cases hn : 0 < v
    · rw [group_take_some_unfold v d g σ hn]
      exact main _ hn _ rfl
    · rw [group_take_some_zero v d g σ (by omega)]
      exact ⟨rfl, fun l hok hpl => by cases hok; exact absurd hpl (List.not_mem_nil p)⟩

/-- Group lists are untouched by the apportionment loop. -/
theorem balanceF_group_lists (nwn : Int) :
    ∀ fuel queue (current : Int) (σ : Pool) (g : Nat),
      ((balanceF nwn fuel queue current σ).2.groups g).available_members =
        (σ.groups g).available_members ∧
      ((balanceF nwn fuel queue current σ).2.groups g).members = (σ.groups g).members ∧
      ((balanceF nwn fuel queue current σ).2.groups g).now_available =
        (σ.groups g).now_available ∧
      (balanceF nwn fuel queue current σ).2.available_laborforces =
        σ.available_laborforces ∧
      (balanceF nwn fuel queue current σ).2.numGroups = σ.numGroups := by
  intro fuel
  induction fuel with
  | zero => intro queue current σ g; rw [balanceF]; exact ⟨rfl, rfl, rfl, rfl, rfl⟩
  | succ f ih =>
    intro queue current σ g
    rw [balanceF]
    by_cases hc : current = nwn
    · simp [hc]
    · simp only [if_neg hc]
      by_cases hq : queue = []
      · simp [hq]
      · simp only [if_neg hq]
        have step : ∀ (h : Nat) (σ' : Pool),
            (∀ g', ((σ'.groups g').available_members = (σ.groups g').available_members ∧
              (σ'.groups g').members = (σ.groups g').members ∧
              (σ'.groups g').now_available = (σ.groups g').now_available) ∧
              σ'.available_laborforces = σ.available_laborforces ∧
              σ'.numGroups = σ.numGroups) →
            ∀ q c, ((balanceF nwn f q c σ').2.groups g).available_members =
                (σ.groups g).available_members ∧
              ((balanceF nwn f q c σ').2.groups g).members = (σ.groups g).members ∧
              ((balanceF nwn f q c σ').2.groups g).now_available =
                (σ.groups g).now_available ∧
              (balanceF nwn f q c σ').2.available_laborforces = σ.available_laborforces ∧
              (balanceF nwn f q c σ').2.numGroups = σ.numGroups := by
          intro h σ' hs q c
          obtain ⟨h1, h2, h3, h4, h5⟩ := ih q c σ' g
          exact ⟨h1.trans ((hs g).1.1), h2.trans ((hs g).1.2.1), h3.trans ((hs g).1.2.2),
            h4.trans (hs 0).2.1, h5.trans (hs 0).2.2⟩
        by_cases hlt : current < nwn
        · simp only [if_pos hlt]
          match sortBy (residLe σ) queue with
          | [] => exact ⟨rfl, rfl, rfl, rfl, rfl⟩
          | gg :: rest =>
            by_cases hcap : (σ.groups gg).now_available ≤ (σ.groups gg).ddnw
            · simp only [if_pos hcap]
              exact step gg σ (fun g' => ⟨⟨rfl, rfl, rfl⟩, rfl, rfl⟩) _ _
            · simp only [if_neg hcap]
              apply step gg
              intro g'
              refine ⟨?_, rfl, rfl⟩
              by_cases hg : g' = gg
              · subst hg; rw [updGroup_groups_same]; exact ⟨rfl, rfl, rfl⟩
              · rw [updGroup_groups_other _ _ _ _ hg]; exact ⟨rfl, rfl, rfl⟩
        · simp only [if_neg hlt]
          match (sortBy (residLe σ) queue).getLast? with
          | none => exact ⟨rfl, rfl, rfl, rfl, rfl⟩
          | some gg =>
            by_cases hz : (σ.groups gg).ddnw ≤ 0
            · simp only [if_pos hz]
              exact step gg σ (fun g' => ⟨⟨rfl, rfl, rfl⟩, rfl, rfl⟩) _ _
            · simp only [if_neg hz]
              apply step gg
              intro g'
              refine ⟨?_, rfl, rfl⟩
              by_cases hg : g' = gg
              · subst hg; rw [updGroup_groups_same]; exact ⟨rfl, rfl, rfl⟩
              · rw [updGroup_groups_other _ _ _ _ hg]; exact ⟨rfl, rfl, rfl⟩

/-- Group lists are untouched by the initial apportionment pass. -/
theorem initDdnws_group_lists (mu : Frac) :
    ∀ l (σ : Pool) (g : Nat),
      (((initDdnws mu l σ).1).groups g).available_members =
        (σ.groups g).available_members ∧
      (((initDdnws mu l σ).1).groups g).members = (σ.groups g).members ∧
      (((initDdnws mu l σ).1).groups g).now_available = (σ.groups g).now_available ∧
      ((initDdnws mu l σ).1).available_laborforces = σ.available_laborforces ∧
      ((initDdnws mu l σ).1).numGroups = σ.numGroups := by
  intro l
  induction l with
  | nil => intro σ g; rw [initDdnws]; exact ⟨rfl, rfl, rfl, rfl, rfl⟩
  | cons gg rest ih =>
    intro σ g
    rw [initDdnws]
    dsimp only
    obtain ⟨h1, h2, h3, h4, h5⟩ := ih (updGroup σ gg (fun gr =>
      { gr with
        dnw := (mu.mul (Frac.ofInt ((σ.groups gg).available_members.length : Int))).sub
          (Frac.ofInt (groupCount σ gg)),
        ddnw := if (Frac.ofInt (σ.groups gg).now_available).lt
            ((mu.mul (Frac.ofInt ((σ.groups gg).available_members.length : Int))).sub
              (Frac.ofInt (groupCount σ gg)))
          then (σ.groups gg).now_available
          else if ((mu.mul (Frac.ofInt ((σ.groups gg).available_members.length : Int))).sub
              (Frac.ofInt (groupCount σ gg))).lt (Frac.ofInt 0) then 0
          else pyround ((mu.mul (Frac.ofInt ((σ.groups gg).available_members.length : Int))).sub
            (Frac.ofInt (groupCount σ gg))) })) g
    refine ⟨h1.trans ?_, h2.trans ?_, h3.trans ?_, h4.trans rfl, h5.trans rfl⟩
    all_goals
      by_cases hg : g = gg
      · subst hg; rw [updGroup_groups_same]
      · rw [updGroup_groups_other _ _ _ _ hg]

/-- Group lists are untouched by `set_ddnws`. -/
theorem set_ddnws_group_lists (n : Int) (σ : Pool) (g : Nat) :
    ((set_ddnws n σ).2.groups g).available_members = (σ.groups g).available_members ∧
    ((set_ddnws n σ).2.groups g).members = (σ.groups g).members ∧
    ((set_ddnws n σ).2.groups g).now_available = (σ.groups g).now_available ∧
    (set_ddnws n σ).2.available_laborforces = σ.available_laborforces ∧
    (set_ddnws n σ).2.numGroups = σ.numGroups := by
  rw [set_ddnws]
  cases hmu : get_muprime n σ with
  | error e => exact ⟨rfl, rfl, rfl, rfl, rfl⟩
  | ok mu =>
    dsimp only
    rw [balance]
    obtain ⟨b1, b2, b3, b4, b5⟩ := balanceF_group_lists n _ _ _
      (initDdnws mu σ.available_laborforces σ).1 g
    obtain ⟨i1, i2, i3, i4, i5⟩ := initDdnws_group_lists mu σ.available_laborforces σ g
    exact ⟨b1.trans i1, b2.trans i2, b3.trans i3, b4.trans i4, b5.trans i5⟩

/-- A person on dayoff for the date, and available in no group on the
taking list, is untouched by the per-group take loop and never in its
output. -/
theorem takeAll_dayoff_frame (d : Int) (p : Nat) :
    ∀ (gl acc : List Nat) (σ : Pool),
      hasDayoff σ p d = true →
      (∀ g ∈ gl, p ∉ (σ.groups g).available_members) →
      p ∉ acc →
      (takeAll d gl acc σ).2.persons p = σ.persons p ∧
      (∀ l, (takeAll d gl acc σ).1 = .ok l → p ∉ l) := by
  intro gl
  induction gl with
  | nil =>
    intro acc σ hdo hav hacc
    rw [takeAll]
    exact ⟨rfl, fun l hok hpl => by cases hok; exact hacc hpl⟩
  | cons g rest ih =>
    intro acc σ hdo hav hacc
    obtain ⟨hfr, hout⟩ := group_take_dayoff_frame none d g σ p hdo
      (hav g (List.mem_cons_self g rest))
    rw [takeAll_cons]
    rcases hgt : group_take none d g σ with ⟨res, σ'⟩
    rw [hgt] at hfr hout
    cases res with
    | error e =>
      dsimp only
      exact ⟨hfr, fun l hok => by cases hok⟩
    | ok l =>
      dsimp only
      have hpl : p ∉ l := hout l rfl
      obtain ⟨ih1, ih2⟩ := ih (acc ++ l) σ'
        (by rw [hasDayoff_persons_eq hfr d]; exact hdo)
        (fun g' hg' => by
          have h2 := group_take_avail_no_new none d g σ g' p
            (hav g' (List.mem_cons_of_mem g hg'))
          rw [hgt] at h2
          exact h2)
        (fun hc => (List.mem_append.mp hc).elim hacc hpl)
      exact ⟨ih1.trans hfr, ih2⟩

/-- A member on dayoff for the date is invisible to the whole body of
`LaborPool.take`: their person record is untouched and they are never in
a successful output. -/
theorem pool_take_core_dayoff_frame (nwn d : Int) (σ1 : Pool) (p : Nat)
    (hback : ∀ g, g < σ1.numGroups → ∀ q ∈ (σ1.groups g).members, (σ1.persons q).gid = g)
    (hsub : ∀ g, g < σ1.numGroups →
      ∀ q ∈ (σ1.groups g).available_members, q ∈ (σ1.groups g).members)
    (hnd : ((σ1.groups (σ1.persons p).gid).available_members).Nodup)
    (hrange : ∀ g ∈ σ1.available_laborforces, g < σ1.numGroups)
    (hgid : (σ1.persons p).gid < σ1.numGroups)
    (hmem : p ∈ (σ1.groups (σ1.persons p).gid).members)
    (hiv : ∀ iv ∈ (σ1.persons p).dayoffs, iv.person = p)
    (hdo : hasDayoff σ1 p d = true) :
    (pool_take_core nwn d σ1).2.persons p = σ1.persons p ∧
    (∀ l, (pool_take_core nwn d σ1).1 = .ok l → p ∉ l) := by
  have hp2 : ∀ g, g < σ1.numGroups →
      p ∉ ((excludeMembers (dayoffPersons σ1 d) σ1).groups g).available_members := by
    intro g hg
    by_cases hgp : g = (σ1.persons p).gid
    · subst hgp
      exact excludeMembers_not_mem (dayoffPersons σ1 d) σ1 p hnd
        (mem_dayoffPersons σ1 d (σ1.persons p).gid p hgid hmem hiv hdo)
    · intro hc
      exact hgp ((hback g hg p (hsub g hg p (excludeMembers_mem _ _ _ _ hc))).symm)
  have hpers2 : (excludeMembers (dayoffPersons σ1 d) σ1).persons = σ1.persons :=
    excludeMembers_persons _ _
  have hp3 : ∀ g, g < σ1.numGroups →
      p ∉ ((excludeMembers (vacantPersons (excludeMembers (dayoffPersons σ1 d) σ1) d)
        (excludeMembers (dayoffPersons σ1 d) σ1)).groups g).available_members := by
    intro g hg hc
    exact hp2 g hg (excludeMembers_mem _ _ _ _ hc)
  have hpers3 : (excludeMembers (vacantPersons (excludeMembers (dayoffPersons σ1 d) σ1) d)
      (excludeMembers (dayoffPersons σ1 d) σ1)).persons = σ1.persons :=
    (excludeMembers_persons _ _).trans hpers2
  have havail3 : (excludeMembers (vacantPersons (excludeMembers (dayoffPersons σ1 d) σ1) d)
      (excludeMembers (dayoffPersons σ1 d) σ1)).available_laborforces =
      σ1.available_laborforces :=
    (excludeMembers_avail _ _).trans (excludeMembers_avail _ _)
  unfold pool_take_core
  dsimp only
  rw [exclude_ms_only, exclude_ms_only]
  rcases hsd : set_ddnws nwn (excludeMembers
      (vacantPersons (excludeMembers (dayoffPersons σ1 d) σ1) d)
      (excludeMembers (dayoffPersons σ1 d) σ1)) with ⟨res, σ4⟩
  have hpers4 : σ4.persons = σ1.persons := by
    have h := set_ddnws_persons nwn (excludeMembers
      (vacantPersons (excludeMembers (dayoffPersons σ1 d) σ1) d)
      (excludeMembers (dayoffPersons σ1 d) σ1))
    rw [hsd] at h
    exact h.trans hpers3
  cases res with
  | error e =>
    dsimp only
    exact ⟨congrFun hpers4 p, fun l hok => by cases hok⟩
  | ok u =>
    dsimp only
    have hsh : ∀ g, ((σ4.groups g).available_members =
        ((excludeMembers (vacantPersons (excludeMembers (dayoffPersons σ1 d) σ1) d)
          (excludeMembers (dayoffPersons σ1 d) σ1)).groups g).available_members) ∧
        σ4.available_laborforces = σ1.available_laborforces := by
      intro g
      have h := set_ddnws_group_lists nwn (excludeMembers
        (vacantPersons (excludeMembers (dayoffPersons σ1 d) σ1) d)
        (excludeMembers (dayoffPersons σ1 d) σ1)) g
      rw [hsd] at h
      exact ⟨h.1, h.2.2.2.1.trans havail3⟩
    obtain ⟨hta1, hta2⟩ := takeAll_dayoff_frame d p σ4.available_laborforces [] σ4
      (by rw [hasDayoff_congr hpers4 p d]; exact hdo)
      (fun g hg => by
        rw [(hsh g).1]
        exact hp3 g (hrange g (by rw [← (hsh 0).2]; exact hg)))
      (List.not_mem_nil p)
    rcases hta : takeAll d σ4.available_laborforces [] σ4 with ⟨res2, σ5⟩
    rw [hta] at hta1 hta2
    cases res2 with
    | error e =>
      dsimp only
      exact ⟨hta1.trans (congrFun hpers4 p), fun l hok => by cases hok⟩
    | ok acc =>
      dsimp only
      refine ⟨?_, fun l hok => by cases hok; exact hta2 acc rfl⟩
      show (reset σ5).persons p = σ1.persons p
      rw [reset_persons]
      exact hta1.trans (congrFun hpers4 p)

/-! ## Sums of group fields under point updates -/

theorem sum_map_upd_not_mem (F : Group → Int) (σ : Pool) (g : Nat) (f : Group → Group) :
    ∀ (A : List Nat), g ∉ A →
      (A.map (fun h => F ((updGroup σ g f).groups h))).sum =
        (A.map (fun h => F (σ.groups h))).sum := by
  intro A
  induction A with
  | nil => intro _; rfl
  | cons a rest ih =>
    intro hg
    rw [List.map_cons, List.map_cons, List.sum_cons, List.sum_cons,
      ih (fun hc => hg (List.mem_cons_of_mem a hc)),
      updGroup_groups_other σ g a f (fun hc => hg (hc ▸ List.mem_cons_self a rest))]

theorem sum_map_upd (F : Group → Int) (σ : Pool) (g : Nat) (f : Group → Group) :
    ∀ (A : List Nat), A.Nodup → g ∈ A →
      (A.map (fun h => F ((updGroup σ g f).groups h))).sum =
        (A.map (fun h => F (σ.groups h))).sum - F (σ.groups g) + F (f (σ.groups g)) := by
  intro A
  induction A with
  | nil => intro _ hg; exact absurd hg (List.not_mem_nil g)
  | cons a rest ih =>
    intro hnd hg
    rw [List.map_cons, List.map_cons, List.sum_cons, List.sum_cons]
    rcases List.mem_cons.mp hg with hga | hgr
    · subst hga
      rw [updGroup_groups_same,
        sum_map_upd_not_mem F σ g f rest (List.nodup_cons.mp hnd).1]
      ring
    · have hna : a ≠ g := fun hc => (List.nodup_cons.mp hnd).1 (hc ▸ hgr)
      rw [updGroup_groups_other σ g a f hna, ih (List.nodup_cons.mp hnd).2 hgr]
      ring

theorem sumDdnw_upd (σ : Pool) (g : Nat) (f : Group → Group) (A : List Nat)
    (hA : A.Nodup) (hg : g ∈ A) :
    sumDdnw (updGroup σ g f) A =
      sumDdnw σ A - (σ.groups g).ddnw + (f (σ.groups g)).ddnw := by
  rw [sumDdnw, sumDdnw]
  exact sum_map_upd (fun gr => gr.ddnw) σ g f A hA hg

/-! ## The initial apportionment pass, declaratively -/

theorem groupCount_congr2 {σ2 σ : Pool} (hp : σ2.persons = σ.persons)
    (ha : ∀ g, (σ2.groups g).available_members = (σ.groups g).available_members)
    (g : Nat) : groupCount σ2 g = groupCount σ g := by
  rw [groupCount, groupCount, hp, ha]

theorem dnwF_congr {σ2 σ : Pool} (mu : Frac) (hp : σ2.persons = σ.persons)
    (ha : ∀ g, (σ2.groups g).available_members = (σ.groups g).available_members)
    (g : Nat) : dnwF mu σ2 g = dnwF mu σ g := by
  rw [dnwF, dnwF, ha, groupCount_congr2 hp ha]

/-- Bounds on the initial `ddnw` of a group kept in the balancing queue:
non-negative and at most its capacity. -/
theorem ddInit_bounds (mu : Frac) (σ : Pool) (g : Nat)
    (hna : 0 ≤ (σ.groups g).now_available)
    (hcl : clamped mu σ g = false) :
    0 ≤ ddInit mu σ g ∧ ddInit mu σ g ≤ (σ.groups g).now_available := by
  have hle : (dnwF mu σ g).q ≤ (((σ.groups g).now_available : Int) : ℚ) := by
    have h1 : ¬ ((Frac.ofInt (σ.groups g).now_available).lt (dnwF mu σ g) = true) := by
      rw [show (Frac.ofInt (σ.groups g).now_available).lt (dnwF mu σ g) =
        clamped mu σ g from rfl, hcl]
      exact Bool.false_ne_true
    rw [Frac.lt_iff] at h1
    push_neg at h1
    rw [Frac.q_ofInt] at h1
    exact h1
  rw [ddInit, hcl]
  simp only [Bool.false_eq_true, if_false]
  by_cases hneg : (dnwF mu σ g).lt (Frac.ofInt 0) = true
  · rw [if_pos hneg]
    exact ⟨le_refl 0, hna⟩
  · rw [if_neg hneg]
    have hge : (0 : ℚ) ≤ (dnwF mu σ g).q := by
      rw [Frac.lt_iff, Frac.q_ofInt] at hneg
      push_neg at hneg
      exact_mod_cast hneg
    exact ⟨pyround_nonneg _ hge, pyround_le_of_le _ _ hle⟩

/-- Splitting a sum over groups into its clamped part and its queued
(filtered) part. -/
theorem sum_split_clamp (mu : Frac) (σ : Pool) (F : Nat → Int) :
    ∀ l : List Nat,
      (l.map F).sum =
        (l.map (fun g => if clamped mu σ g then F g else 0)).sum +
        ((l.filter (fun g => ! clamped mu σ g)).map F).sum := by
  intro l
  induction l with
  | nil => rfl
  | cons a rest ih =>
    by_cases hcl : clamped mu σ a = true
    · rw [List.map_cons, List.sum_cons, List.map_cons, List.sum_cons, if_pos hcl,
        List.filter_cons_of_neg (by simp [hcl]), ih]
      ring
    · have hcl' : clamped mu σ a = false := Bool.eq_false_iff.mpr hcl
      rw [List.map_cons, List.sum_cons, List.map_cons, List.sum_cons, if_neg hcl,
        List.filter_cons_of_pos (by simp [hcl']), List.map_cons, List.sum_cons, ih]
      ring

/-- What the initial loop of `set_ddnws` computes: the queue is the
in-order filter of the non-clamped groups, the accumulated
`current_nwn` is the sum of the initial `ddnw`s, and each listed group's
`ddnw` is set to its `ddInit`. -/
theorem initDdnws_char (mu : Frac) (σ : Pool) :
    ∀ (l : List Nat) (σ2 : Pool),
      σ2.persons = σ.persons →
      (∀ g, (σ2.groups g).available_members = (σ.groups g).available_members ∧
        (σ2.groups g).now_available = (σ.groups g).now_available) →
      (initDdnws mu l σ2).2.1 = l.filter (fun g => ! clamped mu σ g) ∧
      (initDdnws mu l σ2).2.2 = (l.map (fun g => ddInit mu σ g)).sum ∧
      (∀ g ∈ l, ((initDdnws mu l σ2).1.groups g).ddnw = ddInit mu σ g) ∧
      (∀ g, g ∉ l → (initDdnws mu l σ2).1.groups g = σ2.groups g) := by
  intro l
  induction l with
  | nil =>
    intro σ2 hp hs
    rw [initDdnws]
    exact ⟨rfl, rfl, fun g hg => absurd hg (List.not_mem_nil g), fun g _ => rfl⟩
  | cons a rest ih =>
    intro σ2 hp hs
    have hdnw : (mu.mul (Frac.ofInt ((σ2.groups a).available_members.length : Int))).sub
        (Frac.ofInt (groupCount σ2 a)) = dnwF mu σ a := by
      rw [(hs a).1, groupCount_congr2 hp (fun g => (hs g).1)]
      rfl
    have hna2 : (σ2.groups a).now_available = (σ.groups a).now_available := (hs a).2
    rw [initDdnws]
    dsimp only
    rw [hdnw, hna2]
    set dd : Int := (if (Frac.ofInt (σ.groups a).now_available).lt (dnwF mu σ a)
      then (σ.groups a).now_available
      else if (dnwF mu σ a).lt (Frac.ofInt 0) then 0
      else pyround (dnwF mu σ a)) with hdd
    have hddval : dd = ddInit mu σ a := by rw [hdd]; rfl
    have hp' : (updGroup σ2 a
        (fun gr => { gr with dnw := dnwF mu σ a, ddnw := dd })).persons = σ.persons := by
      rw [updGroup_persons, hp]
    have hs' : ∀ g, ((updGroup σ2 a
          (fun gr => { gr with dnw := dnwF mu σ a, ddnw := dd })).groups
            g).available_members = (σ.groups g).available_members ∧
        ((updGroup σ2 a
          (fun gr => { gr with dnw := dnwF mu σ a, ddnw := dd })).groups
            g).now_available = (σ.groups g).now_available := by
      intro g
      by_cases hg : g = a
      · subst hg; rw [updGroup_groups_same]; exact hs g
      · rw [updGroup_groups_other _ _ _ _ hg]; exact hs g
    obtain ⟨i1, i2, i3, i4⟩ := ih _ hp' hs'
    rcases hrec : initDdnws mu rest (updGroup σ2 a
        (fun gr => { gr with dnw := dnwF mu σ a, ddnw := dd })) with ⟨σ3, q, c⟩
    rw [hrec] at i1 i2 i3 i4
    dsimp only at i1 i2 i3 i4 ⊢
    refine ⟨?_, ?_, ?_, ?_⟩
    · rw [List.filter_cons, i1]
      by_cases hcl : clamped mu σ a = true
      · have hlt : (Frac.ofInt (σ.groups a).now_available).lt (dnwF mu σ a) = true := hcl
        rw [hlt]
        simp [hcl]
      · have hcl' : clamped mu σ a = false := Bool.eq_false_iff.mpr hcl
        have hlt : (Frac.ofInt (σ.groups a).now_available).lt (dnwF mu σ a) = false := hcl'
        rw [hlt]
        simp [hcl']
    · rw [List.map_cons, List.sum_cons, i2, hddval]
    · intro g hg
      by_cases hgr : g ∈ rest
      · exact i3 g hgr
      · have hga : g = a := by
          rcases List.mem_cons.mp hg with h | h
          · exact h
          · exact absurd h hgr
        subst hga
        rw [i4 g hgr, updGroup_groups_same]
        exact hddval
    · intro g hg
      have hgr : g ∉ rest := fun hc => hg (List.mem_cons_of_mem a hc)
      have hga : g ≠ a := fun hc => hg (hc ▸ List.mem_cons_self a rest)
      rw [i4 g hgr, updGroup_groups_other _ _ _ _ hga]

/-- Increment phase of the balancing loop, success: starting at or below
the target with enough queued headroom to reach it, the loop terminates
normally and raises the tracked `ddnw` total by exactly the deficit. -/
theorem balanceF_inc_ok (N : Int) (A : List Nat) (hA : A.Nodup) :
    ∀ (fuel : Nat) (queue : List Nat) (current : Int) (σ : Pool),
      (N - current).toNat + queue.length < fuel →
      current ≤ N →
      queue.Nodup →
      (∀ g ∈ queue, g ∈ A) →
      (∀ g ∈ queue, (σ.groups g).ddnw ≤ (σ.groups g).now_available) →
      N ≤ current + (queue.map
        (fun g => (σ.groups g).now_available - (σ.groups g).ddnw)).sum →
      (balanceF N fuel queue current σ).1 = .ok () ∧
      sumDdnw (balanceF N fuel queue current σ).2 A = sumDdnw σ A + (N - current) := by
  intro fuel
  induction fuel with
  | zero => intro queue current σ hm; omega
  | succ f ih =>
    intro queue current σ hm hle hnd hsubA hbd hhead
    rw [balanceF]
    by_cases hc : current = N
    · rw [if_pos hc]
      exact ⟨rfl, by rw [hc]; ring⟩
    · rw [if_neg hc]
      have hlt : current < N := lt_of_le_of_ne hle hc
      have hqne : queue ≠ [] := by
        intro h0
        subst h0
        simp only [List.map_nil, List.sum_nil] at hhead
        omega
      rw [if_neg hqne]
      dsimp only
      rw [if_pos hlt]
      have hperm0 : (sortBy (residLe σ) queue).Perm queue := perm_sortBy _ _
      rcases hq : sortBy (residLe σ) queue with _ | ⟨g, rest⟩
      · rw [hq] at hperm0
        exact absurd hperm0.symm.eq_nil hqne
      · rw [hq] at hperm0
        dsimp only
        have hgq : g ∈ queue := hperm0.mem_iff.mp (List.mem_cons_self g rest)
        have hndq : (g :: rest).Nodup := hperm0.symm.nodup hnd
        have hlen : rest.length + 1 = queue.length := by
          have := hperm0.length_eq
          simpa using this
        by_cases hcap : (σ.groups g).now_available ≤ (σ.groups g).ddnw
        · rw [if_pos hcap]
          have hFg : (σ.groups g).now_available - (σ.groups g).ddnw = 0 := by
            have := hbd g hgq
            omega
          have hsum2 : (σ.groups g).now_available - (σ.groups g).ddnw +
              (rest.map (fun g' =>
                (σ.groups g').now_available - (σ.groups g').ddnw)).sum =
              (queue.map (fun g' =>
                (σ.groups g').now_available - (σ.groups g').ddnw)).sum := by
            have h := (hperm0.map (fun g' =>
              (σ.groups g').now_available - (σ.groups g').ddnw)).sum_eq
            rw [List.map_cons, List.sum_cons] at h
            exact h
          exact ih rest current σ (by omega) hle (List.nodup_cons.mp hndq).2
            (fun g' hg' => hsubA g' (hperm0.mem_iff.mp (List.mem_cons_of_mem g hg')))
            (fun g' hg' => hbd g' (hperm0.mem_iff.mp (List.mem_cons_of_mem g hg')))
            (by omega)
        · rw [if_neg hcap]
          have hupdsum := sum_map_upd (fun gr => gr.now_available - gr.ddnw) σ g
            (fun gr => { gr with ddnw := gr.ddnw + 1 }) (g :: rest) hndq
            (List.mem_cons_self g rest)
          dsimp only at hupdsum
          have hsum2 : ((g :: rest).map (fun g' =>
              (σ.groups g').now_available - (σ.groups g').ddnw)).sum =
              (queue.map (fun g' =>
                (σ.groups g').now_available - (σ.groups g').ddnw)).sum :=
            (hperm0.map _).sum_eq
          have hddsum := sumDdnw_upd σ g (fun gr => { gr with ddnw := gr.ddnw + 1 })
            A hA (hsubA g hgq)
          dsimp only at hddsum
          obtain ⟨r1, r2⟩ := ih (g :: rest) (current + 1)
            (updGroup σ g (fun gr => { gr with ddnw := gr.ddnw + 1 }))
            (by simp only [List.length_cons]; omega)
            (by omega) hndq
            (fun g' hg' => hsubA g' (hperm0.mem_iff.mp hg'))
            (fun g' hg' => by
              by_cases hgg : g' = g
              · subst hgg
                rw [updGroup_groups_same]
                show (σ.groups g').ddnw + 1 ≤ (σ.groups g').now_available
                omega
              · rw [updGroup_groups_other _ _ _ _ hgg]
                exact hbd g' (hperm0.mem_iff.mp hg'))
            (by rw [hupdsum]; omega)
          exact ⟨r1, by rw [r2, hddsum]; ring⟩

/-- Decrement phase of the balancing loop, success: starting at or above
the target with the queued groups' surplus covering the excess, the loop
terminates normally and lowers the tracked `ddnw` total by exactly the
excess. -/
theorem balanceF_dec_ok (N : Int) (A : List Nat) (hA : A.Nodup) :
    ∀ (fuel : Nat) (queue : List Nat) (current : Int) (σ : Pool),
      (current - N).toNat + queue.length < fuel →
      N ≤ current →
      queue.Nodup →
      (∀ g ∈ queue, g ∈ A) →
      (∀ g ∈ queue, 0 ≤ (σ.groups g).ddnw) →
      current - (queue.map (fun g => (σ.groups g).ddnw)).sum ≤ N →
      (balanceF N fuel queue current σ).1 = .ok () ∧
      sumDdnw (balanceF N fuel queue current σ).2 A = sumDdnw σ A + (N - current) := by
  intro fuel
  induction fuel with
  | zero => intro queue current σ hm; omega
  | succ f ih =>
    intro queue current σ hm hge hnd hsubA hbd htail
    rw [balanceF]
    by_cases hc : current = N
    · rw [if_pos hc]
      exact ⟨rfl, by rw [hc]; ring⟩
    · rw [if_neg hc]
      have hgt : N < current := lt_of_le_of_ne hge (fun h => hc h.symm)
      have hqne : queue ≠ [] := by
        intro h0
        subst h0
        simp only [List.map_nil, List.sum_nil] at htail
        omega
      rw [if_neg hqne]
      dsimp only
      rw [if_neg (by omega : ¬ current < N)]
      have hperm0 : (sortBy (residLe σ) queue).Perm queue := perm_sortBy _ _
      rcases hql : (sortBy (residLe σ) queue).getLast? with _ | g
      · exfalso
        rcases hs0 : sortBy (residLe σ) queue with _ | ⟨x, xs⟩
        · rw [hs0] at hperm0
          exact hqne hperm0.symm.eq_nil
        · rw [hs0, List.getLast?_eq_getLast _ (by simp)] at hql
          cases hql
      · dsimp only
        have hne : sortBy (residLe σ) queue ≠ [] := by
          intro h0
          rw [h0] at hql
          cases hql
        have hglast : (sortBy (residLe σ) queue).getLast hne = g := by
          rw [List.getLast?_eq_getLast _ hne] at hql
          cases hql
          rfl
        have hsplit : (sortBy (residLe σ) queue).dropLast ++ [g] =
            sortBy (residLe σ) queue := by
          rw [← hglast]
          exact List.dropLast_append_getLast hne
        have hndl : (sortBy (residLe σ) queue).Nodup := hperm0.symm.nodup hnd
        have hgl : g ∈ sortBy (residLe σ) queue := by
          rw [← hsplit]
          exact List.mem_append_right _ (List.mem_singleton.mpr rfl)
        have hgq : g ∈ queue := hperm0.mem_iff.mp hgl
        have hsumsplit : ((sortBy (residLe σ) queue).map
            (fun g' => (σ.groups g').ddnw)).sum =
            (((sortBy (residLe σ) queue).dropLast.map
              (fun g' => (σ.groups g').ddnw)).sum) + (σ.groups g).ddnw := by
          conv_lhs => rw [← hsplit]
          rw [List.map_append, List.sum_append]
          simp
        have hsumperm : ((sortBy (residLe σ) queue).map
            (fun g' => (σ.groups g').ddnw)).sum =
            (queue.map (fun g' => (σ.groups g').ddnw)).sum :=
          (hperm0.map _).sum_eq
        have hlen : (sortBy (residLe σ) queue).length = queue.length :=
          hperm0.length_eq
        by_cases hz : (σ.groups g).ddnw ≤ 0
        · rw [if_pos hz]
          have hFg : (σ.groups g).ddnw = 0 := le_antisymm hz (hbd g hgq)
          have hql1 : queue.length ≠ 0 := fun h0 =>
            hqne (List.eq_nil_of_length_eq_zero h0)
          have hmeas : (current - N).toNat +
              (sortBy (residLe σ) queue).dropLast.length < f := by
            rw [List.length_dropLast, hlen]
            omega
          have htail2 : current - ((sortBy (residLe σ) queue).dropLast.map
              (fun g' => (σ.groups g').ddnw)).sum ≤ N := by
            omega
          exact ih (sortBy (residLe σ) queue).dropLast current σ hmeas hge
            ((List.dropLast_sublist _).nodup hndl)
            (fun g' hg' => hsubA g'
              (hperm0.mem_iff.mp ((List.dropLast_sublist _).subset hg')))
            (fun g' hg' => hbd g'
              (hperm0.mem_iff.mp ((List.dropLast_sublist _).subset hg')))
            htail2
        · rw [if_neg hz]
          have hupdsum := sum_map_upd (fun gr => gr.ddnw) σ g
            (fun gr => { gr with ddnw := gr.ddnw - 1 }) (sortBy (residLe σ) queue)
            hndl hgl
          dsimp only at hupdsum
          have hddsum := sumDdnw_upd σ g (fun gr => { gr with ddnw := gr.ddnw - 1 })
            A hA (hsubA g hgq)
          dsimp only at hddsum
          obtain ⟨r1, r2⟩ := ih (sortBy (residLe σ) queue) (current - 1)
            (updGroup σ g (fun gr => { gr with ddnw := gr.ddnw - 1 }))
            (by omega) (by omega) hndl
            (fun g' hg' => hsubA g' (hperm0.mem_iff.mp hg'))
            (fun g' hg' => by
              by_cases hgg : g' = g
              · subst hgg
                rw [updGroup_groups_same]
                show (0 : Int) ≤ (σ.groups g').ddnw - 1
                omega
              · rw [updGroup_groups_other _ _ _ _ hgg]
                exact hbd g' (hperm0.mem_iff.mp hg'))
            (by rw [hupdsum]; omega)
          exact ⟨r1, by rw [r2, hddsum]; ring⟩

/-- Increment phase, failure: when even the total queued headroom cannot
reach the target, the queue drains and the loop raises
`RanOutOfGroupError`. -/
theorem balanceF_inc_err (N : Int) :
    ∀ (fuel : Nat) (queue : List Nat) (current : Int) (σ : Pool),
      (N - current).toNat + queue.length < fuel →
      queue.Nodup →
      (∀ g ∈ queue, (σ.groups g).ddnw ≤ (σ.groups g).now_available) →
      current + (queue.map
        (fun g => (σ.groups g).now_available - (σ.groups g).ddnw)).sum < N →
      (balanceF N fuel queue current σ).1 = .error .ranOutOfGroup := by
  intro fuel
  induction fuel with
  | zero => intro queue current σ hm; omega
  | succ f ih =>
    intro queue current σ hm hnd hbd hhead
    have hsumpos : 0 ≤ (queue.map
        (fun g => (σ.groups g).now_available - (σ.groups g).ddnw)).sum := by
      refine List.sum_nonneg ?_
      intro x hx
      obtain ⟨g, hg, rfl⟩ := List.mem_map.mp hx
      have := hbd g hg
      omega
    have hlt : current < N := by omega
    rw [balanceF]
    rw [if_neg (by omega : ¬ current = N)]
    by_cases hq0 : queue = []
    · subst hq0
      rw [if_pos rfl]
    · rw [if_neg hq0]
      dsimp only
      rw [if_pos hlt]
      have hperm0 : (sortBy (residLe σ) queue).Perm queue := perm_sortBy _ _
      rcases hq : sortBy (residLe σ) queue with _ | ⟨g, rest⟩
      · rfl
      · rw [hq] at hperm0
        dsimp only
        have hgq : g ∈ queue := hperm0.mem_iff.mp (List.mem_cons_self g rest)
        have hndq : (g :: rest).Nodup := hperm0.symm.nodup hnd
        have hlen : rest.length + 1 = queue.length := by
          have := hperm0.length_eq
          simpa using this
        have hsum2 : (σ.groups g).now_available - (σ.groups g).ddnw +
            (rest.map (fun g' =>
              (σ.groups g').now_available - (σ.groups g').ddnw)).sum =
            (queue.map (fun g' =>
              (σ.groups g').now_available - (σ.groups g').ddnw)).sum := by
          have h := (hperm0.map (fun g' =>
            (σ.groups g').now_available - (σ.groups g').ddnw)).sum_eq
          rw [List.map_cons, List.sum_cons] at h
          exact h
        by_cases hcap : (σ.groups g).now_available ≤ (σ.groups g).ddnw
        · rw [if_pos hcap]
          have hFg : (σ.groups g).now_available - (σ.groups g).ddnw = 0 := by
            have := hbd g hgq
            omega
          exact ih rest current σ (by omega) (List.nodup_cons.mp hndq).2
            (fun g' hg' => hbd g' (hperm0.mem_iff.mp (List.mem_cons_of_mem g hg')))
            (by omega)
        · rw [if_neg hcap]
          have hupdsum := sum_map_upd (fun gr => gr.now_available - gr.ddnw) σ g
            (fun gr => { gr with ddnw := gr.ddnw + 1 }) (g :: rest) hndq
            (List.mem_cons_self g rest)
          dsimp only at hupdsum
          have hsum3 : ((g :: rest).map (fun g' =>
              (σ.groups g').now_available - (σ.groups g').ddnw)).sum =
              (queue.map (fun g' =>
                (σ.groups g').now_available - (σ.groups g').ddnw)).sum :=
            (hperm0.map _).sum_eq
          exact ih (g :: rest) (current + 1)
            (updGroup σ g (fun gr => { gr with ddnw := gr.ddnw + 1 }))
            (by simp only [List.length_cons]; omega) hndq
            (fun g' hg' => by
              by_cases hgg : g' = g
              · subst hgg
                rw [updGroup_groups_same]
                show (σ.groups g').ddnw + 1 ≤ (σ.groups g').now_available
                omega
              · rw [updGroup_groups_other _ _ _ _ hgg]
                exact hbd g' (hperm0.mem_iff.mp hg'))
            (by rw [hupdsum]; omega)

/-- Decrement phase, failure: when the target lies below what remains
after all queued `ddnw` is removed, the queue drains and the loop raises
`RanOutOfGroupError`. -/
theorem balanceF_dec_err (N : Int) :
    ∀ (fuel : Nat) (queue : List Nat) (current : Int) (σ : Pool),
      (current - N).toNat + queue.length < fuel →
      queue.Nodup →
      (∀ g ∈ queue, 0 ≤ (σ.groups g).ddnw) →
      N < current - (queue.map (fun g => (σ.groups g).ddnw)).sum →
      (balanceF N fuel queue current σ).1 = .error .ranOutOfGroup := by
  intro fuel
  induction fuel with
  | zero => intro queue current σ hm; omega
  | succ f ih =>
    intro queue current σ hm hnd hbd htail
    have hsumpos : 0 ≤ (queue.map (fun g => (σ.groups g).ddnw)).sum := by
      refine List.sum_nonneg ?_
      intro x hx
      obtain ⟨g, hg, rfl⟩ := List.mem_map.mp hx
      exact hbd g hg
    have hgt : N < current := by omega
    rw [balanceF]
    rw [if_neg (by omega : ¬ current = N)]
    by_cases hq0 : queue = []
    · subst hq0
      rw [if_pos rfl]
    · rw [if_neg hq0]
      dsimp only
      rw [if_neg (by omega : ¬ current < N)]
      have hperm0 : (sortBy (residLe σ) queue).Perm queue := perm_sortBy _ _
      rcases hql : (sortBy (residLe σ) queue).getLast? with _ | g
      · exfalso
        rcases hs0 : sortBy (residLe σ) queue with _ | ⟨x, xs⟩
        · rw [hs0] at hperm0
          exact hq0 hperm0.symm.eq_nil
        · rw [hs0, List.getLast?_eq_getLast _ (by simp)] at hql
          cases hql
      · dsimp only
        have hne : sortBy (residLe σ) queue ≠ [] := by
          intro h0
          rw [h0] at hql
          cases hql
        have hglast : (sortBy (residLe σ) queue).getLast hne = g := by
          rw [List.getLast?_eq_getLast _ hne] at hql
          cases hql
          rfl
        have hsplit : (sortBy (residLe σ) queue).dropLast ++ [g] =
            sortBy (residLe σ) queue := by
          rw [← hglast]
          exact List.dropLast_append_getLast hne
        have hndl : (sortBy (residLe σ) queue).Nodup := hperm0.symm.nodup hnd
        have hgl : g ∈ sortBy (residLe σ) queue := by
          rw [← hsplit]
          exact List.mem_append_right _ (List.mem_singleton.mpr rfl)
        have hgq : g ∈ queue := hperm0.mem_iff.mp hgl
        have hsumsplit : ((sortBy (residLe σ) queue).map
            (fun g' => (σ.groups g').ddnw)).sum =
            (((sortBy (residLe σ) queue).dropLast.map
              (fun g' => (σ.groups g').ddnw)).sum) + (σ.groups g).ddnw := by
          conv_lhs => rw [← hsplit]
          rw [List.map_append, List.sum_append]
          simp
        have hsumperm : ((sortBy (residLe σ) queue).map
            (fun g' => (σ.groups g').ddnw)).sum =
            (queue.map (fun g' => (σ.groups g').ddnw)).sum :=
          (hperm0.map _).sum_eq
        have hlen : (sortBy (residLe σ) queue).length = queue.length :=
          hperm0.length_eq
        have hql1 : queue.length ≠ 0 := fun h0 =>
          hq0 (List.eq_nil_of_length_eq_zero h0)
        by_cases hz : (σ.groups g).ddnw ≤ 0
        · rw [if_pos hz]
          have hFg : (σ.groups g).ddnw = 0 := le_antisymm hz (hbd g hgq)
          have hmeas : (current - N).toNat +
              (sortBy (residLe σ) queue).dropLast.length < f := by
            rw [List.length_dropLast, hlen]
            omega
          have htail2 : N < current - ((sortBy (residLe σ) queue).dropLast.map
              (fun g' => (σ.groups g').ddnw)).sum := by
            omega
          exact ih (sortBy (residLe σ) queue).dropLast current σ hmeas
            ((List.dropLast_sublist _).nodup hndl)
            (fun g' hg' => hbd g'
              (hperm0.mem_iff.mp ((List.dropLast_sublist _).subset hg')))
            htail2
        · rw [if_neg hz]
          have hupdsum := sum_map_upd (fun gr => gr.ddnw) σ g
            (fun gr => { gr with ddnw := gr.ddnw - 1 }) (sortBy (residLe σ) queue)
            hndl hgl
          dsimp only at hupdsum
          exact ih (sortBy (residLe σ) queue) (current - 1)
            (updGroup σ g (fun gr => { gr with ddnw := gr.ddnw - 1 }))
            (by omega) hndl
            (fun g' hg' => by
              by_cases hgg : g' = g
              · subst hgg
                rw [updGroup_groups_same]
                show (0 : Int) ≤ (σ.groups g').ddnw - 1
                omega
              · rw [updGroup_groups_other _ _ _ _ hgg]
                exact hbd g' (hperm0.mem_iff.mp hg'))
            (by rw [hupdsum]; omega)

theorem sum_map_sub (F G : Nat → Int) : ∀ l : List Nat,
    (l.map (fun g => F g - G g)).sum = (l.map F).sum - (l.map G).sum := by
  intro l
  induction l with
  | nil => rfl
  | cons a rest ih =>
    rw [List.map_cons, List.sum_cons, List.map_cons, List.sum_cons,
      List.map_cons, List.sum_cons, ih]
    ring

/-! ## Frame lemmas: `gap_size`, `excludeGroups`, `decrease` -/

theorem initDdnws_gap (mu : Frac) :
    ∀ l (σ : Pool), (initDdnws mu l σ).1.gap_size = σ.gap_size := by
  intro l
  induction l with
  | nil => intro σ; rw [initDdnws]
  | cons g rest ih =>
    intro σ
    rw [initDdnws]
    simp only []
    rw [ih]
    rfl

theorem balanceF_gap (nwn : Int) :
    ∀ fuel queue (current : Int) (σ : Pool),
      (balanceF nwn fuel queue current σ).2.gap_size = σ.gap_size := by
  intro fuel
  induction fuel with
  | zero => intro queue current σ; rw [balanceF]
  | succ f ih =>
    intro queue current σ
    rw [balanceF]
    by_cases hc : current = nwn
    · simp [hc]
    · simp only [if_neg hc]
      by_cases hq : queue = []
      · simp [hq]
      · simp only [if_neg hq]
        by_cases hlt : current < nwn
        · simp only [if_pos hlt]
          match sortBy (residLe σ) queue with
          | [] => rfl
          | g :: rest =>
            by_cases hcap : (σ.groups g).now_available ≤ (σ.groups g).ddnw
            · simp only [if_pos hcap]; exact ih _ _ _
            · simp only [if_neg hcap]; rw [ih]; rfl
        · simp only [if_neg hlt]
          match (sortBy (residLe σ) queue).getLast? with
          | none => rfl
          | some g =>
            by_cases hz : (σ.groups g).ddnw ≤ 0
            · simp only [if_pos hz]; exact ih _ _ _
            · simp only [if_neg hz]; rw [ih]; rfl

theorem set_ddnws_gap (n : Int) (σ : Pool) :
    (set_ddnws n σ).2.gap_size = σ.gap_size := by
  rw [set_ddnws]
  cases hmu : get_muprime n σ with
  | error e => rfl
  | ok mu =>
    simp only []
    rw [balance, balanceF_gap, initDdnws_gap]

theorem phase1_gap (d n : Int) (qu tq : List Nat) (vc : Int) (σ : Pool) :
    (phase1 d n qu tq vc σ).gap_size = σ.gap_size :=
  (phase1_state d n qu tq vc σ).2.2.2

theorem phase2_gap (d gap n : Int) (qu acc : List Nat) (σ : Pool) :
    (phase2 d gap n qu acc σ).2.gap_size = σ.gap_size :=
  (phase2_state d gap n qu acc σ).2.2.2

theorem group_take_gap (a : Option Int) (d : Int) (g : Nat) (σ : Pool) :
    (group_take a d g σ).2.gap_size = σ.gap_size := by
  cases a with
  | none =>
    by_cases hn : 0 < (σ.groups g).ddnw
    · rw [group_take_none_unfold d g σ hn, phase2_gap, phase1_gap]
      rfl
    · rw [group_take_none_zero d g σ (by omega)]
  | some v =>
    by_cases hn : 0 < v
    · rw [group_take_some_unfold v d g σ hn, phase2_gap, phase1_gap]
      rfl
    · rw [group_take_some_zero v d g σ (by omega)]
      rfl

theorem takeAll_gap (d : Int) :
    ∀ gl acc (σ : Pool), (takeAll d gl acc σ).2.gap_size = σ.gap_size := by
  intro gl
  induction gl with
  | nil => intro acc σ; rw [takeAll]
  | cons g rest ih =>
    intro acc σ
    rw [takeAll_cons]
    rcases hgt : group_take none d g σ with ⟨res, σ'⟩
    have hg : σ'.gap_size = σ.gap_size := by
      have h := group_take_gap none d g σ
      rw [hgt] at h
      exact h
    cases res with
    | error e => exact hg
    | ok l =>
      dsimp only
      rw [ih, hg]

theorem excludeGroups_groups (gs : List Nat) :
    ∀ (σ : Pool), (excludeGroups gs σ).groups = σ.groups := by
  induction gs with
  | nil => intro σ; rfl
  | cons g rest ih => intro σ; rw [excludeGroups_cons, ih]

theorem excludeGroups_numGroups (gs : List Nat) :
    ∀ (σ : Pool), (excludeGroups gs σ).numGroups = σ.numGroups := by
  induction gs with
  | nil => intro σ; rfl
  | cons g rest ih => intro σ; rw [excludeGroups_cons, ih]

theorem excludeGroups_gap (gs : List Nat) :
    ∀ (σ : Pool), (excludeGroups gs σ).gap_size = σ.gap_size := by
  induction gs with
  | nil => intro σ; rfl
  | cons g rest ih => intro σ; rw [excludeGroups_cons, ih]

theorem excludeGroups_avail_sub (gs : List Nat) :
    ∀ (σ : Pool) (g : Nat), g ∈ (excludeGroups gs σ).available_laborforces →
      g ∈ σ.available_laborforces := by
  induction gs with
  | nil => intro σ g hg; exact hg
  | cons a rest ih =>
    intro σ g hg
    rw [excludeGroups_cons] at hg
    exact List.mem_of_mem_erase (ih _ g hg)

theorem decrease_groups_lists (ms : List Nat) :
    ∀ (σ : Pool) (g : Nat),
      ((decrease ms σ).groups g).members = (σ.groups g).members ∧
      ((decrease ms σ).groups g).available_members = (σ.groups g).available_members := by
  induction ms with
  | nil => intro σ g; exact ⟨rfl, rfl⟩
  | cons m rest ih =>
    intro σ g
    rw [decrease_cons]
    obtain ⟨h1, h2⟩ := ih _ g
    refine ⟨h1.trans ?_, h2.trans ?_⟩
    all_goals
      by_cases hg : g = (σ.persons m).gid
      · subst hg; rw [updGroup_groups_same]
      · rw [updGroup_groups_other _ _ _ _ hg]

theorem decrease_numGroups (ms : List Nat) :
    ∀ (σ : Pool), (decrease ms σ).numGroups = σ.numGroups := by
  induction ms with
  | nil => intro σ; rfl
  | cons m rest ih => intro σ; rw [decrease_cons, ih]; rfl

theorem decrease_avail_laborforces (ms : List Nat) :
    ∀ (σ : Pool), (decrease ms σ).available_laborforces = σ.available_laborforces := by
  induction ms with
  | nil => intro σ; rfl
  | cons m rest ih => intro σ; rw [decrease_cons, ih]; rfl

/-! ## Person records only evolve (dayoffs grow, identity fixed) -/

theorem group_take_evolves (a : Option Int) (d : Int) (g : Nat) (σ : Pool) (p : Nat) :
    (σ.persons p).evolves ((group_take a d g σ).2.persons p) := by
  cases a with
  | none =>
    by_cases hn : 0 < (σ.groups g).ddnw
    · rw [group_take_none_unfold d g σ hn]
      refine evolves_trans ?_ (phase2_evolves _ _ _ _ _ _ p)
      exact (phase1_eqCR d _ _ _ 0 _ p).evolves
    · rw [group_take_none_zero d g σ (by omega)]
      exact evolves_refl _
  | some v =>
    by_cases hn : 0 < v
    · rw [group_take_some_unfold v d g σ hn]
      refine evolves_trans ?_ (phase2_evolves _ _ _ _ _ _ p)
      exact (phase1_eqCR d _ _ _ 0 _ p).evolves
    · rw [group_take_some_zero v d g σ (by omega)]
      exact evolves_refl _

theorem takeAll_evolves (d : Int) (p : Nat) :
    ∀ gl acc (σ : Pool), (σ.persons p).evolves ((takeAll d gl acc σ).2.persons p) := by
  intro gl
  induction gl with
  | nil => intro acc σ; rw [takeAll]; exact evolves_refl _
  | cons g rest ih =>
    intro acc σ
    rw [takeAll_cons]
    rcases hgt : group_take none d g σ with ⟨res, σ'⟩
    have h1 : (σ.persons p).evolves (σ'.persons p) := by
      have h := group_take_evolves none d g σ p
      rw [hgt] at h
      exact h
    cases res with
    | error e => exact h1
    | ok l => exact evolves_trans h1 (ih _ _)

theorem pool_take_core_evolves (nwn d : Int) (σ1 : Pool) (p : Nat) :
    (σ1.persons p).evolves ((pool_take_core nwn d σ1).2.persons p) := by
  unfold pool_take_core
  dsimp only
  rcases hsd : set_ddnws nwn (exclude (vacantPersons
      (exclude (dayoffPersons σ1 d) [] σ1) d) []
      (exclude (dayoffPersons σ1 d) [] σ1)) with ⟨res, σ4⟩
  have hp4 : σ4.persons = σ1.persons := by
    have h := set_ddnws_persons nwn (exclude (vacantPersons
      (exclude (dayoffPersons σ1 d) [] σ1) d) []
      (exclude (dayoffPersons σ1 d) [] σ1))
    rw [hsd] at h
    rw [h, exclude_persons, exclude_persons]
  cases res with
  | error e =>
    dsimp only
    rw [hp4]
    exact evolves_refl _
  | ok u =>
    dsimp only
    rcases hta : takeAll d σ4.available_laborforces [] σ4 with ⟨res2, σ5⟩
    have h5 : (σ4.persons p).evolves (σ5.persons p) := by
      have h := takeAll_evolves d p σ4.available_laborforces [] σ4
      rw [hta] at h
      exact h
    rw [hp4] at h5
    cases res2 with
    | error e => exact h5
    | ok acc =>
      dsimp only
      show (σ1.persons p).evolves ((reset σ5).persons p)
      rw [reset_persons]
      exact h5

theorem pool_take_evolves (nwn d : Int) (gs : Option (List Nat)) (σ : Pool) (p : Nat) :
    (σ.persons p).evolves ((pool_take nwn d gs σ).2.persons p) := by
  by_cases hn : nwn ≤ 0
  · rw [pool_take_nonpos nwn d gs σ hn]
    exact evolves_refl _
  · cases gs with
    | none =>
      rw [pool_take_pos_none nwn d σ hn]
      exact pool_take_core_evolves nwn d σ p
    | some l =>
      by_cases hl : l.isEmpty = true
      · rw [pool_take_pos_some_empty nwn d l σ hn hl]
        exact pool_take_core_evolves nwn d σ p
      · rw [pool_take_pos_some nwn d l σ hn hl]
        exact pool_take_core_evolves nwn d { σ with available_laborforces := l } p

theorem applyOp_evolves (σ : Pool) (op : Op) (p : Nat) :
    (σ.persons p).evolves ((applyOp σ op).persons p) := by
  cases op with
  | take nwn d gs => exact pool_take_evolves nwn d gs σ p
  | exclude ms gs =>
    show (σ.persons p).evolves ((exclude ms gs σ).persons p)
    rw [exclude_persons]
    exact evolves_refl _
  | decrease ms =>
    show (σ.persons p).evolves ((decrease ms σ).persons p)
    rw [decrease_persons]
    exact evolves_refl _
  | reset =>
    show (σ.persons p).evolves ((reset σ).persons p)
    rw [reset_persons]
    exact evolves_refl _
  | setDdnws n =>
    show (σ.persons p).evolves ((set_ddnws n σ).2.persons p)
    rw [set_ddnws_persons]
    exact evolves_refl _
  | groupTake a d g => exact group_take_evolves a d g σ p

theorem applyOps_evolves (p : Nat) :
    ∀ (ops : List Op) (σ : Pool),
      (σ.persons p).evolves ((applyOps σ ops).persons p) := by
  intro ops
  induction ops with
  | nil => intro σ; exact evolves_refl _
  | cons op rest ih =>
    intro σ
    exact evolves_trans (applyOp_evolves σ op p) (ih (applyOp σ op))

/-! ## The number of groups never changes -/

theorem group_take_numGroups (a : Option Int) (d : Int) (g : Nat) (σ : Pool) :
    (group_take a d g σ).2.numGroups = σ.numGroups := by
  cases a with
  | none =>
    by_cases hn : 0 < (σ.groups g).ddnw
    · rw [group_take_none_unfold d g σ hn, (phase2_state _ _ _ _ _ _).2.1,
        (phase1_state _ _ _ _ _ _).2.1]
      rfl
    · rw [group_take_none_zero d g σ (by omega)]
  | some v =>
    by_cases hn : 0 < v
    · rw [group_take_some_unfold v d g σ hn, (phase2_state _ _ _ _ _ _).2.1,
        (phase1_state _ _ _ _ _ _).2.1]
      rfl
    · rw [group_take_some_zero v d g σ (by omega)]
      rfl

theorem takeAll_numGroups (d : Int) :
    ∀ gl acc (σ : Pool), (takeAll d gl acc σ).2.numGroups = σ.numGroups := by
  intro gl
  induction gl with
  | nil => intro acc σ; rw [takeAll]
  | cons g rest ih =>
    intro acc σ
    rw [takeAll_cons]
    rcases hgt : group_take none d g σ with ⟨res, σ'⟩
    have hg : σ'.numGroups = σ.numGroups := by
      have h := group_take_numGroups none d g σ
      rw [hgt] at h
      exact h
    cases res with
    | error e => exact hg
    | ok l =>
      dsimp only
      rw [ih, hg]

theorem set_ddnws_numGroups (n : Int) (σ : Pool) :
    (set_ddnws n σ).2.numGroups = σ.numGroups :=
  (set_ddnws_group_lists n σ 0).2.2.2.2

theorem pool_take_core_numGroups (nwn d : Int) (σ1 : Pool) :
    (pool_take_core nwn d σ1).2.numGroups = σ1.numGroups := by
  unfold pool_take_core
  dsimp only
  rcases hsd : set_ddnws nwn (exclude (vacantPersons
      (exclude (dayoffPersons σ1 d) [] σ1) d) []
      (exclude (dayoffPersons σ1 d) [] σ1)) with ⟨res, σ4⟩
  have hn4 : σ4.numGroups = σ1.numGroups := by
    have h := set_ddnws_numGroups nwn (exclude (vacantPersons
      (exclude (dayoffPersons σ1 d) [] σ1) d) []
      (exclude (dayoffPersons σ1 d) [] σ1))
    rw [hsd] at h
    rw [h, exclude_ms_only, exclude_ms_only, excludeMembers_numGroups,
      excludeMembers_numGroups]
  cases res with
  | error e => exact hn4
  | ok u =>
    dsimp only
    rcases hta : takeAll d σ4.available_laborforces [] σ4 with ⟨res2, σ5⟩
    have hn5 : σ5.numGroups = σ4.numGroups := by
      have h := takeAll_numGroups d σ4.available_laborforces [] σ4
      rw [hta] at h
      exact h
    cases res2 with
    | error e => exact hn5.trans hn4
    | ok acc =>
      dsimp only
      show (reset σ5).numGroups = σ1.numGroups
      show σ5.numGroups = σ1.numGroups
      exact hn5.trans hn4

theorem pool_take_numGroups (nwn d : Int) (gs : Option (List Nat)) (σ : Pool) :
    (pool_take nwn d gs σ).2.numGroups = σ.numGroups := by
  by_cases hn : nwn ≤ 0
  · rw [pool_take_nonpos nwn d gs σ hn]
  · cases gs with
    | none =>
      rw [pool_take_pos_none nwn d σ hn]
      exact pool_take_core_numGroups nwn d σ
    | some l =>
      by_cases hl : l.isEmpty = true
      · rw [pool_take_pos_some_empty nwn d l σ hn hl]
        exact pool_take_core_numGroups nwn d σ
      · rw [pool_take_pos_some nwn d l σ hn hl]
        exact pool_take_core_numGroups nwn d { σ with available_laborforces := l }

theorem applyOp_numGroups (σ : Pool) (op : Op) :
    (applyOp σ op).numGroups = σ.numGroups := by
  cases op with
  | take nwn d gs => exact pool_take_numGroups nwn d gs σ
  | exclude ms gs =>
    show (exclude ms gs σ).numGroups = σ.numGroups
    rw [exclude, excludeGroups_numGroups, excludeMembers_numGroups]
  | decrease ms => exact decrease_numGroups ms σ
  | reset => rfl
  | setDdnws n => exact set_ddnws_numGroups n σ
  | groupTake a d g => exact group_take_numGroups a d g σ

theorem applyOps_numGroups : ∀ (ops : List Op) (σ : Pool),
    (applyOps σ ops).numGroups = σ.numGroups := by
  intro ops
  induction ops with
  | nil => intro σ; rfl
  | cons op rest ih =>
    intro σ
    exact (ih (applyOp σ op)).trans (applyOp_numGroups σ op)

/-! ## Well-formedness is preserved by every engine operation -/

theorem WF_updGroup_perm (σ : Pool) (g : Nat) (f : Group → Group)
    (hm : ((f (σ.groups g)).members).Perm ((σ.groups g).members))
    (ha : ((f (σ.groups g)).available_members).Perm ((σ.groups g).available_members))
    (h : WF σ) : WF (updGroup σ g f) := by
  obtain ⟨h1, h2⟩ := h
  constructor
  · intro g' hg'
    obtain ⟨b1, b2, b3, b4, b5⟩ := h1 g' hg'
    by_cases hgg : g' = g
    · subst hgg
      rw [updGroup_groups_same]
      refine ⟨?_, hm.symm.nodup b2, ha.symm.nodup b3, ?_, ?_⟩
      · intro q hq
        exact b1 q (hm.mem_iff.mp hq)
      · intro q hq
        exact hm.mem_iff.mpr (b4 q (ha.mem_iff.mp hq))
      · intro q hq
        exact b5 q (hm.mem_iff.mp hq)
    · rw [updGroup_groups_other _ _ _ _ hgg]
      exact ⟨b1, b2, b3, b4, b5⟩
  · exact h2

theorem WF_updGroup_availSub (σ : Pool) (g : Nat) (f : Group → Group)
    (hm : (f (σ.groups g)).members = (σ.groups g).members)
    (ha : ((f (σ.groups g)).available_members).Sublist ((σ.groups g).available_members))
    (h : WF σ) : WF (updGroup σ g f) := by
  obtain ⟨h1, h2⟩ := h
  constructor
  · intro g' hg'
    obtain ⟨b1, b2, b3, b4, b5⟩ := h1 g' hg'
    by_cases hgg : g' = g
    · subst hgg
      rw [updGroup_groups_same, hm]
      refine ⟨b1, b2, ha.nodup b3, ?_, b5⟩
      intro q hq
      exact b4 q (ha.subset hq)
    · rw [updGroup_groups_other _ _ _ _ hgg]
      exact ⟨b1, b2, b3, b4, b5⟩
  · exact h2

theorem WF_excludeMembers (ms : List Nat) : ∀ (σ : Pool), WF σ →
    WF (excludeMembers ms σ) := by
  induction ms with
  | nil => intro σ h; exact h
  | cons m rest ih =>
    intro σ h
    rw [excludeMembers_cons]
    exact ih _ (WF_updGroup_availSub σ _ _ rfl (List.erase_sublist _ _) h)

theorem WF_excludeGroups (gs : List Nat) : ∀ (σ : Pool), WF σ →
    WF (excludeGroups gs σ) := by
  induction gs with
  | nil => intro σ h; exact h
  | cons g rest ih =>
    intro σ h
    rw [excludeGroups_cons]
    refine ih _ ⟨h.1, ?_⟩
    intro g' hg'
    exact h.2 g' (List.mem_of_mem_erase hg')

theorem WF_decrease (ms : List Nat) : ∀ (σ : Pool), WF σ → WF (decrease ms σ) := by
  induction ms with
  | nil => intro σ h; exact h
  | cons m rest ih =>
    intro σ h
    rw [decrease_cons]
    exact ih _ (WF_updGroup_perm σ _ _ (List.Perm.refl _) (List.Perm.refl _) h)

theorem WF_reset (σ : Pool) (h : WF σ) : WF (reset σ) := by
  obtain ⟨h1, h2⟩ := h
  constructor
  · intro g hg
    obtain ⟨b1, b2, b3, b4, b5⟩ := h1 g hg
    exact ⟨b1, b2, b2, fun q hq => hq, b5⟩
  · intro g hg
    exact hg

theorem WF_congr {σ' σ : Pool}
    (hp : σ'.persons = σ.persons)
    (hng : σ'.numGroups = σ.numGroups)
    (hav : σ'.available_laborforces = σ.available_laborforces)
    (hgm : ∀ g, (σ'.groups g).members = (σ.groups g).members)
    (hga : ∀ g, (σ'.groups g).available_members = (σ.groups g).available_members)
    (h : WF σ) : WF σ' := by
  obtain ⟨h1, h2⟩ := h
  constructor
  · intro g hg
    rw [hng] at hg
    obtain ⟨b1, b2, b3, b4, b5⟩ := h1 g hg
    rw [hp, hgm, hga]
    exact ⟨b1, b2, b3, b4, b5⟩
  · intro g hg
    rw [hng]
    rw [hav] at hg
    exact h2 g hg

theorem WF_set_ddnws (n : Int) (σ : Pool) (h : WF σ) : WF (set_ddnws n σ).2 :=
  WF_congr (set_ddnws_persons n σ) (set_ddnws_numGroups n σ)
    ((set_ddnws_group_lists n σ 0).2.2.2.1)
    (fun g => (set_ddnws_group_lists n σ g).2.1)
    (fun g => (set_ddnws_group_lists n σ g).1) h

theorem WF_eqCR {σ' σ : Pool}
    (hp : ∀ q, (σ.persons q).eqCR (σ'.persons q))
    (hg : σ'.groups = σ.groups)
    (hng : σ'.numGroups = σ.numGroups)
    (hav : σ'.available_laborforces = σ.available_laborforces)
    (h : WF σ) : WF σ' := by
  obtain ⟨h1, h2⟩ := h
  constructor
  · intro g hgm
    rw [hng] at hgm
    obtain ⟨b1, b2, b3, b4, b5⟩ := h1 g hgm
    rw [hg]
    refine ⟨?_, b2, b3, b4, ?_⟩
    · intro q hq
      rw [(hp q).2.1]
      exact b1 q hq
    · intro q hq
      rw [(hp q).2.2.2.2.2.1, (hp q).2.2.2.2.2.2]
      exact b5 q hq
  · intro g hgm
    rw [hng]
    rw [hav] at hgm
    exact h2 g hgm

theorem WF_phase1 (d n : Int) (qu tq : List Nat) (vc : Int) (σ : Pool) (h : WF σ) :
    WF (phase1 d n qu tq vc σ) :=
  WF_eqCR (fun q => phase1_eqCR d n qu tq vc σ q)
    (phase1_state d n qu tq vc σ).1
    (phase1_state d n qu tq vc σ).2.1
    (phase1_state d n qu tq vc σ).2.2.1 h

theorem WF_updPerson_realMut (σ : Pool) (x : Nat) (d gap : Int) (h : WF σ) :
    WF (updPerson σ x (realMut d gap x)) := by
  obtain ⟨h1, h2⟩ := h
  constructor
  · intro g hg
    obtain ⟨b1, b2, b3, b4, b5⟩ := h1 g hg
    refine ⟨?_, b2, b3, b4, ?_⟩
    · intro q hq
      by_cases hqx : q = x
      · subst hqx
        rw [updPerson_persons_same]
        exact b1 q hq
      · rw [updPerson_persons_other _ _ _ _ hqx]
        exact b1 q hq
    · intro q hq
      by_cases hqx : q = x
      · subst hqx
        rw [updPerson_persons_same]
        obtain ⟨o1, o2⟩ := b5 q hq
        constructor
        · intro iv hiv
          rcases List.mem_append.mp hiv with h' | h'
          · exact o1 iv h'
          · rw [List.mem_singleton.mp h']
            rfl
        · exact o2
      · rw [updPerson_persons_other _ _ _ _ hqx]
        exact b5 q hq
  · exact h2

theorem WF_phase2 (d gap n : Int) :
    ∀ qu acc (σ : Pool), WF σ → WF (phase2 d gap n qu acc σ).2 := by
  intro qu
  induction qu with
  | nil => intro acc σ h; rw [phase2]; exact h
  | cons x rest ih =>
    intro acc σ h
    rw [phase2]
    by_cases hstop : n ≤ ((acc ++ [x]).length : Int)
    · rw [if_pos hstop]
      exact WF_updPerson_realMut σ x d gap h
    · rw [if_neg hstop]
      exact ih _ _ (WF_updPerson_realMut σ x d gap h)

theorem WF_group_take (a : Option Int) (d : Int) (g : Nat) (σ : Pool) (h : WF σ) :
    WF (group_take a d g σ).2 := by
  cases a with
  | none =>
    by_cases hn : 0 < (σ.groups g).ddnw
    · rw [group_take_none_unfold d g σ hn]
      refine WF_phase2 _ _ _ _ _ _ (WF_phase1 _ _ _ _ _ _ ?_)
      refine WF_updGroup_perm _ _ _ (List.Perm.refl _) ?_
        (WF_updGroup_perm _ _ _ (perm_sortBy _ _) (List.Perm.refl _) h)
      rw [updGroup_groups_same]
      exact perm_sortBy _ _
    · rw [group_take_none_zero d g σ (by omega)]
      exact h
  | some v =>
    by_cases hn : 0 < v
    · rw [group_take_some_unfold v d g σ hn]
      refine WF_phase2 _ _ _ _ _ _ (WF_phase1 _ _ _ _ _ _ ?_)
      refine WF_updGroup_perm _ _ _ (List.Perm.refl _) ?_
        (?_ : WF _)
      · rw [updGroup_groups_same, updGroup_groups_same]
        exact perm_sortBy _ _
      · refine WF_updGroup_perm _ _ _ ?_ (List.Perm.refl _)
          (WF_updGroup_perm _ _ _ (List.Perm.refl _) (List.Perm.refl _) h)
        rw [updGroup_groups_same]
        exact perm_sortBy _ _
    · rw [group_take_some_zero v d g σ (by omega)]
      exact WF_updGroup_perm _ _ _ (List.Perm.refl _) (List.Perm.refl _) h

theorem WF_takeAll (d : Int) :
    ∀ gl acc (σ : Pool), WF σ → WF (takeAll d gl acc σ).2 := by
  intro gl
  induction gl with
  | nil => intro acc σ h; rw [takeAll]; exact h
  | cons g rest ih =>
    intro acc σ h
    rw [takeAll_cons]
    rcases hgt : group_take none d g σ with ⟨res, σ'⟩
    have h' : WF σ' := by
      have hw := WF_group_take none d g σ h
      rw [hgt] at hw
      exact hw
    cases res with
    | error e => exact h'
    | ok l => exact ih _ _ h'

theorem WF_pool_take_core (nwn d : Int) (σ1 : Pool) (h : WF σ1) :
    WF (pool_take_core nwn d σ1).2 := by
  unfold pool_take_core
  dsimp only
  rw [exclude_ms_only, exclude_ms_only]
  rcases hsd : set_ddnws nwn (excludeMembers
      (vacantPersons (excludeMembers (dayoffPersons σ1 d) σ1) d)
      (excludeMembers (dayoffPersons σ1 d) σ1)) with ⟨res, σ4⟩
  have h4 : WF σ4 := by
    have hw := WF_set_ddnws nwn (excludeMembers
      (vacantPersons (excludeMembers (dayoffPersons σ1 d) σ1) d)
      (excludeMembers (dayoffPersons σ1 d) σ1))
      (WF_excludeMembers _ _ (WF_excludeMembers _ _ h))
    rw [hsd] at hw
    exact hw
  cases res with
  | error e => exact h4
  | ok u =>
    dsimp only
    rcases hta : takeAll d σ4.available_laborforces [] σ4 with ⟨res2, σ5⟩
    have h5 : WF σ5 := by
      have hw := WF_takeAll d σ4.available_laborforces [] σ4 h4
      rw [hta] at hw
      exact hw
    cases res2 with
    | error e => exact h5
    | ok acc =>
      dsimp only
      exact WF_reset σ5 h5

theorem WF_pool_take (nwn d : Int) (gs : Option (List Nat)) (σ : Pool)
    (h : WF σ) (hgs : ∀ l, gs = some l → ∀ g ∈ l, g < σ.numGroups) :
    WF (pool_take nwn d gs σ).2 := by
  by_cases hn : nwn ≤ 0
  · rw [pool_take_nonpos nwn d gs σ hn]
    exact h
  · cases gs with
    | none =>
      rw [pool_take_pos_none nwn d σ hn]
      exact WF_pool_take_core nwn d σ h
    | some l =>
      by_cases hl : l.isEmpty = true
      · rw [pool_take_pos_some_empty nwn d l σ hn hl]
        exact WF_pool_take_core nwn d σ h
      · rw [pool_take_pos_some nwn d l σ hn hl]
        refine WF_pool_take_core nwn d _ ⟨h.1, ?_⟩
        intro g hg
        exact List.mem_range.mpr (hgs l rfl g hg)

theorem WF_applyOp (σ : Pool) (op : Op) (h : WF σ)
    (hop : ∀ nwn d l, op = .take nwn d (some l) → ∀ g ∈ l, g < σ.numGroups) :
    WF (applyOp σ op) := by
  cases op with
  | take nwn d gs =>
    cases gs with
    | none => exact WF_pool_take nwn d none σ h (fun l hl => nomatch hl)
    | some l =>
      refine WF_pool_take nwn d (some l) σ h ?_
      intro l0 hl0
      cases hl0
      exact hop nwn d l rfl
  | exclude ms gs => exact WF_excludeGroups gs _ (WF_excludeMembers ms σ h)
  | decrease ms => exact WF_decrease ms σ h
  | reset => exact WF_reset σ h
  | setDdnws n => exact WF_set_ddnws n σ h
  | groupTake a d g => exact WF_group_take a d g σ h

theorem WF_applyOps : ∀ (ops : List Op) (σ : Pool), WF σ →
    opsInRange σ.numGroups ops → WF (applyOps σ ops) := by
  intro ops
  induction ops with
  | nil => intro σ h _; exact h
  | cons op rest ih =>
    intro σ h hops
    have hnum := applyOp_numGroups σ op
    cases op with
    | take nwn d gs =>
      cases gs with
      | none =>
        refine ih (applyOp σ (.take nwn d none))
          (WF_applyOp σ _ h (fun _ _ _ he => nomatch he)) ?_
        rw [hnum]
        exact hops
      | some l =>
        refine ih (applyOp σ (.take nwn d (some l)))
          (WF_applyOp σ _ h ?_) ?_
        · intro nwn2 d2 l2 he
          cases he
          exact hops.1
        · rw [hnum]
          exact hops.2
    | exclude ms gs =>
      refine ih _ (WF_applyOp σ _ h (fun _ _ _ he => nomatch he)) ?_
      rw [hnum]
      exact hops
    | decrease ms =>
      refine ih _ (WF_applyOp σ _ h (fun _ _ _ he => nomatch he)) ?_
      rw [hnum]
      exact hops
    | reset =>
      refine ih _ (WF_applyOp σ _ h (fun _ _ _ he => nomatch he)) ?_
      rw [hnum]
      exact hops
    | setDdnws n =>
      refine ih _ (WF_applyOp σ _ h (fun _ _ _ he => nomatch he)) ?_
      rw [hnum]
      exact hops
    | groupTake a d g =>
      refine ih _ (WF_applyOp σ _ h (fun _ _ _ he => nomatch he)) ?_
      rw [hnum]
      exact hops

/-! ## Membership in one's own group is preserved by every operation -/

theorem memberOk_of_state {p : Nat} {σ' σ : Pool}
    (hgid : (σ'.persons p).gid = (σ.persons p).gid)
    (hng : σ'.numGroups = σ.numGroups)
    (hperm : ∀ g, ((σ'.groups g).members).Perm ((σ.groups g).members))
    (h : memberOk σ p) : memberOk σ' p := by
  obtain ⟨h1, h2⟩ := h
  constructor
  · rw [hgid, hng]
    exact h1
  · rw [hgid]
    exact (hperm (σ.persons p).gid).mem_iff.mpr h2

theorem group_take_members_perm (a : Option Int) (d : Int) (g : Nat) (σ : Pool)
    (g' : Nat) :
    (((group_take a d g σ).2.groups g').members).Perm ((σ.groups g').members) := by
  cases a with
  | none =>
    by_cases hn : 0 < (σ.groups g).ddnw
    · rw [group_take_none_unfold d g σ hn, (phase2_state _ _ _ _ _ _).1,
        (phase1_state _ _ _ _ _ _).1]
      by_cases hg : g' = g
      · subst hg
        rw [updGroup_groups_same, updGroup_groups_same]
        exact perm_sortBy _ _
      · rw [updGroup_groups_other _ _ _ _ hg, updGroup_groups_other _ _ _ _ hg]
    · rw [group_take_none_zero d g σ (by omega)]
  | some v =>
    by_cases hn : 0 < v
    · rw [group_take_some_unfold v d g σ hn, (phase2_state _ _ _ _ _ _).1,
        (phase1_state _ _ _ _ _ _).1]
      by_cases hg : g' = g
      · subst hg
        rw [updGroup_groups_same, updGroup_groups_same, updGroup_groups_same]
        exact perm_sortBy _ _
      · rw [updGroup_groups_other _ _ _ _ hg, updGroup_groups_other _ _ _ _ hg,
          updGroup_groups_other _ _ _ _ hg]
    · rw [group_take_some_zero v d g σ (by omega)]
      by_cases hg : g' = g
      · subst hg
        rw [updGroup_groups_same]
      · rw [updGroup_groups_other _ _ _ _ hg]

theorem memberOk_group_take (a : Option Int) (d : Int) (g : Nat) (σ : Pool) (p : Nat)
    (h : memberOk σ p) : memberOk (group_take a d g σ).2 p :=
  memberOk_of_state (group_take_evolves a d g σ p).2.1
    (group_take_numGroups a d g σ) (group_take_members_perm a d g σ) h

theorem memberOk_takeAll (d : Int) (p : Nat) :
    ∀ gl acc (σ : Pool), memberOk σ p → memberOk (takeAll d gl acc σ).2 p := by
  intro gl
  induction gl with
  | nil => intro acc σ h; rw [takeAll]; exact h
  | cons g rest ih =>
    intro acc σ h
    rw [takeAll_cons]
    rcases hgt : group_take none d g σ with ⟨res, σ'⟩
    have h' : memberOk σ' p := by
      have hm := memberOk_group_take none d g σ p h
      rw [hgt] at hm
      exact hm
    cases res with
    | error e => exact h'
    | ok l => exact ih _ _ h'

theorem memberOk_excludeMembers (ms : List Nat) (σ : Pool) (p : Nat)
    (h : memberOk σ p) : memberOk (excludeMembers ms σ) p :=
  memberOk_of_state (by rw [excludeMembers_persons])
    (excludeMembers_numGroups ms σ)
    (fun g => by rw [excludeMembers_members]) h

theorem memberOk_set_ddnws (n : Int) (σ : Pool) (p : Nat)
    (h : memberOk σ p) : memberOk (set_ddnws n σ).2 p :=
  memberOk_of_state (by rw [set_ddnws_persons]) (set_ddnws_numGroups n σ)
    (fun g => by rw [(set_ddnws_group_lists n σ g).2.1]) h

theorem memberOk_pool_take_core (nwn d : Int) (σ1 : Pool) (p : Nat)
    (h : memberOk σ1 p) : memberOk (pool_take_core nwn d σ1).2 p := by
  unfold pool_take_core
  dsimp only
  rw [exclude_ms_only, exclude_ms_only]
  rcases hsd : set_ddnws nwn (excludeMembers
      (vacantPersons (excludeMembers (dayoffPersons σ1 d) σ1) d)
      (excludeMembers (dayoffPersons σ1 d) σ1)) with ⟨res, σ4⟩
  have h4 : memberOk σ4 p := by
    have hm := memberOk_set_ddnws nwn (excludeMembers
      (vacantPersons (excludeMembers (dayoffPersons σ1 d) σ1) d)
      (excludeMembers (dayoffPersons σ1 d) σ1)) p
      (memberOk_excludeMembers _ _ p (memberOk_excludeMembers _ _ p h))
    rw [hsd] at hm
    exact hm
  cases res with
  | error e => exact h4
  | ok u =>
    dsimp only
    rcases hta : takeAll d σ4.available_laborforces [] σ4 with ⟨res2, σ5⟩
    have h5 : memberOk σ5 p := by
      have hm := memberOk_takeAll d p σ4.available_laborforces [] σ4 h4
      rw [hta] at hm
      exact hm
    cases res2 with
    | error e => exact h5
    | ok acc =>
      dsimp only
      exact memberOk_of_state rfl rfl (fun g => List.Perm.refl _) h5

theorem memberOk_pool_take (nwn d : Int) (gs : Option (List Nat)) (σ : Pool) (p : Nat)
    (h : memberOk σ p) : memberOk (pool_take nwn d gs σ).2 p := by
  by_cases hn : nwn ≤ 0
  · rw [pool_take_nonpos nwn d gs σ hn]
    exact h
  · cases gs with
    | none =>
      rw [pool_take_pos_none nwn d σ hn]
      exact memberOk_pool_take_core nwn d σ p h
    | some l =>
      by_cases hl : l.isEmpty = true
      · rw [pool_take_pos_some_empty nwn d l σ hn hl]
        exact memberOk_pool_take_core nwn d σ p h
      · rw [pool_take_pos_some nwn d l σ hn hl]
        refine memberOk_pool_take_core nwn d _ p ⟨h.1, h.2⟩

theorem memberOk_applyOp (σ : Pool) (op : Op) (p : Nat)
    (h : memberOk σ p) : memberOk (applyOp σ op) p := by
  cases op with
  | take nwn d gs => exact memberOk_pool_take nwn d gs σ p h
  | exclude ms gs =>
    show memberOk (excludeGroups gs (excludeMembers ms σ)) p
    refine memberOk_of_state ?_ (excludeGroups_numGroups gs _) ?_
      (memberOk_excludeMembers ms σ p h)
    · rw [excludeGroups_persons]
    · intro g
      rw [excludeGroups_groups]
  | decrease ms =>
    show memberOk (decrease ms σ) p
    refine memberOk_of_state ?_ (decrease_numGroups ms σ) ?_ h
    · rw [decrease_persons]
    · intro g
      rw [(decrease_groups_lists ms σ g).1]
  | reset =>
    show memberOk (reset σ) p
    exact memberOk_of_state rfl rfl (fun g => List.Perm.refl _) h
  | setDdnws n => exact memberOk_set_ddnws n σ p h
  | groupTake a d g => exact memberOk_group_take a d g σ p h

theorem memberOk_applyOps (p : Nat) : ∀ (ops : List Op) (σ : Pool),
    memberOk σ p → memberOk (applyOps σ ops) p := by
  intro ops
  induction ops with
  | nil => intro σ h; exact h
  | cons op rest ih =>
    intro σ h
    exact ih (applyOp σ op) (memberOk_applyOp σ op p h)

/-! ## What a successful take records for a selected person -/

/-- A really selected member leaves `Group.take` with the gap dayoff
`[d - gap_size, d + gap_size]` in their record. -/
theorem group_take_sel_gap (a : Option Int) (d : Int) (g : Nat) (σ : Pool)
    (l : List Nat) (p : Nat)
    (h : (group_take a d g σ).1 = .ok l) (hp : p ∈ l) :
    gapInterval d σ.gap_size p ∈ (((group_take a d g σ).2).persons p).dayoffs := by
  cases a with
  | none =>
    by_cases hn : 0 < (σ.groups g).ddnw
    · rw [group_take_none_unfold d g σ hn] at h ⊢
      exact phase2_sel_gap _ _ _ _ _ _ _ _ h hp (List.not_mem_nil p)
    · rw [group_take_none_zero d g σ (by omega)] at h
      cases h
      exact absurd hp (List.not_mem_nil p)
  | some v =>
    by_cases hn : 0 < v
    · rw [group_take_some_unfold v d g σ hn] at h ⊢
      exact phase2_sel_gap _ _ _ _ _ _ _ _ h hp (List.not_mem_nil p)
    · rw [group_take_some_zero v d g σ (by omega)] at h
      cases h
      exact absurd hp (List.not_mem_nil p)

/-- The per-group loop propagates the gap dayoff of every selected
member to the final state. -/
theorem takeAll_sel_gap (d G : Int) (p : Nat) :
    ∀ gl acc (σ : Pool), σ.gap_size = G →
      (p ∈ acc → gapInterval d G p ∈ (σ.persons p).dayoffs) →
      ∀ l, (takeAll d gl acc σ).1 = .ok l → p ∈ l →
      gapInterval d G p ∈ ((takeAll d gl acc σ).2.persons p).dayoffs := by
  intro gl
  induction gl with
  | nil =>
    intro acc σ hgap hacc l h hp
    rw [takeAll] at h ⊢
    cases h
    exact hacc hp
  | cons g rest ih =>
    intro acc σ hgap hacc l h hp
    rw [takeAll_cons] at h ⊢
    rcases hgt : group_take none d g σ with ⟨res, σ'⟩
    rw [hgt] at h
    cases res with
    | error e => dsimp only at h; cases h
    | ok lg =>
      dsimp only at h ⊢
      have hgap' : σ'.gap_size = G := by
        have hh := group_take_gap none d g σ
        rw [hgt] at hh
        exact hh.trans hgap
      refine ih (acc ++ lg) σ' hgap' ?_ l h hp
      intro hin
      rcases List.mem_append.mp hin with hin | hin
      · have he := group_take_evolves none d g σ p
        rw [hgt] at he
        exact he.2.2.2.2.2 _ (hacc hin)
      · have hsel := group_take_sel_gap none d g σ lg p (by rw [hgt]) hin
        rw [hgt] at hsel
        rw [← hgap]
        exact hsel

/-- A member selected by `Group.take` on an in-range group is (and
remains) a listed member of their own group. -/
theorem group_take_sel_member (a : Option Int) (d : Int) (g : Nat) (σ : Pool)
    (l : List Nat) (p : Nat) (hwf : WF σ) (hgr : g < σ.numGroups)
    (h : (group_take a d g σ).1 = .ok l) (hp : p ∈ l) :
    memberOk (group_take a d g σ).2 p := by
  have main : ∀ (qu0 : List Nat), p ∈ sortBy (rankLe σ) (σ.groups g).available_members →
      memberOk (group_take a d g σ).2 p := by
    intro _ hpqu
    have hpav : p ∈ (σ.groups g).available_members := mem_sortBy.mp hpqu
    obtain ⟨b1, b2, b3, b4, b5⟩ := hwf.1 g (List.mem_range.mpr hgr)
    have hm : memberOk σ p := by
      constructor
      · rw [b1 p (b4 p hpav)]
        exact hgr
      · rw [b1 p (b4 p hpav)]
        exact b4 p hpav
    exact memberOk_group_take a d g σ p hm
  cases a with
  | none =>
    by_cases hn : 0 < (σ.groups g).ddnw
    · rw [group_take_none_unfold d g σ hn] at h
      rcases phase2_ok_mem _ _ _ _ _ _ l p h hp with h0 | h0
      · exact absurd h0 (List.not_mem_nil p)
      · exact main [] h0
    · rw [group_take_none_zero d g σ (by omega)] at h
      cases h
      exact absurd hp (List.not_mem_nil p)
  | some v =>
    by_cases hn : 0 < v
    · rw [group_take_some_unfold v d g σ hn] at h
      rcases phase2_ok_mem _ _ _ _ _ _ l p h hp with h0 | h0
      · exact absurd h0 (List.not_mem_nil p)
      · exact main [] h0
    · rw [group_take_some_zero v d g σ (by omega)] at h
      cases h
      exact absurd hp (List.not_mem_nil p)

theorem takeAll_sel_member (d : Int) (p : Nat) :
    ∀ gl acc (σ : Pool), WF σ → (∀ g ∈ gl, g < σ.numGroups) →
      (p ∈ acc → memberOk σ p) →
      ∀ l, (takeAll d gl acc σ).1 = .ok l → p ∈ l →
        memberOk (takeAll d gl acc σ).2 p := by
  intro gl
  induction gl with
  | nil =>
    intro acc σ hwf hr hacc l h hp
    rw [takeAll] at h ⊢
    cases h
    exact hacc hp
  | cons g rest ih =>
    intro acc σ hwf hr hacc l h hp
    rw [takeAll_cons] at h ⊢
    rcases hgt : group_take none d g σ with ⟨res, σ'⟩
    rw [hgt] at h
    cases res with
    | error e => dsimp only at h; cases h
    | ok lg =>
      dsimp only at h ⊢
      have hwf' : WF σ' := by
        have hh := WF_group_take none d g σ hwf
        rw [hgt] at hh
        exact hh
      have hnum : σ'.numGroups = σ.numGroups := by
        have hh := group_take_numGroups none d g σ
        rw [hgt] at hh
        exact hh
      refine ih (acc ++ lg) σ' hwf'
        (fun g2 hg2 => by rw [hnum]; exact hr g2 (List.mem_cons_of_mem g hg2))
        ?_ l h hp
      intro hin
      rcases List.mem_append.mp hin with hin | hin
      · have hm := memberOk_group_take none d g σ p (hacc hin)
        rw [hgt] at hm
        exact hm
      · have hm := group_take_sel_member none d g σ lg p hwf
          (hr g (List.mem_cons_self g rest)) (by rw [hgt]) hin
        rw [hgt] at hm
        exact hm

/-- A successful `LaborPool.take` leaves every selected person a member
in good standing and records their gap dayoff. -/
theorem pool_take_core_ok_analysis (nwn d : Int) (σ1 : Pool) (p : Nat) (l : List Nat)
    (hwf : WF σ1)
    (h : (pool_take_core nwn d σ1).1 = .ok l)
    (hp : p ∈ l) :
    memberOk (pool_take_core nwn d σ1).2 p ∧
    gapInterval d σ1.gap_size p ∈ ((pool_take_core nwn d σ1).2.persons p).dayoffs := by
  unfold pool_take_core at h ⊢
  dsimp only at h ⊢
  rw [exclude_ms_only, exclude_ms_only] at h ⊢
  rcases hsd : set_ddnws nwn (excludeMembers
      (vacantPersons (excludeMembers (dayoffPersons σ1 d) σ1) d)
      (excludeMembers (dayoffPersons σ1 d) σ1)) with ⟨res, σ4⟩
  rw [hsd] at h
  cases res with
  | error e => cases h
  | ok u =>
    dsimp only at h ⊢
    rcases hta : takeAll d σ4.available_laborforces [] σ4 with ⟨res2, σ5⟩
    rw [hta] at h
    cases res2 with
    | error e => cases h
    | ok acc =>
      dsimp only at h ⊢
      cases h
      have hwf4 : WF σ4 := by
        have hh := WF_set_ddnws nwn (excludeMembers
          (vacantPersons (excludeMembers (dayoffPersons σ1 d) σ1) d)
          (excludeMembers (dayoffPersons σ1 d) σ1))
          (WF_excludeMembers _ _ (WF_excludeMembers _ _ hwf))
        rw [hsd] at hh
        exact hh
      have hgap4 : σ4.gap_size = σ1.gap_size := by
        have hh := set_ddnws_gap nwn (excludeMembers
          (vacantPersons (excludeMembers (dayoffPersons σ1 d) σ1) d)
          (excludeMembers (dayoffPersons σ1 d) σ1))
        rw [hsd] at hh
        rw [hh, excludeMembers_gap, excludeMembers_gap]
      have hm5 := takeAll_sel_member d p σ4.available_laborforces [] σ4 hwf4
        (fun g hg => List.mem_range.mp (hwf4.2 g hg))
        (fun hc => absurd hc (List.not_mem_nil p)) l (by rw [hta]) hp
      rw [hta] at hm5
      have hg5 := takeAll_sel_gap d σ1.gap_size p σ4.available_laborforces [] σ4
        hgap4 (fun hc => absurd hc (List.not_mem_nil p)) l (by rw [hta]) hp
      rw [hta] at hg5
      constructor
      · exact memberOk_of_state rfl rfl (fun g => List.Perm.refl _) hm5
      · show gapInterval d σ1.gap_size p ∈ ((reset σ5).persons p).dayoffs
        rw [reset_persons]
        exact hg5

theorem pool_take_ok_analysis (nwn d : Int) (gs : Option (List Nat)) (σ : Pool)
    (p : Nat) (l : List Nat)
    (hwf : WF σ)
    (hgs : ∀ l0, gs = some l0 → ∀ g ∈ l0, g < σ.numGroups)
    (h : (pool_take nwn d gs σ).1 = .ok l)
    (hp : p ∈ l) :
    memberOk (pool_take nwn d gs σ).2 p ∧
    gapInterval d σ.gap_size p ∈ ((pool_take nwn d gs σ).2.persons p).dayoffs := by
  by_cases hn : nwn ≤ 0
  · rw [pool_take_nonpos nwn d gs σ hn] at h
    cases h
  · cases gs with
    | none =>
      rw [pool_take_pos_none nwn d σ hn] at h ⊢
      exact pool_take_core_ok_analysis nwn d σ p l hwf h hp
    | some l0 =>
      by_cases hl : l0.isEmpty = true
      · rw [pool_take_pos_some_empty nwn d l0 σ hn hl] at h ⊢
        exact pool_take_core_ok_analysis nwn d σ p l hwf h hp
      · rw [pool_take_pos_some nwn d l0 σ hn hl] at h ⊢
        refine pool_take_core_ok_analysis nwn d _ p l ⟨hwf.1, ?_⟩ h hp
        intro g hg
        exact List.mem_range.mpr (hgs l0 rfl g hg)

/-- The pool-level dayoff shield: a well-formed member with a dayoff
covering the call date is never in a successful output of
`LaborPool.take` and their person record is untouched. -/
theorem pool_take_dayoff_shield (nwn d : Int) (gs : Option (List Nat)) (σ : Pool)
    (p : Nat) (hwf : WF σ)
    (hgs : ∀ l, gs = some l → ∀ g ∈ l, g < σ.numGroups)
    (hgid : (σ.persons p).gid < σ.numGroups)
    (hmem : p ∈ (σ.groups (σ.persons p).gid).members)
    (hdo : hasDayoff σ p d = true) :
    (∀ l, (pool_take nwn d gs σ).1 = .ok l → p ∉ l) ∧
    (pool_take nwn d gs σ).2.persons p = σ.persons p := by
  have main : ∀ σ1 : Pool, σ1.persons = σ.persons → σ1.groups = σ.groups →
      σ1.numGroups = σ.numGroups →
      (∀ g ∈ σ1.available_laborforces, g < σ.numGroups) →
      (pool_take_core nwn d σ1).2.persons p = σ.persons p ∧
      (∀ l, (pool_take_core nwn d σ1).1 = .ok l → p ∉ l) := by
    intro σ1 hp hg hn1 hr
    obtain ⟨h1, h2⟩ := pool_take_core_dayoff_frame nwn d σ1 p
      (fun g hglt q hq => by
        rw [hp]
        exact (hwf.1 g (List.mem_range.mpr (hn1 ▸ hglt))).1 q (hg ▸ hq))
      (fun g hglt q hq => by
        rw [hg] at hq ⊢
        exact (hwf.1 g (List.mem_range.mpr (hn1 ▸ hglt))).2.2.2.1 q hq)
      (by rw [hp, hg]
          exact (hwf.1 (σ.persons p).gid (List.mem_range.mpr hgid)).2.2.1)
      (fun g hgmem => by rw [hn1]; exact hr g hgmem)
      (by rw [hp, hn1]; exact hgid)
      (by rw [hp, hg]; exact hmem)
      (by rw [hp]
          exact ((hwf.1 (σ.persons p).gid
            (List.mem_range.mpr hgid)).2.2.2.2 p hmem).1)
      (by rw [hasDayoff_congr hp p d]; exact hdo)
    exact ⟨h1.trans (congrFun hp p), h2⟩
  by_cases hn : nwn ≤ 0
  · rw [pool_take_nonpos nwn d gs σ hn]
    exact ⟨(fun l hok => by cases hok), rfl⟩
  · cases gs with
    | none =>
      rw [pool_take_pos_none nwn d σ hn]
      obtain ⟨m1, m2⟩ := main σ rfl rfl rfl
        (fun g hg => List.mem_range.mp (hwf.2 g hg))
      exact ⟨m2, m1⟩
    | some l =>
      by_cases hl : l.isEmpty = true
      · rw [pool_take_pos_some_empty nwn d l σ hn hl]
        obtain ⟨m1, m2⟩ := main σ rfl rfl rfl
          (fun g hg => List.mem_range.mp (hwf.2 g hg))
        exact ⟨m2, m1⟩
      · rw [pool_take_pos_some nwn d l σ hn hl]
        obtain ⟨m1, m2⟩ := main { σ with available_laborforces := l } rfl rfl rfl
          (fun g hg => hgs l rfl g hg)
        exact ⟨m2, m1⟩

/-! ## Claim C7 -/

/-- C7: `Group.take(quota, date)` with a positive quota raises
`RanOutOfMemberError` exactly when its available queue is exhausted
before `ddnw` members have been really selected, i.e. iff the available
queue is shorter than the quota. -/
theorem group_take_ran_out_of_member_iff (q d : Int) (g : Nat) (σ : Pool) (h : 0 < q) :
    ((group_take (some q) d g σ).1 = .error .ranOutOfMember ↔
      ((σ.groups g).available_members.length : Int) < q) := by
  rw [group_take_some_unfold q d g σ h]
  rw [phase2_error_iff d σ.gap_size q _ [] _ (by simpa using h)]
  rw [length_sortBy]
  simp

/-- Witness for C7: a group with quota 2 but only one available member
raises `RanOutOfMemberError`. -/
theorem group_take_ran_out_of_member_iff_witness :
    (0 : Int) < 2 ∧
      ((group_take (some 2) 10 0 exPool1av).1 = .error .ranOutOfMember ↔
        (((exPool1av.groups 0).available_members.length : Int) < 2)) :=
  ⟨by decide, group_take_ran_out_of_member_iff 2 10 0 exPool1av (by decide)⟩

/-! ## Claim C4 -/

/-- C4: a person with a vacancy covering the date and no dayoff,
removed from availability (as the pool-level take does before
delegating), never appears in `Group.take`'s output; their record gains
exactly one `count`/`rank` increment iff they fall within the
top-`ddnw` priority window of their group (phase-1 virtual accounting)
and is untouched otherwise — in particular `real_count` never changes. -/
theorem vacant_member_virtual_accounting (σ : Pool) (a : Option Int) (d : Int) (g p : Nat)
    (hnd : (σ.groups g).members.Nodup)
    (hmem : p ∈ (σ.groups g).members)
    (hnav : p ∉ (σ.groups g).available_members)
    (hdo : hasDayoff σ p d = false)
    (hva : hasVacant σ p d = true) :
    (∀ l, (group_take a d g σ).1 = .ok l → p ∉ l) ∧
    ((group_take a d g σ).2.persons p =
      if virtualWindow σ a d g p then virtMut (σ.persons p) else σ.persons p) := by
  have hpqu : p ∉ sortBy (rankLe σ) (σ.groups g).available_members :=
    fun hc => hnav (mem_sortBy.mp hc)
  cases a with
  | none =>
    by_cases hn : 0 < (σ.groups g).ddnw
    · rw [group_take_none_unfold d g σ hn]
      constructor
      · intro l hok hpl
        rcases phase2_ok_mem _ _ _ _ _ _ l p hok hpl with hmem' | hmem'
        · exact absurd hmem' (List.not_mem_nil p)
        · exact hpqu hmem'
      · rw [phase2_notMem _ _ _ _ _ _ p hpqu]
        have hchar := phase1_char σ none d g
          (updGroup
            (updGroup σ g (fun gr =>
              { gr with members := sortBy (rankLe σ) (σ.groups g).members }))
            g (fun gr =>
              { gr with available_members :=
                  sortBy (rankLe σ) (σ.groups g).available_members }))
          rfl (by simpa using hn) hnd p
        simp only [Option.getD_none] at hchar
        rw [hchar, phase1Effect]
        simp only [hmem, hdo, hva, true_and]
    · rw [group_take_none_zero d g σ (by omega)]
      constructor
      · intro l hok hpl
        cases hok
        exact absurd hpl (List.not_mem_nil p)
      · have hw : ¬ virtualWindow σ none d g p := by
          rw [virtualWindow]
          simp only [Option.getD_none]
          omega
        rw [if_neg hw]
  | some v =>
    by_cases hn : 0 < v
    · rw [group_take_some_unfold v d g σ hn]
      constructor
      · intro l hok hpl
        rcases phase2_ok_mem _ _ _ _ _ _ l p hok hpl with hmem' | hmem'
        · exact absurd hmem' (List.not_mem_nil p)
        · exact hpqu hmem'
      · rw [phase2_notMem _ _ _ _ _ _ p hpqu]
        have hchar := phase1_char σ (some v) d g
          (updGroup
            (updGroup (updGroup σ g (fun gr => { gr with ddnw := v })) g (fun gr =>
              { gr with members := sortBy (rankLe σ) (σ.groups g).members }))
            g (fun gr =>
              { gr with available_members :=
                  sortBy (rankLe σ) (σ.groups g).available_members }))
          rfl (by simpa using hn) hnd p
        simp only [Option.getD_some] at hchar
        rw [hchar, phase1Effect]
        simp only [hmem, hdo, hva, true_and]
    · rw [group_take_some_zero v d g σ (by omega)]
      constructor
      · intro l hok hpl
        cases hok
        exact absurd hpl (List.not_mem_nil p)
      · have hw : ¬ virtualWindow σ (some v) d g p := by
          rw [virtualWindow]
          simp only [Option.getD_some]
          omega
        rw [if_neg hw]
        rfl

/-- Witness for C4: in a two-member group where member 0 is vacant on
the date and was removed from availability, a take with quota 1 leaves
member 0 out of the output and virtually credits them. -/
theorem vacant_member_virtual_accounting_witness :
    ((exPoolVac.groups 0).members.Nodup ∧
      0 ∈ (exPoolVac.groups 0).members ∧
      0 ∉ (exPoolVac.groups 0).available_members ∧
      hasDayoff exPoolVac 0 10 = false ∧
      hasVacant exPoolVac 0 10 = true) ∧
    ((∀ l, (group_take (some 1) 10 0 exPoolVac).1 = .ok l → 0 ∉ l) ∧
      ((group_take (some 1) 10 0 exPoolVac).2.persons 0 =
        if virtualWindow exPoolVac (some 1) 10 0 0
        then virtMut (exPoolVac.persons 0) else exPoolVac.persons 0)) :=
  ⟨⟨by decide, by decide, by decide, by decide, by decide⟩,
    vacant_member_virtual_accounting exPoolVac (some 1) 10 0 0
      (by decide) (by decide) (by decide) (by decide) (by decide)⟩

/-! ## Claim C9 -/

/-- C9: when `Group.take` raises `RanOutOfMemberError`, nothing is
rolled back: every available member (all of them were really selected
before the failure) keeps the incremented `count`, `real_count` and
`rank` and the appended gap dayoff interval, and phase-1 virtual
increments to vacant members also persist. -/
theorem group_take_error_keeps_mutations (σ : Pool) (a : Option Int) (d : Int) (g : Nat)
    (e : Err)
    (hndm : (σ.groups g).members.Nodup)
    (hnda : (σ.groups g).available_members.Nodup)
    (herr : (group_take a d g σ).1 = .error e) :
    e = .ranOutOfMember ∧
    (∀ p ∈ (σ.groups g).available_members,
      (group_take a d g σ).2.persons p =
        realMut d σ.gap_size p (phase1Effect σ a d g p) ∧
      gapInterval d σ.gap_size p ∈ ((group_take a d g σ).2.persons p).dayoffs ∧
      ((group_take a d g σ).2.persons p).real_count = (σ.persons p).real_count + 1) ∧
    (∀ p, p ∉ (σ.groups g).available_members →
      (group_take a d g σ).2.persons p = phase1Effect σ a d g p) := by
  have main : ∀ (n : Int), 0 < n → n = a.getD (σ.groups g).ddnw →
      ∀ σ2 : Pool, σ2.persons = σ.persons →
      (phase2 d σ.gap_size n (sortBy (rankLe σ) (σ.groups g).available_members) []
          (phase1 d n (sortBy (rankLe σ) (σ.groups g).available_members)
            (sortBy (rankLe σ) (σ.groups g).members) 0 σ2)).1 = .error e →
      (group_take a d g σ) = (phase2 d σ.gap_size n
          (sortBy (rankLe σ) (σ.groups g).available_members) []
          (phase1 d n (sortBy (rankLe σ) (σ.groups g).available_members)
            (sortBy (rankLe σ) (σ.groups g).members) 0 σ2)) →
      e = .ranOutOfMember ∧
      (∀ p ∈ (σ.groups g).available_members,
        (group_take a d g σ).2.persons p =
          realMut d σ.gap_size p (phase1Effect σ a d g p) ∧
        gapInterval d σ.gap_size p ∈ ((group_take a d g σ).2.persons p).dayoffs ∧
        ((group_take a d g σ).2.persons p).real_count = (σ.persons p).real_count + 1) ∧
      (∀ p, p ∉ (σ.groups g).available_members →
        (group_take a d g σ).2.persons p = phase1Effect σ a d g p) := by
    intro n hn hgetd σ2 hpers herr2 heq
    have hchar : ∀ p, (phase1 d n (sortBy (rankLe σ) (σ.groups g).available_members)
        (sortBy (rankLe σ) (σ.groups g).members) 0 σ2).persons p =
        phase1Effect σ a d g p := by
      intro p
      have hx := phase1_char σ a d g σ2 hpers (hgetd ▸ hn) hndm p
      rw [← hgetd] at hx
      exact hx
    refine ⟨phase2_error_val _ _ _ _ _ _ _ herr2, ?_, ?_⟩
    · intro p hpav
      have hpqu : p ∈ sortBy (rankLe σ) (σ.groups g).available_members :=
        mem_sortBy.mpr hpav
      have hall := phase2_error_all d σ.gap_size n _ [] _ e
        (nodup_sortBy hnda) herr2 p hpqu
      rw [heq, hall, hchar p]
      refine ⟨rfl, ?_, ?_⟩
      · simp [realMut]
      · rw [phase1Effect]
        split <;> simp [realMut, virtMut]
    · intro p hpav
      have hpqu : p ∉ sortBy (rankLe σ) (σ.groups g).available_members :=
        fun hc => hpav (mem_sortBy.mp hc)
      rw [heq, phase2_notMem _ _ _ _ _ _ p hpqu, hchar p]
  cases a with
  | none =>
    by_cases hn : 0 < (σ.groups g).ddnw
    · have heq := group_take_none_unfold d g σ hn
      exact main (σ.groups g).ddnw hn rfl
        (updGroup
          (updGroup σ g (fun gr =>
            { gr with members := sortBy (rankLe σ) (σ.groups g).members }))
          g (fun gr =>
            { gr with available_members :=
                sortBy (rankLe σ) (σ.groups g).available_members }))
        rfl (by rw [← heq]; exact herr) heq
    · rw [group_take_none_zero d g σ (by omega)] at herr
      cases herr
  | some v =>
    by_cases hn : 0 < v
    · have heq := group_take_some_unfold v d g σ hn
      exact main v hn rfl
        (updGroup
          (updGroup (updGroup σ g (fun gr => { gr with ddnw := v })) g (fun gr =>
            { gr with members := sortBy (rankLe σ) (σ.groups g).members }))
          g (fun gr =>
            { gr with available_members :=
                sortBy (rankLe σ) (σ.groups g).available_members }))
        rfl (by rw [← heq]; exact herr) heq
    · rw [group_take_some_zero v d g σ (by omega)] at herr
      cases herr

/-- Witness for C9: taking quota 2 from a group with one available
member raises, and the one selected member keeps the mutation. -/
theorem group_take_error_keeps_mutations_witness :
    ((exPool1av.groups 0).members.Nodup ∧
      (exPool1av.groups 0).available_members.Nodup ∧
      (group_take (some 2) 10 0 exPool1av).1 = .error .ranOutOfMember) ∧
    ((group_take (some 2) 10 0 exPool1av).2.persons 0 =
      realMut 10 exPool1av.gap_size 0 (phase1Effect exPool1av (some 2) 10 0 0)) :=
  ⟨⟨by decide, by decide, by decide⟩,
    ((group_take_error_keeps_mutations exPool1av (some 2) 10 0 .ranOutOfMember
      (by decide) (by decide) (by decide)).2.1 0 (by decide)).1⟩

/-! ## Claim C3 -/

/-- C3: the accounting lockstep invariant `rank = count + fraction`
holds after initialization (`Person.__init__`) and is preserved by every
selection pass, whether a `Group.take` or a `LaborPool.take`. -/
theorem rank_lockstep_invariant :
    (∀ (name : String) (gid : Nat) (precount : Int) (fr : Frac)
        (dayoffs vacants : List DateInterval),
      (mkPerson name gid precount fr dayoffs vacants).rank =
        (Frac.ofInt (mkPerson name gid precount fr dayoffs vacants).count).add
          (mkPerson name gid precount fr dayoffs vacants).fraction) ∧
    (∀ (a : Option Int) (d : Int) (g : Nat) (σ : Pool),
      rankInv σ → rankInv (group_take a d g σ).2) ∧
    (∀ (nwn d : Int) (gs : Option (List Nat)) (σ : Pool),
      rankInv σ → rankInv (pool_take nwn d gs σ).2) := by
  refine ⟨?_, group_take_rankInv, pool_take_rankInv⟩
  intro name gid pc fr dos vas
  show (Frac.ofInt pc).neg.add fr = (Frac.ofInt (-pc)).add fr
  rfl

/-- Witness for C3 at a concrete pool and take. -/
theorem rank_lockstep_invariant_witness :
    rankInv exPoolConst ∧ rankInv (pool_take 1 10 none exPoolConst).2 :=
  ⟨fun _ => show (exPerson 0 frac0).rank =
      (Frac.ofInt (exPerson 0 frac0).count).add (exPerson 0 frac0).fraction by decide,
    rank_lockstep_invariant.2.2 1 10 none exPoolConst
      (fun _ => show (exPerson 0 frac0).rank =
        (Frac.ofInt (exPerson 0 frac0).count).add (exPerson 0 frac0).fraction by decide)⟩

/-! ## Claim C2 -/

/-- C2 (the claimed behavior does not hold; this is the actual one):
`LaborPool.take` with `quota <= 0` executes `return labors` before
`labors` is assigned, so instead of returning an empty list it raises
`UnboundLocalError`, leaving the state untouched. -/
theorem pool_take_nonpos_unbound_local (nwn d : Int) (gs : Option (List Nat))
    (σ : Pool) (h : nwn ≤ 0) :
    pool_take nwn d gs σ = (.error .unboundLocal, σ) :=
  pool_take_nonpos nwn d gs σ h

/-- Witness for C2 at quota `0`. -/
theorem pool_take_nonpos_unbound_local_witness :
    (0 : Int) ≤ 0 ∧ pool_take 0 10 none exPool2 = (.error .unboundLocal, exPool2) :=
  ⟨le_refl 0, pool_take_nonpos_unbound_local 0 10 none exPool2 (le_refl 0)⟩

/-! ## Claim C8 -/

/-- Counterexample to C8 as stated: with a `decrease` before the take,
a successful `LaborPool.take` does not restore `now_available` to its
pre-call value 1 — reset puts it back to `max_available = 2`. -/
theorem pool_take_not_roundtrip :
    ((decrease [0] exPool2).groups 0).now_available = 1 ∧
    (pool_take 1 10 none (decrease [0] exPool2)).1 = .ok [0] ∧
    ((pool_take 1 10 none (decrease [0] exPool2)).2.groups 0).now_available = 2 :=
  ⟨by decide, by decide, by decide⟩

/-- C8 (amended): after a successful `LaborPool.take`, every group's
`available_members` equals its full `members` list, `now_available`
equals `max_available`, and `available_laborforces` is the full group
list — full membership, not the pre-call contents. -/
theorem pool_take_reset_full_membership (nwn d : Int) (gs : Option (List Nat))
    (σ : Pool) (l : List Nat) (σ' : Pool)
    (h : pool_take nwn d gs σ = (.ok l, σ')) :
    (∀ g : Nat, (σ'.groups g).available_members = (σ'.groups g).members ∧
      (σ'.groups g).now_available = (σ'.groups g).max_available) ∧
    σ'.available_laborforces = List.range σ'.numGroups := by
  have hreset : ∃ σ5, σ' = reset σ5 := by
    by_cases hn : nwn ≤ 0
    · rw [pool_take_nonpos nwn d gs σ hn] at h
      exact absurd (congrArg Prod.fst h) (by simp)
    · cases gs with
      | none =>
        rw [pool_take_pos_none nwn d σ hn] at h
        exact pool_take_core_ok_reset nwn d σ l σ' h
      | some gl =>
        by_cases hl : gl.isEmpty = true
        · rw [pool_take_pos_some_empty nwn d gl σ hn hl] at h
          exact pool_take_core_ok_reset nwn d σ l σ' h
        · rw [pool_take_pos_some nwn d gl σ hn hl] at h
          exact pool_take_core_ok_reset nwn d _ l σ' h
  obtain ⟨σ5, rfl⟩ := hreset
  exact reset_full σ5

/-- Witness for C8 (amended) at a concrete successful take. -/
theorem pool_take_reset_full_membership_witness :
    (pool_take 1 10 none (decrease [0] exPool2)).1 = .ok [0] ∧
    ((∀ g : Nat,
      (((pool_take 1 10 none (decrease [0] exPool2)).2.groups g).available_members =
        ((pool_take 1 10 none (decrease [0] exPool2)).2.groups g).members) ∧
      (((pool_take 1 10 none (decrease [0] exPool2)).2.groups g).now_available =
        ((pool_take 1 10 none (decrease [0] exPool2)).2.groups g).max_available)) ∧
    (pool_take 1 10 none (decrease [0] exPool2)).2.available_laborforces =
      List.range (pool_take 1 10 none (decrease [0] exPool2)).2.numGroups) :=
  ⟨by decide,
    pool_take_reset_full_membership 1 10 none (decrease [0] exPool2) [0] _
      (Prod.ext (by decide) rfl)⟩

/-! ## Claim C10 -/

/-- C10: when every member of every available group has a dayoff
covering the date, a `LaborPool.take` with positive quota divides by
zero in `get_muprime` and raises `ZeroDivisionError`, not
`RanOutOfGroupError` or `RanOutOfMemberError`. -/
theorem pool_take_zero_available_zero_division (nwn d : Int) (σ : Pool)
    (hwf : WF σ) (hnwn : 0 < nwn)
    (hall : ∀ g ∈ σ.available_laborforces, ∀ p ∈ (σ.groups g).members,
        hasDayoff σ p d = true) :
    (pool_take nwn d none σ).1 = .error .zeroDivision := by
  rw [pool_take_pos_none nwn d σ (by omega)]
  unfold pool_take_core
  dsimp only
  simp only [exclude_ms_only]
  have hempty : ∀ g ∈ σ.available_laborforces,
      ((excludeMembers (vacantPersons (excludeMembers (dayoffPersons σ d) σ) d)
        (excludeMembers (dayoffPersons σ d) σ)).groups g).available_members = [] := by
    intro g hg
    rw [List.eq_nil_iff_forall_not_mem]
    intro x hx
    have hx2 : x ∈ ((excludeMembers (dayoffPersons σ d) σ).groups g).available_members :=
      excludeMembers_mem _ _ _ _ hx
    have hx1 : x ∈ (σ.groups g).available_members := excludeMembers_mem _ _ _ _ hx2
    have hgr : g ∈ List.range σ.numGroups := hwf.2 g hg
    obtain ⟨hgid, hndm, hnda, hsub, hiv⟩ := hwf.1 g hgr
    have hxm : x ∈ (σ.groups g).members := hsub x hx1
    have hgx : (σ.persons x).gid = g := hgid x hxm
    have hdox : hasDayoff σ x d = true := hall g hg x hxm
    have hxdp : x ∈ dayoffPersons σ d :=
      mem_dayoffPersons σ d g x (List.mem_range.mp hgr) hxm (hiv x hxm).1 hdox
    have hnot : x ∉ ((excludeMembers (dayoffPersons σ d) σ).groups
        (σ.persons x).gid).available_members :=
      excludeMembers_not_mem _ σ x (by rw [hgx]; exact hnda) hxdp
    rw [hgx] at hnot
    exact hnot hx2
  have hsum : (((excludeMembers (vacantPersons (excludeMembers (dayoffPersons σ d) σ) d)
        (excludeMembers (dayoffPersons σ d) σ)).available_laborforces).map
      (fun g => ((excludeMembers (vacantPersons (excludeMembers (dayoffPersons σ d) σ) d)
        (excludeMembers (dayoffPersons σ d) σ)).groups g).available_members.length)).sum
      = 0 := by
    rw [excludeMembers_avail, excludeMembers_avail]
    apply List.sum_eq_zero
    intro x hx
    obtain ⟨g, hg, rfl⟩ := List.mem_map.mp hx
    rw [hempty g hg]
    rfl
  rw [set_ddnws_zero_den nwn _ hsum]

/-- Witness for C10: a pool whose two members are both on dayoff raises
`ZeroDivisionError` for quota 1. -/
theorem pool_take_zero_available_zero_division_witness :
    (WF exPoolAllDay ∧ (0 : Int) < 1 ∧
      (∀ g ∈ exPoolAllDay.available_laborforces,
        ∀ p ∈ (exPoolAllDay.groups g).members, hasDayoff exPoolAllDay p 10 = true)) ∧
    (pool_take 1 10 none exPoolAllDay).1 = .error .zeroDivision :=
  ⟨⟨by decide, by decide, by decide⟩,
    pool_take_zero_available_zero_division 1 10 exPoolAllDay
      (by decide) (by decide) (by decide)⟩

/-- C5: a member with a dayoff covering the call date is never in the
list returned by `LaborPool.take` and their `count`, `rank` and
`real_count` are unchanged by the call — invisible to both real and
virtual accounting (holds also if they are vacant: the dayoff check is
first). -/
theorem dayoff_member_invisible (nwn d : Int) (gs : Option (List Nat)) (σ : Pool)
    (p : Nat) (hwf : WF σ)
    (hgs : ∀ l, gs = some l → ∀ g ∈ l, g < σ.numGroups)
    (hgid : (σ.persons p).gid < σ.numGroups)
    (hmem : p ∈ (σ.groups (σ.persons p).gid).members)
    (hdo : hasDayoff σ p d = true) :
    (∀ l, (pool_take nwn d gs σ).1 = .ok l → p ∉ l) ∧
    ((pool_take nwn d gs σ).2.persons p).count = (σ.persons p).count ∧
    ((pool_take nwn d gs σ).2.persons p).rank = (σ.persons p).rank ∧
    ((pool_take nwn d gs σ).2.persons p).real_count = (σ.persons p).real_count := by
  obtain ⟨h1, h2⟩ := pool_take_dayoff_shield nwn d gs σ p hwf hgs hgid hmem hdo
  exact ⟨h1, by rw [h2], by rw [h2], by rw [h2]⟩

/-- Witness for C5: in `exPoolDay` member `0` is on dayoff over dates
5–15; a take of quota 1 on date 10 never lists them and keeps their
accounting. -/
theorem dayoff_member_invisible_witness :
    (WF exPoolDay ∧ (exPoolDay.persons 0).gid < exPoolDay.numGroups ∧
      0 ∈ (exPoolDay.groups (exPoolDay.persons 0).gid).members ∧
      hasDayoff exPoolDay 0 10 = true) ∧
    ((∀ l, (pool_take 1 10 none exPoolDay).1 = .ok l → 0 ∉ l) ∧
      ((pool_take 1 10 none exPoolDay).2.persons 0).count =
        (exPoolDay.persons 0).count ∧
      ((pool_take 1 10 none exPoolDay).2.persons 0).rank =
        (exPoolDay.persons 0).rank ∧
      ((pool_take 1 10 none exPoolDay).2.persons 0).real_count =
        (exPoolDay.persons 0).real_count) :=
  ⟨⟨by decide, by decide, by decide, by decide⟩,
    dayoff_member_invisible 1 10 none exPoolDay 0 (by decide)
      (fun l h => nomatch h) (by decide) (by decide) (by decide)⟩

/-- C1 (amended): with a duplicate-free available-group list,
non-negative capacities, and a successful mean computation,
`set_ddnws(N)` terminates normally — and then the `ddnw`s of the
available groups sum to `N` — exactly when `clampedSum ≤ N ≤
sum(now_available)`, where `clampedSum` is the total capacity of the
groups whose fractional demand exceeds their capacity; otherwise it
raises `RanOutOfGroupError`.  The spec's condition `N ≤
sum(now_available)` alone is refuted by the counterexample theorem. -/
theorem set_ddnws_feasibility_characterization (N : Int) (σ : Pool) (mu : Frac)
    (hnd : σ.available_laborforces.Nodup)
    (hna : ∀ g ∈ σ.available_laborforces, 0 ≤ (σ.groups g).now_available)
    (hmu : get_muprime N σ = .ok mu) :
    (clampedSum mu σ σ.available_laborforces ≤ N ∧
        N ≤ sumNow σ σ.available_laborforces →
      (set_ddnws N σ).1 = .ok () ∧
      sumDdnw (set_ddnws N σ).2 σ.available_laborforces = N) ∧
    (¬ (clampedSum mu σ σ.available_laborforces ≤ N ∧
        N ≤ sumNow σ σ.available_laborforces) →
      (set_ddnws N σ).1 = .error .ranOutOfGroup) := by
  unfold set_ddnws
  rw [hmu]
  dsimp only
  obtain ⟨i1, i2, i3, i4⟩ := initDdnws_char mu σ σ.available_laborforces σ rfl
    (fun g => ⟨rfl, rfl⟩)
  rcases hinit : initDdnws mu σ.available_laborforces σ with ⟨σ1, queue, current⟩
  rw [hinit] at i1 i2 i3 i4
  dsimp only at i1 i2 i3 i4 ⊢
  subst i1
  subst i2
  have hnow : ∀ g, (σ1.groups g).now_available = (σ.groups g).now_available := by
    intro g
    have h := (initDdnws_group_lists mu σ.available_laborforces σ g).2.2.1
    rw [hinit] at h
    exact h
  have hQnd : (σ.available_laborforces.filter (fun g => ! clamped mu σ g)).Nodup :=
    hnd.filter _
  have hsubA : ∀ g ∈ σ.available_laborforces.filter (fun g => ! clamped mu σ g),
      g ∈ σ.available_laborforces := fun g hg => List.mem_of_mem_filter hg
  have hclF : ∀ g ∈ σ.available_laborforces.filter (fun g => ! clamped mu σ g),
      clamped mu σ g = false := by
    intro g hg
    have h := List.of_mem_filter hg
    simpa using h
  have hbounds : ∀ g ∈ σ.available_laborforces.filter (fun g => ! clamped mu σ g),
      0 ≤ ddInit mu σ g ∧ ddInit mu σ g ≤ (σ.groups g).now_available :=
    fun g hg => ddInit_bounds mu σ g (hna g (hsubA g hg)) (hclF g hg)
  have hsumdd1 : sumDdnw σ1 σ.available_laborforces =
      (σ.available_laborforces.map (fun g => ddInit mu σ g)).sum := by
    rw [sumDdnw]
    exact congrArg List.sum (List.map_congr_left (fun g hg => i3 g hg))
  have hqdd : ((σ.available_laborforces.filter (fun g => ! clamped mu σ g)).map
      (fun g => (σ1.groups g).ddnw)).sum =
      ((σ.available_laborforces.filter (fun g => ! clamped mu σ g)).map
        (fun g => ddInit mu σ g)).sum :=
    congrArg List.sum (List.map_congr_left (fun g hg => i3 g (hsubA g hg)))
  have hqhead : ((σ.available_laborforces.filter (fun g => ! clamped mu σ g)).map
      (fun g => (σ1.groups g).now_available - (σ1.groups g).ddnw)).sum =
      ((σ.available_laborforces.filter (fun g => ! clamped mu σ g)).map
        (fun g => (σ.groups g).now_available)).sum -
      ((σ.available_laborforces.filter (fun g => ! clamped mu σ g)).map
        (fun g => ddInit mu σ g)).sum := by
    rw [← sum_map_sub]
    exact congrArg List.sum (List.map_congr_left
      (fun g hg => by rw [i3 g (hsubA g hg), hnow g]))
  have E1 : (σ.available_laborforces.map (fun g => ddInit mu σ g)).sum =
      clampedSum mu σ σ.available_laborforces +
      ((σ.available_laborforces.filter (fun g => ! clamped mu σ g)).map
        (fun g => ddInit mu σ g)).sum := by
    rw [sum_split_clamp mu σ (fun g => ddInit mu σ g) σ.available_laborforces]
    congr 1
    rw [clampedSum]
    refine congrArg List.sum (List.map_congr_left ?_)
    intro g hg
    by_cases hcl : clamped mu σ g = true
    · rw [if_pos hcl, if_pos hcl, ddInit, if_pos hcl]
    · rw [if_neg hcl, if_neg hcl]
  have E2 : sumNow σ σ.available_laborforces =
      clampedSum mu σ σ.available_laborforces +
      ((σ.available_laborforces.filter (fun g => ! clamped mu σ g)).map
        (fun g => (σ.groups g).now_available)).sum := by
    rw [sumNow, clampedSum]
    exact sum_split_clamp mu σ (fun g => (σ.groups g).now_available)
      σ.available_laborforces
  have hqddnn : 0 ≤ ((σ.available_laborforces.filter
      (fun g => ! clamped mu σ g)).map (fun g => ddInit mu σ g)).sum := by
    refine List.sum_nonneg ?_
    intro x hx
    obtain ⟨g, hg, rfl⟩ := List.mem_map.mp hx
    exact (hbounds g hg).1
  have hqheadnn : 0 ≤ ((σ.available_laborforces.filter
        (fun g => ! clamped mu σ g)).map
        (fun g => (σ.groups g).now_available)).sum -
      ((σ.available_laborforces.filter (fun g => ! clamped mu σ g)).map
        (fun g => ddInit mu σ g)).sum := by
    rw [← sum_map_sub]
    refine List.sum_nonneg ?_
    intro x hx
    obtain ⟨g, hg, rfl⟩ := List.mem_map.mp hx
    have := (hbounds g hg).2
    omega
  rw [balance]
  constructor
  · rintro ⟨hlo, hhi⟩
    by_cases hcase : (σ.available_laborforces.map (fun g => ddInit mu σ g)).sum ≤ N
    · obtain ⟨r1, r2⟩ := balanceF_inc_ok N σ.available_laborforces hnd
        ((N - (σ.available_laborforces.map (fun g => ddInit mu σ g)).sum).natAbs +
          (σ.available_laborforces.filter (fun g => ! clamped mu σ g)).length + 1)
        (σ.available_laborforces.filter (fun g => ! clamped mu σ g))
        ((σ.available_laborforces.map (fun g => ddInit mu σ g)).sum) σ1
        (by omega) hcase hQnd hsubA
        (fun g hg => by
          rw [i3 g (hsubA g hg), hnow g]
          exact (hbounds g hg).2)
        (by rw [hqhead]; omega)
      exact ⟨r1, by rw [r2, hsumdd1]; ring⟩
    · obtain ⟨r1, r2⟩ := balanceF_dec_ok N σ.available_laborforces hnd
        ((N - (σ.available_laborforces.map (fun g => ddInit mu σ g)).sum).natAbs +
          (σ.available_laborforces.filter (fun g => ! clamped mu σ g)).length + 1)
        (σ.available_laborforces.filter (fun g => ! clamped mu σ g))
        ((σ.available_laborforces.map (fun g => ddInit mu σ g)).sum) σ1
        (by omega) (by omega) hQnd hsubA
        (fun g hg => by
          rw [i3 g (hsubA g hg)]
          exact (hbounds g hg).1)
        (by rw [hqdd]; omega)
      exact ⟨r1, by rw [r2, hsumdd1]; ring⟩
  · intro hinf
    rw [not_and_or, not_le, not_le] at hinf
    rcases hinf with hlo | hhi
    · exact balanceF_dec_err N
        ((N - (σ.available_laborforces.map (fun g => ddInit mu σ g)).sum).natAbs +
          (σ.available_laborforces.filter (fun g => ! clamped mu σ g)).length + 1)
        (σ.available_laborforces.filter (fun g => ! clamped mu σ g))
        ((σ.available_laborforces.map (fun g => ddInit mu σ g)).sum) σ1
        (by omega) hQnd
        (fun g hg => by
          rw [i3 g (hsubA g hg)]
          exact (hbounds g hg).1)
        (by rw [hqdd]; omega)
    · exact balanceF_inc_err N
        ((N - (σ.available_laborforces.map (fun g => ddInit mu σ g)).sum).natAbs +
          (σ.available_laborforces.filter (fun g => ! clamped mu σ g)).length + 1)
        (σ.available_laborforces.filter (fun g => ! clamped mu σ g))
        ((σ.available_laborforces.map (fun g => ddInit mu σ g)).sum) σ1
        (by omega) hQnd
        (fun g hg => by
          rw [i3 g (hsubA g hg), hnow g]
          exact (hbounds g hg).2)
        (by rw [hqhead]; omega)

/-- C1: the spec's feasibility condition is refuted: on a one-member
pool, `N = -1` satisfies `N ≤ sum(now_available)` (so the claim demands
normal termination with `sum(ddnw) = N`), yet `set_ddnws` raises
`RanOutOfGroupError`. -/
theorem set_ddnws_feasible_yet_raises :
    (-1 : Int) ≤ sumNow exPool1 exPool1.available_laborforces ∧
    (set_ddnws (-1) exPool1).1 = .error .ranOutOfGroup := by decide

/-- Witness for C1 (amended): on the one-member pool with `N = 1` the
bounds hold and the apportionment succeeds with total 1. -/
theorem set_ddnws_feasibility_characterization_witness :
    (exPool1.available_laborforces.Nodup ∧
      (∀ g ∈ exPool1.available_laborforces, 0 ≤ (exPool1.groups g).now_available) ∧
      get_muprime 1 exPool1 = .ok ⟨1, 1, one_pos⟩) ∧
    ((clampedSum ⟨1, 1, one_pos⟩ exPool1 exPool1.available_laborforces ≤ 1 ∧
        (1 : Int) ≤ sumNow exPool1 exPool1.available_laborforces →
      (set_ddnws 1 exPool1).1 = .ok () ∧
      sumDdnw (set_ddnws 1 exPool1).2 exPool1.available_laborforces = 1) ∧
     (¬ (clampedSum ⟨1, 1, one_pos⟩ exPool1 exPool1.available_laborforces ≤ 1 ∧
        (1 : Int) ≤ sumNow exPool1 exPool1.available_laborforces) →
      (set_ddnws 1 exPool1).1 = .error .ranOutOfGroup)) :=
  ⟨⟨by decide, by decide, by decide⟩,
    set_ddnws_feasibility_characterization 1 exPool1 ⟨1, 1, one_pos⟩
      (by decide) (by decide) (by decide)⟩

/-- C6: immediately after a successful `LaborPool.take` on date `D`
really selects person `p`, `p`'s dayoffs contain the interval
`[D - gap_size, D + gap_size]`; consequently, after any further sequence
of pool operations (whose explicit `groups` arguments stay in range), no
successful `LaborPool.take` on a date `d` within that window ever
includes `p` again. -/
theorem gap_cooldown_after_selection (nwn D : Int) (gs : Option (List Nat))
    (σ : Pool) (p : Nat) (l : List Nat)
    (hwf : WF σ)
    (hgs : ∀ l0, gs = some l0 → ∀ g ∈ l0, g < σ.numGroups)
    (htake : (pool_take nwn D gs σ).1 = .ok l)
    (hpl : p ∈ l) :
    gapInterval D σ.gap_size p ∈ ((pool_take nwn D gs σ).2.persons p).dayoffs ∧
    (∀ (ops : List Op) (nwn2 d : Int) (gs2 : Option (List Nat)) (l2 : List Nat),
      opsInRange σ.numGroups ops →
      (∀ l0, gs2 = some l0 → ∀ g ∈ l0, g < σ.numGroups) →
      D - σ.gap_size ≤ d → d ≤ D + σ.gap_size →
      (pool_take nwn2 d gs2 (applyOps (pool_take nwn D gs σ).2 ops)).1 = .ok l2 →
      p ∉ l2) := by
  obtain ⟨hm', hgap'⟩ := pool_take_ok_analysis nwn D gs σ p l hwf hgs htake hpl
  have hwf' : WF (pool_take nwn D gs σ).2 := WF_pool_take nwn D gs σ hwf hgs
  have hnum' : (pool_take nwn D gs σ).2.numGroups = σ.numGroups :=
    pool_take_numGroups nwn D gs σ
  refine ⟨hgap', ?_⟩
  intro ops nwn2 d gs2 l2 hops hgs2 hd1 hd2 hok
  have hwf2 : WF (applyOps (pool_take nwn D gs σ).2 ops) :=
    WF_applyOps ops _ hwf' (by rw [hnum']; exact hops)
  have hm2 : memberOk (applyOps (pool_take nwn D gs σ).2 ops) p :=
    memberOk_applyOps p ops _ hm'
  have hev : ((pool_take nwn D gs σ).2.persons p).evolves
      ((applyOps (pool_take nwn D gs σ).2 ops).persons p) :=
    applyOps_evolves p ops _
  have hnum2 : (applyOps (pool_take nwn D gs σ).2 ops).numGroups = σ.numGroups :=
    (applyOps_numGroups ops _).trans hnum'
  have hiv : gapInterval D σ.gap_size p ∈
      ((applyOps (pool_take nwn D gs σ).2 ops).persons p).dayoffs :=
    hev.2.2.2.2.2 _ hgap'
  have hdo2 : hasDayoff (applyOps (pool_take nwn D gs σ).2 ops) p d = true := by
    rw [hasDayoff, List.any_eq_true]
    refine ⟨gapInterval D σ.gap_size p, hiv, ?_⟩
    show (gapInterval D σ.gap_size p).containsD d = true
    rw [DateInterval.containsD]
    simp only [Bool.and_eq_true, decide_eq_true_eq]
    exact ⟨hd1, hd2⟩
  obtain ⟨hshield, _⟩ := pool_take_dayoff_shield nwn2 d gs2
    (applyOps (pool_take nwn D gs σ).2 ops) p hwf2
    (fun l0 hl0 g hg => by rw [hnum2]; exact hgs2 l0 hl0 g hg)
    (by rw [hnum2]; exact (hnum2 ▸ hm2.1 : _)) hm2.2 hdo2
  exact hshield l2 hok

/-- Witness for C6: in `exPool2` (gap 0) the take of quota 1 on date 10
selects member `0`; the theorem yields the recorded dayoff `[10, 10]`
and the exclusion from every in-window later take. -/
theorem gap_cooldown_after_selection_witness :
    (WF exPool2 ∧ (pool_take 1 10 none exPool2).1 = .ok [0] ∧ 0 ∈ [0]) ∧
    (gapInterval 10 exPool2.gap_size 0 ∈
        ((pool_take 1 10 none exPool2).2.persons 0).dayoffs ∧
      (∀ (ops : List Op) (nwn2 d : Int) (gs2 : Option (List Nat)) (l2 : List Nat),
        opsInRange exPool2.numGroups ops →
        (∀ l0, gs2 = some l0 → ∀ g ∈ l0, g < exPool2.numGroups) →
        10 - exPool2.gap_size ≤ d → d ≤ 10 + exPool2.gap_size →
        (pool_take nwn2 d gs2 (applyOps (pool_take 1 10 none exPool2).2 ops)).1 =
          .ok l2 →
        0 ∉ l2)) :=
  ⟨⟨by decide, by decide, by decide⟩,
    gap_cooldown_after_selection 1 10 none exPool2 0 [0] (by decide)
      (fun l0 hl0 => nomatch hl0) (by decide) (by decide)⟩

end Teven
